import Mathlib

/-!
# Verification of the PhotonPulse renderer's intersection and sampling core

This file gives a shallow embedding, in exact arithmetic, of the parts of the
renderer relevant to its specification: the BVH acceleration structure
(`accel.hpp`), the shape intersection routines (`rectangle.cpp`, `sphere.cpp`,
`mesh.cpp`), instancing (`instance.cpp`), the dielectric BSDF
(`dielectric.cpp`), the direct and pathtracer integrators, and the Halton
sampler.  Floating point scalars are modelled by exact rationals; values that
the C++ code lets become IEEE infinities or NaN (the `t` slot of an
intersection record and the results of the slab test's divisions) are modelled
by the four-constructor type `FV` which mirrors IEEE comparison semantics.
Square roots, which are irrational in general, are passed in as an explicit
function argument `sq`; theorems that depend on a square root constrain it
pointwise at the arguments where the code evaluates it.
-/

namespace PhotonPulse

/-- The float scalar model: an exact rational. -/
abbrev Q := ℚ

/-- Model of an IEEE float value that may be ±∞ or NaN: used for intersection
distances and for the results of the slab test's divisions. -/
inductive FV where
  | nan
  | ninf
  | pinf
  | fin (q : Q)
deriving DecidableEq, Repr

/-- IEEE `<` on modelled float values: any comparison involving NaN is false,
`-∞ < q < +∞` for every finite `q`. -/
def FV.lt : FV → FV → Bool
  | .ninf, .pinf => true
  | .ninf, .fin _ => true
  | .fin _, .pinf => true
  | .fin a, .fin b => decide (a < b)
  | _, _ => false

/-- Non-strict comparison on modelled float values (derived, used in
specifications only: the C++ code only ever compares with `<`). -/
def FV.le (a b : FV) : Prop := FV.lt a b = true ∨ a = b

instance : DecidablePred (fun p : FV × FV => FV.le p.1 p.2) := by
  intro p; unfold FV.le; infer_instance

instance (a b : FV) : Decidable (FV.le a b) := by
  unfold FV.le; infer_instance

/-- `std::min(a, b)` is `(b < a) ? b : a`. -/
def cppMin (a b : FV) : FV := if FV.lt b a then b else a

/-- `std::max(a, b)` is `(a < b) ? b : a`. -/
def cppMax (a b : FV) : FV := if FV.lt a b then b else a

/-- A 2D point/vector of exact scalars (`Point2` / `Vector2`). -/
structure Vec2 where
  x : Q
  y : Q
deriving DecidableEq, Repr

/-- A 3D point/vector of exact scalars (`Point` / `Vector`). -/
structure Vec3 where
  x : Q
  y : Q
  z : Q
deriving DecidableEq, Repr

instance : Add Vec3 := ⟨fun a b => ⟨a.x + b.x, a.y + b.y, a.z + b.z⟩⟩
instance : Sub Vec3 := ⟨fun a b => ⟨a.x - b.x, a.y - b.y, a.z - b.z⟩⟩
instance : Neg Vec3 := ⟨fun a => ⟨-a.x, -a.y, -a.z⟩⟩

theorem Vec3.add_def (a b : Vec3) : a + b = ⟨a.x + b.x, a.y + b.y, a.z + b.z⟩ := rfl

theorem Vec3.sub_def (a b : Vec3) : a - b = ⟨a.x - b.x, a.y - b.y, a.z - b.z⟩ := rfl

theorem Vec3.neg_def (a : Vec3) : -a = ⟨-a.x, -a.y, -a.z⟩ := rfl

/-- Scalar multiplication of a 3D vector. -/
def smul3 (s : Q) (v : Vec3) : Vec3 := ⟨s * v.x, s * v.y, s * v.z⟩

/-- The dot product (`Vector::dot`). -/
def Vec3.dot (a b : Vec3) : Q := a.x * b.x + a.y * b.y + a.z * b.z

/-- The cross product (`Vector::cross`). -/
def Vec3.cross (a b : Vec3) : Vec3 :=
  ⟨a.y * b.z - a.z * b.y, a.z * b.x - a.x * b.z, a.x * b.y - a.y * b.x⟩

/-- `Vector::length()` is `sqrt(dot(v, v))`; the square root is supplied by the
explicit square-root argument `sq`. -/
def vlength (sq : Q → Q) (v : Vec3) : Q := sq (Vec3.dot v v)

/-- `Vector::normalized()` divides by the length. -/
def vnormalized (sq : Q → Q) (v : Vec3) : Vec3 := smul3 (1 / vlength sq v) v

/-- The intersection epsilon `Epsilon = 1e-5`. -/
def Epsilon : Q := 1 / 100000

/-- A ray (`Ray`): origin, direction and bounce depth. -/
structure Ray where
  origin : Vec3
  direction : Vec3
  depth : ℤ
deriving DecidableEq, Repr

/-- `Ray::operator()(t)`, the point `origin + t * direction`. -/
def rayAt (r : Ray) (t : Q) : Vec3 := r.origin + smul3 t r.direction

/-- An axis-aligned box with finite rational corners, as handed out by the
primitive interface `getBoundingBox(primitiveIndex)`. -/
structure QBox where
  min : Vec3
  max : Vec3
deriving DecidableEq, Repr

/-- A coordinate triple of modelled float values, used for the corners of BVH
node boxes (which start out as the empty box `(+∞, -∞)`). -/
structure FV3 where
  x : FV
  y : FV
  z : FV
deriving DecidableEq, Repr

/-- `minComponent()`: `*std::min_element` over the three components
(the running minimum is replaced only when the candidate compares `<` it,
so NaN propagation follows the iteration order). -/
def minComponent3 (v : FV3) : FV :=
  let m1 := if FV.lt v.y v.x then v.y else v.x
  if FV.lt v.z m1 then v.z else m1

/-- `maxComponent()`: `*std::max_element` over the three components. -/
def maxComponent3 (v : FV3) : FV :=
  let m1 := if FV.lt v.x v.y then v.y else v.x
  if FV.lt m1 v.z then v.z else m1

/-- A BVH node box (`Bounds`), with possibly infinite corners. -/
structure FBox where
  min : FV3
  max : FV3
deriving DecidableEq, Repr

/-- `Bounds::empty()`: min = +∞, max = -∞. -/
def FBox.empty : FBox := ⟨⟨.pinf, .pinf, .pinf⟩, ⟨.ninf, .ninf, .ninf⟩⟩

/-- Converts a primitive's finite bounding box to the node-box representation. -/
def QBox.toF (b : QBox) : FBox :=
  ⟨⟨.fin b.min.x, .fin b.min.y, .fin b.min.z⟩, ⟨.fin b.max.x, .fin b.max.y, .fin b.max.z⟩⟩

/-- `Bounds::extend(other)`: componentwise `std::min` of the minima and
`std::max` of the maxima. -/
def FBox.extend (b o : FBox) : FBox :=
  ⟨⟨cppMin b.min.x o.min.x, cppMin b.min.y o.min.y, cppMin b.min.z o.min.z⟩,
   ⟨cppMax b.max.x o.max.x, cppMax b.max.y o.max.y, cppMax b.max.z o.max.z⟩⟩

/-- Subtraction `boxCoordinate - originCoordinate` (IEEE: `±∞ - q = ±∞`). -/
def fvSubQ : FV → Q → FV
  | .nan, _ => .nan
  | .ninf, _ => .ninf
  | .pinf, _ => .pinf
  | .fin a, q => .fin (a - q)

/-- IEEE division of a (possibly infinite) numerator by a finite rational
direction component: division by zero yields a signed infinity, `0/0` yields
NaN. -/
def fdivQ : FV → Q → FV
  | .nan, _ => .nan
  | .pinf, d => if d < 0 then .ninf else .pinf
  | .ninf, d => if d < 0 then .pinf else .ninf
  | .fin a, d =>
    if d = 0 then (if 0 < a then .pinf else if a < 0 then .ninf else .nan)
    else .fin (a / d)

/-- Componentwise `(corner - origin) / direction` of the slab test. -/
def slabDiv (corner : FV3) (r : Ray) : FV3 :=
  ⟨fdivQ (fvSubQ corner.x r.origin.x) r.direction.x,
   fdivQ (fvSubQ corner.y r.origin.y) r.direction.y,
   fdivQ (fvSubQ corner.z r.origin.z) r.direction.z⟩

/-- Componentwise `std::min` of two float-value triples (`elementwiseMin`). -/
def ewMin (a b : FV3) : FV3 := ⟨cppMin a.x b.x, cppMin a.y b.y, cppMin a.z b.z⟩

/-- Componentwise `std::max` of two float-value triples (`elementwiseMax`). -/
def ewMax (a b : FV3) : FV3 := ⟨cppMax a.x b.x, cppMax a.y b.y, cppMax a.z b.z⟩

/-- `AccelerationStructure::intersectAABB`: the slab test.  Returns `+∞` when
the box is missed or lies behind the ray, and the (possibly negative) entry
distance `tNear` otherwise. -/
def intersectAABB (bounds : FBox) (r : Ray) : FV :=
  let t1 := slabDiv bounds.min r
  let t2 := slabDiv bounds.max r
  let tNear := maxComponent3 (ewMin t1 t2)
  let tFar := minComponent3 (ewMax t1 t2)
  if FV.lt tFar tNear then .pinf
  else if FV.lt tFar (.fin Epsilon) then .pinf
  else tNear

/-- A shading frame (`Frame`). -/
structure Frame3 where
  tangent : Vec3
  bitangent : Vec3
  normal : Vec3
deriving DecidableEq, Repr

/-- The intersection record (`Intersection`, including its `SurfaceEvent`
base): position, texture coordinates, shading frame, area pdf, the
"instance was set" flag standing in for the instance pointer, the outgoing
direction `wo`, the distance `t`, and the traversal statistics. -/
structure Its where
  position : Vec3
  uv : Vec2
  frame : Frame3
  pdf : Q
  hasInstance : Bool
  wo : Vec3
  t : FV
  bvhCounter : ℕ
  primCounter : ℕ
deriving DecidableEq, Repr

/-- `Rectangle::populate`: texture coordinates from the hit position, the
canonical frame `(ex, ey, ez)`, and the uniform area pdf `1/4`. -/
def Rectangle.populate (its : Its) (position : Vec3) : Its :=
  { its with
    position := position
    uv := ⟨(position.x + 1) / 2, (position.y + 1) / 2⟩
    frame := ⟨⟨1, 0, 0⟩, ⟨0, 1, 0⟩, ⟨0, 0, 1⟩⟩
    pdf := 1 / 4 }

/-- `Rectangle::intersect`: solve `o_z + t d_z = 0`, reject `t < ε` or
`t > its.t` or hit points outside `[-1, 1]²`. -/
def Rectangle.intersect (ray : Ray) (its : Its) : Bool × Its :=
  if ray.direction.z = 0 then (false, its)
  else
    let t := -ray.origin.z / ray.direction.z
    if t < Epsilon ∨ FV.lt its.t (.fin t) then (false, its)
    else
      let position := rayAt ray t
      if 1 < |position.x| ∨ 1 < |position.y| then (false, its)
      else (true, Rectangle.populate { its with t := .fin t } position)

/-- `Sphere::is_quadratic_solution`: the numerically robust quadratic solve.
Returns `none` when the discriminant is negative, otherwise the two roots in
ascending order. -/
def Sphere.isQuadraticSolution (sq : Q → Q) (a b c : Q) : Option (Q × Q) :=
  let discriminant := b * b - 4 * a * c
  if discriminant < 0 then none
  else
    let rootDiscriminant := sq discriminant
    let q := if b < 0 then -(1/2) * (b - rootDiscriminant) else -(1/2) * (b + rootDiscriminant)
    let t0 := q / a
    let t1 := c / q
    if t1 < t0 then some (t1, t0) else some (t0, t1)

/-- `Sphere::populate`: stores the position and an area pdf of `0`; the
commented-out uv/frame computations write nothing. -/
def Sphere.populate (its : Its) (position : Vec3) : Its :=
  { its with position := position, pdf := 0 }

/-- `Sphere::intersect` for the unit sphere at the origin.  Note that on every
miss path the code assigns `its.t = 0.f` before returning false, and that on a
hit it overwrites `its.wo` with the normalized `position - center`. -/
def Sphere.intersect (sq : Q → Q) (ray : Ray) (its : Its) : Bool × Its :=
  let o := ray.origin
  let d := ray.direction
  let a := d.x * d.x + d.y * d.y + d.z * d.z
  let b := 2 * (o.x * d.x + o.y * d.y + o.z * d.z)
  let c := (o.x * o.x + o.y * o.y + o.z * o.z) - 1 * 1
  match Sphere.isQuadraticSolution sq a b c with
  | none => (false, { its with t := .fin 0 })
  | some (t0, t1) =>
    if t0 < 0 ∧ t1 < 0 then (false, { its with t := .fin 0 })
    else
      let t := if t0 < 0 then t1 else t0
      if t < Epsilon then (false, { its with t := .fin 0 })
      else
        let position := rayAt ray t
        let center : Vec3 := ⟨0, 0, 0⟩
        let normalVector := position - center
        Sphere.populate { its with t := .fin t, wo := vnormalized sq normalVector } position
          |> fun its2 => (true, its2)

/-- A triangle-mesh vertex (`Vertex`). -/
structure Vertex where
  position : Vec3
  texcoords : Vec2
  normal : Vec3
deriving DecidableEq, Repr

/-- `interpolateBarycentric` on scalars. -/
def interpolateBarycentricQ (bary : Vec2) (a b c : Q) : Q :=
  a * (1 - bary.x - bary.y) + b * bary.x + c * bary.y

/-- `interpolateBarycentric` on 2D vectors. -/
def interpolateBarycentric2 (bary : Vec2) (a b c : Vec2) : Vec2 :=
  ⟨interpolateBarycentricQ bary a.x b.x c.x, interpolateBarycentricQ bary a.y b.y c.y⟩

/-- `interpolateBarycentric` on 3D vectors. -/
def interpolateBarycentric3 (bary : Vec2) (a b c : Vec3) : Vec3 :=
  ⟨interpolateBarycentricQ bary a.x b.x c.x, interpolateBarycentricQ bary a.y b.y c.y,
   interpolateBarycentricQ bary a.z b.z c.z⟩

/-- `Vertex::interpolate`: barycentric interpolation of position, texture
coordinates and normal. -/
def Vertex.interpolate (bary : Vec2) (a b c : Vertex) : Vertex :=
  ⟨interpolateBarycentric3 bary a.position b.position c.position,
   interpolateBarycentric2 bary a.texcoords b.texcoords c.texcoords,
   interpolateBarycentric3 bary a.normal b.normal c.normal⟩

/-- `TriangleMesh::populate`: stores the position and builds the shading frame
around the given normal.  The texture coordinates and pdf of the surface event
are not written. -/
def TriangleMesh.populate (sq : Q → Q) (its : Its) (position : Vec3) (normal : Vec3) : Its :=
  let tangent :=
    if vlength sq (normal - ⟨0, 0, 1⟩) < Epsilon then (⟨1, 0, 0⟩ : Vec3)
    else vnormalized sq (normal.cross ⟨0, 0, 1⟩)
  let bitangent := normal.cross tangent
  { its with
    position := position
    frame :=
      ⟨vnormalized sq tangent, vnormalized sq bitangent, vnormalized sq normal⟩ }

/-- `TriangleMesh::intersect(primitiveIndex, ...)` on one triangle: the
Möller–Trumbore test. -/
def TriangleMesh.intersectTri (sq : Q → Q) (smooth : Bool) (v0 v1 v2 : Vertex)
    (ray : Ray) (its : Its) : Bool × Its :=
  let edge1 := v1.position - v0.position
  let edge2 := v2.position - v0.position
  let rayXedge2 := ray.direction.cross edge2
  let det := edge1.dot rayXedge2
  if -Epsilon < det ∧ det < Epsilon then (false, its)
  else
    let invDet := 1 / det
    let s := ray.origin - v0.position
    let u := invDet * s.dot rayXedge2
    if u < 0 ∨ 1 < u then (false, its)
    else
      let sXedge1 := s.cross edge1
      let v := invDet * ray.direction.dot sXedge1
      if v < 0 ∨ 1 < u + v then (false, its)
      else
        let t := invDet * edge2.dot sXedge1
        if Epsilon < t ∧ FV.lt (.fin t) its.t then
          let position := rayAt ray t
          let normal :=
            if smooth then vnormalized sq (Vertex.interpolate ⟨u, v⟩ v0 v1 v2).normal
            else vnormalized sq (edge1.cross edge2)
          (true, TriangleMesh.populate sq { its with t := .fin t } position normal)
        else (false, its)

/-- A 3×3 matrix stored by rows. -/
structure Mat3 where
  r0 : Vec3
  r1 : Vec3
  r2 : Vec3
deriving DecidableEq, Repr

/-- Matrix–vector product. -/
def Mat3.mulV (m : Mat3) (v : Vec3) : Vec3 := ⟨m.r0.dot v, m.r1.dot v, m.r2.dot v⟩

/-- An affine transform as stored by `Transform`: the forward matrix and the
explicitly stored inverse, each split into linear part and translation (the
last column of the homogeneous 4×4 matrix). -/
structure TransformM where
  fwdA : Mat3
  fwdB : Vec3
  invA : Mat3
  invB : Vec3
deriving DecidableEq, Repr

/-- `Transform::apply(Point)`. -/
def TransformM.applyP (T : TransformM) (p : Vec3) : Vec3 := T.fwdA.mulV p + T.fwdB

/-- `Transform::apply(Vector)` (no translation). -/
def TransformM.applyV (T : TransformM) (v : Vec3) : Vec3 := T.fwdA.mulV v

/-- `Transform::inverse(Point)`. -/
def TransformM.invP (T : TransformM) (p : Vec3) : Vec3 := T.invA.mulV p + T.invB

/-- `Transform::inverse(Vector)`. -/
def TransformM.invV (T : TransformM) (v : Vec3) : Vec3 := T.invA.mulV v

/-- `Transform::inverse(Ray)`: transforms origin and direction, keeps depth. -/
def TransformM.invRay (T : TransformM) (r : Ray) : Ray :=
  ⟨T.invP r.origin, T.invV r.direction, r.depth⟩

/-- `its.t *= s` for a non-negative float scale `s` (IEEE: `∞ * 0` is NaN). -/
def fvMulQ (t : FV) (s : Q) : FV :=
  match t with
  | .nan => .nan
  | .pinf => if 0 < s then .pinf else if s < 0 then .ninf else .nan
  | .ninf => if 0 < s then .ninf else if s < 0 then .pinf else .nan
  | .fin q => .fin (q * s)

/-- `its.t /= s` (IEEE: division of a finite value by zero gives a signed
infinity, `0/0` gives NaN, `∞/0` stays infinite). -/
def fvDivQ (t : FV) (s : Q) : FV :=
  match t with
  | .nan => .nan
  | .pinf => if s < 0 then .ninf else .pinf
  | .ninf => if s < 0 then .pinf else .ninf
  | .fin q =>
    if s = 0 then (if 0 < q then .pinf else if q < 0 then .ninf else .nan)
    else .fin (q / s)

/-- `Instance::transformFrame` in the common case of no normal map (the
normal-map branch `m_normal` is not modelled; none of the verified scenes use
one): transform and re-normalize tangent and bitangent, rebuild the normal as
their cross product, transform the position, and flip the bitangent when the
transform determinant is negative. -/
def Instance.transformFrame (sq : Q → Q) (T : TransformM) (flipNormal : Bool)
    (surf : Its) : Its :=
  let tangent := vnormalized sq (T.applyV surf.frame.tangent)
  let bitangent := vnormalized sq (T.applyV surf.frame.bitangent)
  let normal := vnormalized sq (tangent.cross bitangent)
  let surf1 := { surf with frame := ⟨tangent, bitangent, normal⟩ }
  let surf2 := { surf1 with position := T.applyP surf1.position }
  if flipNormal then
    { surf2 with frame := { surf2.frame with bitangent := -surf2.frame.bitangent } }
  else surf2

/-- `Instance::intersect`, parameterized by the wrapped shape's intersect
routine: push the world ray through the stored inverse, keep the local
direction's length as a scale, scale `its.t` into local space, delegate, and
scale back / transform frame on a hit, restoring `its.t` on a miss. -/
def Instance.intersect (sq : Q → Q) (transform : Option TransformM) (flipNormal : Bool)
    (inner : Ray → Its → Bool × Its) (worldRay : Ray) (its : Its) : Bool × Its :=
  match transform with
  | none =>
    let r := inner worldRay its
    if r.1 then (true, { r.2 with hasInstance := true }) else (false, r.2)
  | some T =>
    let previousT := its.t
    let localRay0 := T.invRay worldRay
    let localRayScale := vlength sq localRay0.direction
    let localRay := { localRay0 with direction := vnormalized sq localRay0.direction }
    let its1 := { its with t := fvMulQ its.t localRayScale }
    let r := inner localRay its1
    if r.1 then
      let its3 := { r.2 with hasInstance := true, t := fvDivQ r.2.t localRayScale }
      (true, Instance.transformFrame sq T flipNormal its3)
    else (false, { r.2 with t := previousT })

/-! ## The BVH acceleration structure (`accel.hpp`) -/

/-- IEEE subtraction of modelled float values (`∞ - ∞` is NaN). -/
def fvSubF : FV → FV → FV
  | .nan, _ => .nan
  | _, .nan => .nan
  | .pinf, .pinf => .nan
  | .pinf, _ => .pinf
  | .ninf, .ninf => .nan
  | .ninf, _ => .ninf
  | .fin _, .pinf => .ninf
  | .fin _, .ninf => .pinf
  | .fin a, .fin b => .fin (a - b)

/-- IEEE addition of modelled float values (`∞ + (-∞)` is NaN). -/
def fvAddF : FV → FV → FV
  | .nan, _ => .nan
  | _, .nan => .nan
  | .pinf, .ninf => .nan
  | .pinf, _ => .pinf
  | .ninf, .pinf => .nan
  | .ninf, _ => .ninf
  | .fin _, .pinf => .pinf
  | .fin _, .ninf => .ninf
  | .fin a, .fin b => .fin (a + b)

/-- Halving a modelled float value. -/
def fvHalf : FV → FV
  | .nan => .nan
  | .pinf => .pinf
  | .ninf => .ninf
  | .fin a => .fin (a / 2)

/-- `Bounds::diagonal()` is `max - min`. -/
def FBox.diagonal (b : FBox) : FV3 :=
  ⟨fvSubF b.max.x b.min.x, fvSubF b.max.y b.min.y, fvSubF b.max.z b.min.z⟩

/-- `Bounds::center()` is `min + diagonal / 2`. -/
def FBox.center (b : FBox) : FV3 :=
  let d := b.diagonal
  ⟨fvAddF b.min.x (fvHalf d.x), fvAddF b.min.y (fvHalf d.y), fvAddF b.min.z (fvHalf d.z)⟩

/-- Component access by axis index, `v[k]`. -/
def FV3.comp (v : FV3) (k : ℕ) : FV :=
  if k = 0 then v.x else if k = 1 then v.y else v.z

/-- Component access by axis index on rational vectors, `v[k]`. -/
def Vec3.comp (v : Vec3) (k : ℕ) : Q :=
  if k = 0 then v.x else if k = 1 then v.y else v.z

/-- `maxComponentIndex()`: `std::distance(begin, std::max_element(...))`. -/
def maxComponentIndex3 (v : FV3) : ℕ :=
  let i1 := if FV.lt v.x v.y then 1 else 0
  let m1 := if FV.lt v.x v.y then v.y else v.x
  if FV.lt m1 v.z then 2 else i1

/-- A BVH node (`AccelerationStructure::Node`). -/
structure BNode where
  aabb : FBox
  leftFirst : ℕ
  primitiveCount : ℕ
deriving DecidableEq, Repr

/-- A default-constructed node, as produced by `m_nodes.emplace_back()`. -/
def BNode.default : BNode := ⟨FBox.empty, 0, 0⟩

/-- The mutable state of the builder: the node list `m_nodes` and the
primitive-index permutation `m_primitiveIndices`. -/
structure BState where
  nodes : Array BNode
  prims : Array ℕ
deriving Repr

/-- Node lookup `m_nodes[j]`. -/
def getNode (st : BState) (j : ℕ) : BNode := st.nodes.getD j BNode.default

/-- Primitive-index lookup `m_primitiveIndices[k]`. -/
def getPrim (prims : Array ℕ) (k : ℕ) : ℕ := prims.getD k 0

/-- The indexed-collection interface a shape offers to the acceleration
structure: primitive count, per-primitive bounding box and centroid. -/
structure PrimGeom where
  n : ℕ
  bbox : ℕ → QBox
  centroid : ℕ → Vec3

/-- `AccelerationStructure::computeAABB`: union of the primitive boxes of the
node's range, starting from the empty box. -/
def computeAABB (g : PrimGeom) (prims : Array ℕ) (leftFirst count : ℕ) : FBox :=
  (List.range count).foldl
    (fun acc i => acc.extend (g.bbox (getPrim prims (leftFirst + i))).toF) FBox.empty

/-- The two-pointer partition loop of `AccelerationStructure::subdivide`:
advance `firstRightIndex` over centroids left of the split plane, swap others
to the back and shrink `lastLeftIndex` (fuel-based; each iteration shrinks
`lastLeftIndex + 1 - firstRightIndex`, so the caller's fuel of
`primitiveCount + 1` always covers the loop). -/
def partitionLoop (g : PrimGeom) (axis : ℕ) (splitPos : FV) (fuel : ℕ) (prims : Array ℕ)
    (firstRightIndex lastLeftIndex : ℤ) : Array ℕ × ℤ :=
  match fuel with
  | 0 => (prims, firstRightIndex)
  | fuel + 1 =>
    if firstRightIndex ≤ lastLeftIndex then
      if FV.lt (.fin ((g.centroid (getPrim prims firstRightIndex.toNat)).comp axis)) splitPos then
        partitionLoop g axis splitPos fuel prims (firstRightIndex + 1) lastLeftIndex
      else
        let a := getPrim prims firstRightIndex.toNat
        let b := getPrim prims lastLeftIndex.toNat
        let prims2 := (prims.setD firstRightIndex.toNat b).setD lastLeftIndex.toNat a
        partitionLoop g axis splitPos fuel prims2 firstRightIndex (lastLeftIndex - 1)
    else (prims, firstRightIndex)

/-- Writes a computed bounding box into a node (`computeAABB(m_nodes[j])`). -/
def setAABB (st : BState) (j : ℕ) (box : FBox) : BState :=
  { st with nodes := st.nodes.setD j { getNode st j with aabb := box } }

/-- `AccelerationStructure::subdivide`, written with explicit state passing
and a fuel argument for termination (the builder supplies enough fuel for the
recursion, whose depth is bounded by the primitive count). -/
def subdivide (g : PrimGeom) (fuel : ℕ) (st : BState) (idx : ℕ) : BState :=
  match fuel with
  | 0 => st
  | fuel + 1 =>
    let parent := getNode st idx
    if parent.primitiveCount ≤ 2 then st
    else
      let splitAxis := maxComponentIndex3 parent.aabb.diagonal
      let firstPrimitive := parent.leftFirst
      let splitPos := parent.aabb.center.comp splitAxis
      let pr := partitionLoop g splitAxis splitPos (parent.primitiveCount + 1) st.prims
        (firstPrimitive : ℤ) ((firstPrimitive : ℤ) + (parent.primitiveCount : ℤ) - 1)
      let firstRightIndex := pr.2.toNat
      let leftCount := firstRightIndex - firstPrimitive
      let rightCount := parent.primitiveCount - leftCount
      if leftCount = 0 ∨ rightCount = 0 then { st with prims := pr.1 }
      else
        let leftChildIndex := st.nodes.size
        let rightChildIndex := st.nodes.size + 1
        let nodes1 := st.nodes.setD idx
          { parent with primitiveCount := 0, leftFirst := leftChildIndex }
        let nodes2 := ((nodes1.push BNode.default).push BNode.default).setD leftChildIndex
          ⟨FBox.empty, firstPrimitive, leftCount⟩
        let nodes3 := nodes2.setD rightChildIndex ⟨FBox.empty, firstRightIndex, rightCount⟩
        let st1 : BState := ⟨nodes3, pr.1⟩
        let st2 := setAABB st1 leftChildIndex (computeAABB g st1.prims firstPrimitive leftCount)
        let st3 := subdivide g fuel st2 leftChildIndex
        let st4 := setAABB st3 rightChildIndex (computeAABB g st3.prims firstRightIndex rightCount)
        subdivide g fuel st4 rightChildIndex

/-- `AccelerationStructure::buildAccelerationStructure`: identity permutation,
one root node covering everything, then recursive subdivision. -/
def buildAccel (g : PrimGeom) : BState :=
  let prims : Array ℕ := (List.range g.n).toArray
  let st0 : BState := ⟨#[⟨FBox.empty, 0, g.n⟩], prims⟩
  let st1 := setAABB st0 0 (computeAABB g prims 0 g.n)
  subdivide g (g.n + 1) st1 0

/-- `AccelerationStructure::intersectNode`, generic in the intersection-record
type `I`: `pint` is the per-primitive virtual `intersect`, `tOf` reads the
current distance `its.t`, `incB`/`incP` bump the BVH/primitive statistics. -/
def intersectNode {I : Type} (nodes : Array BNode) (prims : Array ℕ)
    (pint : ℕ → Ray → I → Bool × I) (tOf : I → FV) (incB incP : I → I)
    (fuel : ℕ) (ray : Ray) (idx : ℕ) (its : I) : Bool × I :=
  match fuel with
  | 0 => (false, its)
  | fuel + 1 =>
    let node := nodes.getD idx BNode.default
    let its := incB its
    if node.primitiveCount ≠ 0 then
      (List.range node.primitiveCount).foldl
        (fun acc i =>
          let r := pint (getPrim prims (node.leftFirst + i)) ray (incP acc.2)
          (acc.1 || r.1, r.2))
        (false, its)
    else
      let leftT := intersectAABB (nodes.getD node.leftFirst BNode.default).aabb ray
      let rightT := intersectAABB (nodes.getD (node.leftFirst + 1) BNode.default).aabb ray
      if FV.lt leftT rightT then
        let r1 :=
          if FV.lt leftT (tOf its) then
            intersectNode nodes prims pint tOf incB incP fuel ray node.leftFirst its
          else (false, its)
        let r2 :=
          if FV.lt rightT (tOf r1.2) then
            intersectNode nodes prims pint tOf incB incP fuel ray (node.leftFirst + 1) r1.2
          else (false, r1.2)
        (r1.1 || r2.1, r2.2)
      else
        let r1 :=
          if FV.lt rightT (tOf its) then
            intersectNode nodes prims pint tOf incB incP fuel ray (node.leftFirst + 1) its
          else (false, its)
        let r2 :=
          if FV.lt leftT (tOf r1.2) then
            intersectNode nodes prims pint tOf incB incP fuel ray node.leftFirst r1.2
          else (false, r1.2)
        (r1.1 || r2.1, r2.2)

/-- `AccelerationStructure::intersect(ray, its, rng)`: early exit on an empty
collection, root slab test against the current `its.t`, then traversal. -/
def accelIntersect {I : Type} (st : BState)
    (pint : ℕ → Ray → I → Bool × I) (tOf : I → FV) (incB incP : I → I)
    (ray : Ray) (its : I) : Bool × I :=
  if st.prims.size = 0 then (false, its)
  else if FV.lt (intersectAABB (st.nodes.getD 0 BNode.default).aabb ray) (tOf its) then
    intersectNode st.nodes st.prims pint tOf incB incP st.nodes.size ray 0 its
  else (false, its)

/-! ## Colors, the dielectric BSDF (`dielectric.cpp`, `fresnel.hpp`) -/

/-- An RGB color (`Color`). -/
structure Color where
  r : Q
  g : Q
  b : Q
deriving DecidableEq, Repr

instance : Add Color := ⟨fun a b => ⟨a.r + b.r, a.g + b.g, a.b + b.b⟩⟩
instance : Mul Color := ⟨fun a b => ⟨a.r * b.r, a.g * b.g, a.b * b.b⟩⟩

/-- Division of a color by a scalar. -/
def colorDivQ (c : Color) (s : Q) : Color := ⟨c.r / s, c.g / s, c.b / s⟩

/-- `reflect(w, n) = 2 (n·w) n - w` from `math.hpp`. -/
def reflectV (w n : Vec3) : Vec3 := smul3 (2 * n.dot w) n - w

/-- `refract(w, n, eta)` from `math.hpp`: the refracted direction, or the zero
vector on total internal reflection. -/
def refractV (sq : Q → Q) (w n : Vec3) (eta : Q) : Vec3 :=
  let invEta := 1 / eta
  let k := 1 - invEta * invEta * (1 - n.dot w * n.dot w)
  if k < 0 then ⟨0, 0, 0⟩
  else smul3 (invEta * n.dot w - sq k) n - smul3 invEta w

/-- `fresnelDielectric(cosThetaI, eta)` from `fresnel.hpp`: the unpolarized
Fresnel reflectance, `1` on total internal reflection. -/
def fresnelDielectric (sq : Q → Q) (cosThetaI : Q) (eta : Q) : Q :=
  let invEta := 1 / eta
  let cosThetaTSqr := 1 - invEta * invEta * (1 - cosThetaI * cosThetaI)
  if cosThetaTSqr ≤ 0 then 1
  else
    let cosThetaI2 := |cosThetaI|
    let cosThetaT := sq cosThetaTSqr
    let Rs := (eta * cosThetaI2 - cosThetaT) / (eta * cosThetaI2 + cosThetaT)
    let Rp := (cosThetaI2 - eta * cosThetaT) / (cosThetaI2 + eta * cosThetaT)
    (1 / 2) * (Rs * Rs + Rp * Rp)

/-- A BSDF sample (`BsdfSample`): sampled direction and weight. -/
structure BsdfSample where
  wi : Vec3
  weight : Color
deriving DecidableEq, Repr

/-- `Dielectric::sample`, parameterized by the three texture lookups and the
single uniform random number `rnd` drawn from the sampler. -/
def Dielectric.sample (sq : Q → Q) (iorT : Vec2 → Q) (reflT transT : Vec2 → Color)
    (uv : Vec2) (wo : Vec3) (rnd : Q) : BsdfSample :=
  let normal : Vec3 := ⟨0, 0, 1⟩
  let ior := iorT uv
  let cosThetaI := wo.z
  let entering := 0 < cosThetaI
  let ior2 := if entering then ior else 1 / ior
  let normal2 := if entering then normal else -normal
  let F := fresnelDielectric sq |cosThetaI| ior2
  if rnd ≤ F then
    ⟨vnormalized sq (reflectV wo normal2), reflT uv⟩
  else
    ⟨vnormalized sq (refractV sq wo normal2 ior2), colorDivQ (transT uv) (ior2 * ior2)⟩

/-- The dielectric sampling routine exactly as the specification words it:
branch on the unpolarized Fresnel reflectance, with the relative IOR replaced
by its reciprocal and the local normal negated when `wo.z < 0`; the reflection
branch returns `reflect(wo, n)` weighted by the reflectance, the refraction
branch `refract(wo, n, eta)` weighted by `transmittance / eta²`. -/
def Dielectric.sampleSpec (sq : Q → Q) (iorT : Vec2 → Q) (reflT transT : Vec2 → Color)
    (uv : Vec2) (wo : Vec3) (rnd : Q) : BsdfSample :=
  let normal : Vec3 := ⟨0, 0, 1⟩
  let ior := iorT uv
  let flip := wo.z < 0
  let ior2 := if flip then 1 / ior else ior
  let normal2 := if flip then -normal else normal
  let F := fresnelDielectric sq |wo.z| ior2
  if rnd ≤ F then
    ⟨reflectV wo normal2, reflT uv⟩
  else
    ⟨refractV sq wo normal2 ior2, colorDivQ (transT uv) (ior2 * ior2)⟩

/-! ## The integrators (`direct.cpp`, `pathtracer.cpp`) -/

/-- A direct light sample (`DirectLightSample`). -/
structure DLSample where
  wi : Vec3
  weight : Color
  distance : FV
deriving Repr

/-- A light as the integrators see it (`Light`): whether it can be hit by
rays, and its direct-sampling routine. -/
structure PLight where
  canBeIntersected : Bool
  sampleDirect : Vec3 → DLSample

/-- A light sample (`LightSample`): the chosen light and its selection
probability. -/
structure LightSample where
  light : PLight
  probability : Q

/-- What the integrators read off a scene intersection: the hit position and
distance, the emission at the hit, whether the instance has a BSDF, the (for a
fixed sampler state, deterministic) BSDF sample, and BSDF evaluation. -/
structure SHit where
  position : Vec3
  t : FV
  emission : Color
  hasBsdf : Bool
  bsdfSample : BsdfSample
  evalBsdf : Vec3 → Color

/-- The scene interface used by the integrators: intersection (`none` models
an intersection whose instance pointer is null), background evaluation, light
presence and light sampling. -/
structure IScene where
  hit : Ray → Option SHit
  background : Vec3 → Color
  hasLights : Bool
  sampleLight : LightSample

/-- `PathtracerIntegrator::sampleNextEventLight`: skip intersectable lights,
shadow-test the sampled direction, and weight by the BSDF and the selection
probability. -/
def PathtracerIntegrator.sampleNextEventLight (sc : IScene) (its : SHit) : Color :=
  let ls := sc.sampleLight
  if ls.light.canBeIntersected then ⟨0, 0, 0⟩
  else
    let dls := ls.light.sampleDirect its.position
    let shadowRay : Ray := ⟨its.position, dls.wi, 0⟩
    match sc.hit shadowRay with
    | some sh =>
      if FV.lt sh.t dls.distance then ⟨0, 0, 0⟩
      else colorDivQ (dls.weight * its.evalBsdf dls.wi) ls.probability
    | none => colorDivQ (dls.weight * its.evalBsdf dls.wi) ls.probability

/-- `DirectIntegrator::sampleNextEventLight` (the occlusion test is phrased
dually to the pathtracer's: contribute on a miss or when the blocker is
farther than the light). -/
def DirectIntegrator.sampleNextEventLight (sc : IScene) (its : SHit) : Color :=
  let ls := sc.sampleLight
  if ls.light.canBeIntersected then ⟨0, 0, 0⟩
  else
    let dls := ls.light.sampleDirect its.position
    let shadowRay : Ray := ⟨its.position, dls.wi, 0⟩
    match sc.hit shadowRay with
    | some sh =>
      if FV.lt dls.distance sh.t then colorDivQ (dls.weight * its.evalBsdf dls.wi) ls.probability
      else ⟨0, 0, 0⟩
    | none => colorDivQ (dls.weight * its.evalBsdf dls.wi) ls.probability

/-- The body of `PathtracerIntegrator::Li`'s `while (true)` loop.  `primary`
is the `ray` argument of `Li` (which the escape branch reads its background
direction from), `remaining` counts `depth - 1 - bounces`, so the C++ guard
`bounces >= depth - 1` is `remaining = 0`. -/
def PathtracerIntegrator.liLoop (sq : Q → Q) (sc : IScene) (primary : Ray)
    (remaining : ℕ) (weight color : Color) (currentRay : Ray) : Color :=
  match sc.hit currentRay with
  | none => color + weight * sc.background primary.direction
  | some its =>
    let color := color + weight * its.emission
    if ¬its.hasBsdf then color
    else
      match remaining with
      | 0 => color
      | remaining + 1 =>
        let color :=
          if sc.hasLights then color + weight * PathtracerIntegrator.sampleNextEventLight sc its
          else color
        let bs := its.bsdfSample
        let weight := weight * bs.weight
        PathtracerIntegrator.liLoop sq sc primary remaining weight color
          ⟨its.position, vnormalized sq bs.wi, 0⟩

/-- `PathtracerIntegrator::Li` with the configured maximum depth. -/
def PathtracerIntegrator.Li (sq : Q → Q) (sc : IScene) (depth : ℤ) (ray : Ray) : Color :=
  PathtracerIntegrator.liLoop sq sc ray (depth - 1).toNat ⟨1, 1, 1⟩ ⟨0, 0, 0⟩ ray

/-- `DirectIntegrator::Li`. -/
def DirectIntegrator.Li (sq : Q → Q) (sc : IScene) (ray : Ray) : Color :=
  match sc.hit ray with
  | none => sc.background ray.direction
  | some its =>
    let weight : Color := ⟨1, 1, 1⟩
    let color : Color := ⟨0, 0, 0⟩ + weight * its.emission
    if ¬its.hasBsdf then color
    else
      let color :=
        if sc.hasLights then color + weight * DirectIntegrator.sampleNextEventLight sc its
        else color
      let bs := its.bsdfSample
      let weight := weight * bs.weight
      let secondaryRay : Ray := ⟨its.position, vnormalized sq bs.wi, 0⟩
      match sc.hit secondaryRay with
      | none => color + weight * sc.background secondaryRay.direction
      | some its2 => color + weight * its2.emission

/-! ## The Halton sampler (`halton.cpp`) -/

/-- The state of the Halton sampler: the sample index, the next dimension, and
the per-pixel scramble mask. -/
structure HaltonState where
  haltonIndex : ℤ
  dimension : ℕ
  mask : Q
deriving DecidableEq, Repr

/-- The digit-accumulation loop of `Halton::radicalInverse` (fuel-based; the
supplied fuel covers the loop, which divides `i` by the base until it reaches
zero). -/
def radicalInverseLoop (base : ℕ) (fuel : ℕ) (i : ℤ) (f result : Q) : Q :=
  match fuel with
  | 0 => result
  | fuel + 1 =>
    if 0 < i then
      radicalInverseLoop base fuel (i / (base : ℤ)) (f / (base : Q))
        (result + f * ((i % (base : ℤ) : ℤ) : Q))
    else result

/-- `Halton::radicalInverse`: radical inverse of the current sample index in
the base given by the prime table at the current dimension, followed by the
additive scramble (`mask` is added and the sum wrapped back into `[0,1)`), and
the dimension advance. -/
def Halton.radicalInverse (primes : ℕ → ℕ) (st : HaltonState) : Q × HaltonState :=
  let base := primes st.dimension
  let result := radicalInverseLoop base (st.haltonIndex.toNat + 1) st.haltonIndex
    (1 / (base : Q)) 0
  let maskedNumber := result + st.mask
  let maskedNumber := if 1 ≤ maskedNumber then maskedNumber - 1 else maskedNumber
  (maskedNumber, { st with dimension := st.dimension + 1 })

/-- `Halton::seed(pixel, sampleIndex)`.  Modelled from the spec: the scramble
mask is "derived by PCG32 from the pixel coordinate" (`pcg32.h` is not part of
the sources); it is passed in as the function `pcgMask`, a single `[0,1)`
float drawn once per pixel. -/
def Halton.seedPixel (pcgMask : ℤ × ℤ → Q) (pixel : ℤ × ℤ) (sampleIndex : ℤ) : HaltonState :=
  ⟨sampleIndex, 0, pcgMask pixel⟩

/-- `Halton::next()`: one radical-inverse draw. -/
def Halton.next (primes : ℕ → ℕ) (st : HaltonState) : Q × HaltonState :=
  Halton.radicalInverse primes st

/-- The value of the `k`-th call to `next()` (0-based) after seeding. -/
def Halton.nthNext (primes : ℕ → ℕ) (st : HaltonState) : ℕ → Q
  | 0 => (Halton.next primes st).1
  | k + 1 => Halton.nthNext primes (Halton.next primes st).2 k

/-- Modelled from the spec: the radical inverse of a sample index in a given
base, used by the specification's description of the Halton sequence. -/
def radicalInverseSpec (base : ℕ) (i : ℕ) : Q :=
  radicalInverseLoop base (i + 1) (i : ℤ) (1 / (base : Q)) 0

/-- Modelled from the spec: XOR-scrambling of a `[0,1)` value by a `[0,1)`
mask, digitwise on the 24-bit fixed-point representation that a PCG32-derived
float mask occupies. -/
def xorScramble24 (x m : Q) : Q :=
  ((Nat.xor (x * 2 ^ 24).num.toNat (m * 2 ^ 24).num.toNat : ℕ) : Q) / 2 ^ 24

/-! ## The primitive contract of the acceleration structure -/

/-- The intersection record as the acceleration-structure contract sees it:
the distance `t`, the abstract surface data of the closest hit so far (the
position/uv/frame fields collectively, `none` when nothing was hit yet), and
the traversal statistics. -/
structure AIts (D : Type) where
  t : FV
  data : Option D
  bvhCounter : ℕ
  primCounter : ℕ
deriving DecidableEq, Repr

/-- An indexed collection of primitives as the contract describes them: count,
bounding box, centroid, the set (finite list) of ray-intersection distances of
each primitive, and the surface data each primitive reports at a distance. -/
structure PrimModel (D : Type) where
  n : ℕ
  bbox : ℕ → QBox
  centroid : ℕ → Vec3
  hits : ℕ → Ray → List Q
  dataOf : ℕ → Q → D

/-- The geometric interface the builder consumes. -/
def PrimModel.toGeom {D : Type} (pm : PrimModel D) : PrimGeom :=
  ⟨pm.n, pm.bbox, pm.centroid⟩

/-- The hit distances of primitive `i` that lie in `[ε, cap]`. -/
def eligible {D : Type} (pm : PrimModel D) (i : ℕ) (ray : Ray) (cap : FV) : List Q :=
  (pm.hits i ray).filter (fun t => decide (Epsilon ≤ t) && decide (FV.le (.fin t) cap))

/-- The canonical per-primitive `intersect` satisfying the contract: report
the closest eligible hit, update `t` and the surface data on a hit, change
nothing on a miss. -/
def canonicalPint {D : Type} (pm : PrimModel D) (i : ℕ) (ray : Ray) (its : AIts D) :
    Bool × AIts D :=
  match (eligible pm i ray its.t).min? with
  | none => (false, its)
  | some m => (true, { its with t := .fin m, data := some (pm.dataOf i m) })

/-- The primitive contract: `intersect(i, ray, its)` returns true iff
primitive `i` intersects the ray at a distance in `[ε, its.t]`; on a hit it
sets `its.t` to the closest such distance and the data to that of its hit, on
a miss it leaves `its.t` and the data unchanged (the statistics are free). -/
def Conforms {D : Type} (pm : PrimModel D) (pint : ℕ → Ray → AIts D → Bool × AIts D) : Prop :=
  ∀ i, i < pm.n → ∀ ray its,
    match (eligible pm i ray its.t).min? with
    | none =>
      (pint i ray its).1 = false ∧ (pint i ray its).2.t = its.t ∧
        (pint i ray its).2.data = its.data
    | some m =>
      (pint i ray its).1 = true ∧ (pint i ray its).2.t = .fin m ∧
        (pint i ray its).2.data = some (pm.dataOf i m)

/-- Membership in a primitive's bounding box. -/
def inQBox (b : QBox) (p : Vec3) : Prop :=
  b.min.x ≤ p.x ∧ p.x ≤ b.max.x ∧ b.min.y ≤ p.y ∧ p.y ≤ b.max.y ∧
    b.min.z ≤ p.z ∧ p.z ≤ b.max.z

/-- The implicit contract of `getBoundingBox(i)`: every ray hit of primitive
`i` lies inside its reported box. -/
def HitsInBounds {D : Type} (pm : PrimModel D) : Prop :=
  ∀ i, i < pm.n → ∀ ray t, t ∈ pm.hits i ray → inQBox (pm.bbox i) (rayAt ray t)

/-- `AccelerationStructure::intersect` over the contract-level intersection
record. -/
def aIntersect {D : Type} (st : BState) (pint : ℕ → Ray → AIts D → Bool × AIts D)
    (ray : Ray) (its : AIts D) : Bool × AIts D :=
  accelIntersect st pint AIts.t
    (fun i => { i with bvhCounter := i.bvhCounter + 1 })
    (fun i => { i with primCounter := i.primCounter + 1 }) ray its

/-! ## Order lemmas for the float-value model -/

theorem FV.lt_iff_fin {a b : Q} : FV.lt (.fin a) (.fin b) = true ↔ a < b := by
  simp [FV.lt]

theorem FV.not_lt_iff_le {a b : FV} (ha : a ≠ .nan) (hb : b ≠ .nan) :
    FV.lt a b = false ↔ FV.le b a := by
  cases a <;> cases b <;> simp_all [FV.lt, FV.le]
  exact le_iff_lt_or_eq

theorem FV.refl_le (a : FV) : FV.le a a := Or.inr rfl

theorem FV.irrefl_lt (a : FV) : FV.lt a a = false := by
  cases a <;> simp [FV.lt]

theorem FV.trans_lt {a b c : FV} (h1 : FV.lt a b = true) (h2 : FV.lt b c = true) :
    FV.lt a c = true := by
  cases a <;> cases b <;> cases c <;> simp_all [FV.lt]
  exact h1.trans h2

theorem FV.trans_le {a b c : FV} (h1 : FV.le a b) (h2 : FV.le b c) : FV.le a c := by
  rcases h1 with h1 | rfl
  · rcases h2 with h2 | rfl
    · exact Or.inl (FV.trans_lt h1 h2)
    · exact Or.inl h1
  · exact h2

theorem FV.lt_of_lt_of_le {a b c : FV} (h1 : FV.lt a b = true) (h2 : FV.le b c) :
    FV.lt a c = true := by
  rcases h2 with h2 | rfl
  · exact FV.trans_lt h1 h2
  · exact h1

theorem FV.lt_of_le_of_lt {a b c : FV} (h1 : FV.le a b) (h2 : FV.lt b c = true) :
    FV.lt a c = true := by
  rcases h1 with h1 | rfl
  · exact FV.trans_lt h1 h2
  · exact h2

theorem FV.le_of_lt {a b : FV} (h : FV.lt a b = true) : FV.le a b := Or.inl h

theorem FV.not_nan_of_lt_left {a b : FV} (h : FV.lt a b = true) : a ≠ .nan := by
  cases a <;> simp_all [FV.lt]

theorem FV.not_nan_of_lt_right {a b : FV} (h : FV.lt a b = true) : b ≠ .nan := by
  cases a <;> cases b <;> simp_all [FV.lt]

theorem FV.le_fin_iff {a b : Q} : FV.le (.fin a) (.fin b) ↔ a ≤ b := by
  constructor
  · rintro (h | h)
    · exact (FV.lt_iff_fin.mp h).le
    · cases h; exact Preorder.le_refl _
  · intro h
    rcases lt_or_eq_of_le h with h | h
    · exact Or.inl (FV.lt_iff_fin.mpr h)
    · exact Or.inr (by rw [h])

/-! ## Claim C6: the rectangle intersection contract -/

/-- C6.  For every ray and every incoming `its.t`, `Rectangle::intersect`
returns true iff `d_z ≠ 0`, `t = -o_z/d_z` lies in `[ε, its.t]`, and the hit
point has `|x| ≤ 1` and `|y| ≤ 1`; and on true it sets `its.t = t`,
`uv = ((x+1)/2, (y+1)/2)`, the frame `(ex, ey, ez)` and area pdf `1/4`
(the incoming `its.t` is any float value other than NaN). -/
theorem rectangle_intersect_spec (ray : Ray) (its : Its) (h : its.t ≠ FV.nan) :
    ((Rectangle.intersect ray its).1 = true ↔
      (ray.direction.z ≠ 0 ∧ Epsilon ≤ -ray.origin.z / ray.direction.z ∧
       FV.le (.fin (-ray.origin.z / ray.direction.z)) its.t ∧
       |(rayAt ray (-ray.origin.z / ray.direction.z)).x| ≤ 1 ∧
       |(rayAt ray (-ray.origin.z / ray.direction.z)).y| ≤ 1)) ∧
    ((Rectangle.intersect ray its).1 = true →
      (Rectangle.intersect ray its).2 =
        { its with
          t := .fin (-ray.origin.z / ray.direction.z)
          position := rayAt ray (-ray.origin.z / ray.direction.z)
          uv := ⟨((rayAt ray (-ray.origin.z / ray.direction.z)).x + 1) / 2,
                 ((rayAt ray (-ray.origin.z / ray.direction.z)).y + 1) / 2⟩
          frame := ⟨⟨1, 0, 0⟩, ⟨0, 1, 0⟩, ⟨0, 0, 1⟩⟩
          pdf := 1 / 4 }) := by
  by_cases hz : ray.direction.z = 0
  · simp [Rectangle.intersect, hz]
  · by_cases h1 : -ray.origin.z / ray.direction.z < Epsilon
    · have : ¬Epsilon ≤ -ray.origin.z / ray.direction.z := not_le.mpr h1
      simp [Rectangle.intersect, hz, h1, this]
    · by_cases h2 : FV.lt its.t (.fin (-ray.origin.z / ray.direction.z)) = true
      · have : ¬FV.le (.fin (-ray.origin.z / ray.direction.z)) its.t := by
          intro hle
          have := FV.lt_of_lt_of_le h2 hle
          rw [FV.irrefl_lt] at this
          exact Bool.false_ne_true this
        simp [Rectangle.intersect, hz, h1, h2, this]
      · have hle : FV.le (.fin (-ray.origin.z / ray.direction.z)) its.t :=
          (FV.not_lt_iff_le h (by simp)).mp (Bool.eq_false_iff.mpr h2)
        by_cases h3 : 1 < |(rayAt ray (-ray.origin.z / ray.direction.z)).x|
        · simp [Rectangle.intersect, hz, h1, h2, h3, not_le.mpr h3]
        · by_cases h4 : 1 < |(rayAt ray (-ray.origin.z / ray.direction.z)).y|
          · simp [Rectangle.intersect, hz, h1, h2, h3, h4, not_le.mpr h4]
          · simp [Rectangle.intersect, Rectangle.populate, hz, h1, h2, h3, h4,
              not_lt.mp h1, not_lt.mp h3, not_lt.mp h4, hle]

/-- A fresh intersection record (wo zero, `t = ∞`, statistics zero), as
default-constructed by `Intersection()`. -/
def freshIts : Its :=
  ⟨⟨0, 0, 0⟩, ⟨0, 0⟩, ⟨⟨0, 0, 0⟩, ⟨0, 0, 0⟩, ⟨0, 0, 0⟩⟩, 0, false, ⟨0, 0, 0⟩, .pinf, 0, 0⟩

/-- The ray from `(0, 1/2, -1)` along `+z`. -/
def c6Ray : Ray := ⟨⟨0, 1/2, -1⟩, ⟨0, 0, 1⟩, 0⟩

/-- Witness for C6: the ray from `(0, 1/2, -1)` along `+z` with `its.t = ∞`
intersects the rectangle (`t = 1` is eligible and the hit point is inside). -/
theorem rectangle_intersect_spec_witness :
    (freshIts.t ≠ FV.nan) ∧
    ((Rectangle.intersect c6Ray freshIts).1 = true ↔
      (c6Ray.direction.z ≠ 0 ∧ Epsilon ≤ -c6Ray.origin.z / c6Ray.direction.z ∧
       FV.le (.fin (-c6Ray.origin.z / c6Ray.direction.z)) freshIts.t ∧
       |(rayAt c6Ray (-c6Ray.origin.z / c6Ray.direction.z)).x| ≤ 1 ∧
       |(rayAt c6Ray (-c6Ray.origin.z / c6Ray.direction.z)).y| ≤ 1)) :=
  ⟨by decide, (rectangle_intersect_spec c6Ray freshIts (by decide)).1⟩

/-! ## Claim C2: sphere misses clobber `its.t` (code bug) -/

/-- C2 (code bug).  The contract demands that a failed intersect leave
`its.t` unchanged, but `Sphere::intersect` assigns `its.t = 0` on every miss
path: the ray from `(0,0,-3)` in direction `(0,1,0)` misses the unit sphere
(negative discriminant), the call returns false, yet `its.t` drops from `∞`
to `0`. -/
theorem sphere_miss_clobbers_t :
    (Sphere.intersect (fun _ => 0) ⟨⟨0, 0, -3⟩, ⟨0, 1, 0⟩, 0⟩ freshIts).1 = false ∧
    (Sphere.intersect (fun _ => 0) ⟨⟨0, 0, -3⟩, ⟨0, 1, 0⟩, 0⟩ freshIts).2.t = .fin 0 ∧
    freshIts.t = .pinf := by
  norm_num [Sphere.intersect, Sphere.isQuadraticSolution, freshIts]

/-! ## Claim C10: sphere hits overwrite `wo` with the outward unit normal -/

/-- The quadratic coefficient `a` of `Sphere::intersect`. -/
def sphereA (ray : Ray) : Q :=
  ray.direction.x * ray.direction.x + ray.direction.y * ray.direction.y +
    ray.direction.z * ray.direction.z

/-- The quadratic coefficient `b` of `Sphere::intersect`. -/
def sphereB (ray : Ray) : Q :=
  2 * (ray.origin.x * ray.direction.x + ray.origin.y * ray.direction.y +
    ray.origin.z * ray.direction.z)

/-- The quadratic coefficient `c` of `Sphere::intersect`. -/
def sphereC (ray : Ray) : Q :=
  (ray.origin.x * ray.origin.x + ray.origin.y * ray.origin.y +
    ray.origin.z * ray.origin.z) - 1 * 1

/-- The two values returned by `is_quadratic_solution` are exact roots of the
quadratic whenever the supplied square root is exact on the discriminant. -/
theorem isQuadraticSolution_roots (sq : Q → Q) (a b c : Q) (ha : a ≠ 0) (t0 t1 : Q)
    (hs : 0 ≤ b * b - 4 * a * c →
      0 ≤ sq (b * b - 4 * a * c) ∧ sq (b * b - 4 * a * c) * sq (b * b - 4 * a * c) = b * b - 4 * a * c)
    (heq : Sphere.isQuadraticSolution sq a b c = some (t0, t1)) :
    a * t0 * t0 + b * t0 + c = 0 ∧ a * t1 * t1 + b * t1 + c = 0 := by
  unfold Sphere.isQuadraticSolution at heq
  by_cases hd : b * b - 4 * a * c < 0
  · simp [hd] at heq
  · simp only [hd, if_false] at heq
    obtain ⟨hpos, hsq⟩ := hs (not_lt.mp hd)
    set s := sq (b * b - 4 * a * c) with hdefs
    set q : Q := if b < 0 then -(1/2) * (b - s) else -(1/2) * (b + s) with hdefq
    have hq : q * q + b * q + a * c = 0 := by
      by_cases hb : b < 0
      · rw [hdefq]; simp only [hb, if_true]
        linear_combination (1/4 : Q) * hsq
      · rw [hdefq]; simp only [hb, if_false]
        linear_combination (1/4 : Q) * hsq
    have hroots : ∀ t : Q, (t = q / a ∨ t = c / q) → a * t * t + b * t + c = 0 := by
      intro t ht
      by_cases hqz : q = 0
      · have hc : c = 0 := by
          have := hq
          rw [hqz] at this
          simp at this
          rcases this with h | h
          · exact absurd h ha
          · exact h
        rcases ht with rfl | rfl
        · rw [hqz]
          simp [hc]
        · rw [hqz, hc]
          simp
      · rcases ht with rfl | rfl
        · have hstep : a * (q / a) * (q / a) + b * (q / a) + c =
              (q * q + b * q + a * c) / a := by
            field_simp
            ring
          rw [hstep, hq, zero_div]
        · have hstep : a * (c / q) * (c / q) + b * (c / q) + c =
              c * (q * q + b * q + a * c) / (q * q) := by
            field_simp
            ring
          rw [hstep, hq, mul_zero, zero_div]
    have hmem : (t0 = q / a ∨ t0 = c / q) ∧ (t1 = q / a ∨ t1 = c / q) := by
      by_cases hsw : c / q < q / a
      · simp only [hsw, if_true] at heq
        obtain ⟨h1, h2⟩ := Prod.mk.injEq .. ▸ (Option.some.injEq _ _ ▸ heq)
        exact ⟨Or.inr h1.symm, Or.inl h2.symm⟩
      · simp only [hsw, if_false] at heq
        obtain ⟨h1, h2⟩ := Prod.mk.injEq .. ▸ (Option.some.injEq _ _ ▸ heq)
        exact ⟨Or.inl h1.symm, Or.inr h2.symm⟩
    exact ⟨hroots t0 hmem.1, hroots t1 hmem.2⟩

/-- C10.  Whenever `Sphere::intersect` returns true, the `wo` field of the
returned record has been overwritten with `normalize(position - center)`,
which is the outward unit surface normal at the hit point (the hypotheses
require the ray direction to be non-degenerate and the square-root argument to
be exact on the discriminant and at 1). -/
theorem sphere_intersect_overwrites_wo (sq : Q → Q) (ray : Ray) (its : Its)
    (ha : sphereA ray ≠ 0)
    (hs : 0 ≤ sphereB ray * sphereB ray - 4 * sphereA ray * sphereC ray →
      0 ≤ sq (sphereB ray * sphereB ray - 4 * sphereA ray * sphereC ray) ∧
      sq (sphereB ray * sphereB ray - 4 * sphereA ray * sphereC ray) *
        sq (sphereB ray * sphereB ray - 4 * sphereA ray * sphereC ray) =
        sphereB ray * sphereB ray - 4 * sphereA ray * sphereC ray)
    (h1 : sq 1 = 1) :
    (Sphere.intersect sq ray its).1 = true →
      (Sphere.intersect sq ray its).2.wo =
        vnormalized sq ((Sphere.intersect sq ray its).2.position - ⟨0, 0, 0⟩) ∧
      (Sphere.intersect sq ray its).2.wo = (Sphere.intersect sq ray its).2.position ∧
      Vec3.dot (Sphere.intersect sq ray its).2.wo (Sphere.intersect sq ray its).2.wo = 1 := by
  intro htrue
  simp only [Sphere.intersect] at htrue ⊢
  rcases heq : Sphere.isQuadraticSolution sq (sphereA ray) (sphereB ray) (sphereC ray)
    with _ | ⟨t0, t1⟩ <;>
    (have heq2 := heq; simp only [sphereA, sphereB, sphereC] at heq2; rw [heq2] at htrue ⊢)
  · simp at htrue
  · obtain ⟨hr0, hr1⟩ := isQuadraticSolution_roots sq _ _ _ ha t0 t1 hs heq
    by_cases hneg : t0 < 0 ∧ t1 < 0
    · simp [hneg] at htrue
    · simp only [hneg, if_false] at htrue ⊢
      set t : Q := if t0 < 0 then t1 else t0 with hdeft
      have hroot : sphereA ray * t * t + sphereB ray * t + sphereC ray = 0 := by
        rw [hdeft]
        by_cases h0 : t0 < 0
        · simpa [h0] using hr1
        · simpa [h0] using hr0
      by_cases hte : t < Epsilon
      · simp [hte] at htrue
      · simp only [hte, if_false] at htrue ⊢
        simp only [Sphere.populate]
        have hroot2 := hroot
        simp only [sphereA, sphereB, sphereC] at hroot2
        have hunit : Vec3.dot (rayAt ray t - ⟨0, 0, 0⟩) (rayAt ray t - ⟨0, 0, 0⟩) = 1 := by
          simp only [rayAt, Vec3.add_def, Vec3.sub_def, smul3, Vec3.dot]
          linear_combination hroot2
        have hsub : rayAt ray t - (⟨0, 0, 0⟩ : Vec3) = rayAt ray t := by
          simp only [Vec3.sub_def, sub_zero]
        rw [hsub] at hunit
        have hnorm : vnormalized sq (rayAt ray t) = rayAt ray t := by
          unfold vnormalized vlength
          rw [hunit, h1]
          norm_num [smul3]
        refine ⟨trivial, ?_, ?_⟩
        · rw [hsub, hnorm]
        · rw [hsub, hnorm]
          exact hunit

/-- Witness for C10: the ray from `(0,0,-3)` along `+z` hits the unit sphere
at `t = 2`; `wo` comes back as the outward unit normal `(0,0,-1)`. -/
theorem sphere_intersect_overwrites_wo_witness :
    (sphereA ⟨⟨0, 0, -3⟩, ⟨0, 0, 1⟩, 0⟩ ≠ 0) ∧
    ((Sphere.intersect (fun q => if q = 4 then 2 else if q = 1 then 1 else 0)
        ⟨⟨0, 0, -3⟩, ⟨0, 0, 1⟩, 0⟩ freshIts).1 = true →
      (Sphere.intersect (fun q => if q = 4 then 2 else if q = 1 then 1 else 0)
        ⟨⟨0, 0, -3⟩, ⟨0, 0, 1⟩, 0⟩ freshIts).2.wo =
        vnormalized (fun q => if q = 4 then 2 else if q = 1 then 1 else 0)
          ((Sphere.intersect (fun q => if q = 4 then 2 else if q = 1 then 1 else 0)
            ⟨⟨0, 0, -3⟩, ⟨0, 0, 1⟩, 0⟩ freshIts).2.position - ⟨0, 0, 0⟩) ∧
      (Sphere.intersect (fun q => if q = 4 then 2 else if q = 1 then 1 else 0)
        ⟨⟨0, 0, -3⟩, ⟨0, 0, 1⟩, 0⟩ freshIts).2.wo =
        (Sphere.intersect (fun q => if q = 4 then 2 else if q = 1 then 1 else 0)
          ⟨⟨0, 0, -3⟩, ⟨0, 0, 1⟩, 0⟩ freshIts).2.position ∧
      Vec3.dot (Sphere.intersect (fun q => if q = 4 then 2 else if q = 1 then 1 else 0)
          ⟨⟨0, 0, -3⟩, ⟨0, 0, 1⟩, 0⟩ freshIts).2.wo
        (Sphere.intersect (fun q => if q = 4 then 2 else if q = 1 then 1 else 0)
          ⟨⟨0, 0, -3⟩, ⟨0, 0, 1⟩, 0⟩ freshIts).2.wo = 1) :=
  ⟨by norm_num [sphereA],
   sphere_intersect_overwrites_wo (fun q => if q = 4 then 2 else if q = 1 then 1 else 0)
     ⟨⟨0, 0, -3⟩, ⟨0, 0, 1⟩, 0⟩ freshIts (by norm_num [sphereA])
     (by intro _; norm_num [sphereA, sphereB, sphereC]) (by norm_num)⟩

/-! ## Claim C8: the triangle-mesh intersect never writes `uv` (code bug) -/

/-- The unit triangle's vertices with distinct texture coordinates. -/
def c8v0 : Vertex := ⟨⟨0, 0, 0⟩, ⟨0, 0⟩, ⟨0, 0, 1⟩⟩

/-- Second vertex. -/
def c8v1 : Vertex := ⟨⟨1, 0, 0⟩, ⟨1, 0⟩, ⟨0, 0, 1⟩⟩

/-- Third vertex. -/
def c8v2 : Vertex := ⟨⟨0, 1, 0⟩, ⟨0, 1⟩, ⟨0, 0, 1⟩⟩

/-- A square root exact at the points this scene needs. -/
def c8sq : Q → Q := fun q => if q = 1 then 1 else 0

/-- C8 (code bug).  The ray from `(1/4, 1/4, -1)` along `+z` hits the triangle
with barycentrics `u = v = 1/4`; the specification says the intersection's
`uv` equals the barycentric interpolation of the vertex texture coordinates,
`(1/4, 1/4)`, but `TriangleMesh::intersect` computes the interpolated vertex
only for the normal and never writes `its.uv`, which keeps its incoming value
`(7, 7)`. -/
theorem mesh_uv_never_written :
    (TriangleMesh.intersectTri c8sq false c8v0 c8v1 c8v2
      ⟨⟨1/4, 1/4, -1⟩, ⟨0, 0, 1⟩, 0⟩ { freshIts with uv := ⟨7, 7⟩ }).1 = true ∧
    (TriangleMesh.intersectTri c8sq false c8v0 c8v1 c8v2
      ⟨⟨1/4, 1/4, -1⟩, ⟨0, 0, 1⟩, 0⟩ { freshIts with uv := ⟨7, 7⟩ }).2.uv = ⟨7, 7⟩ ∧
    (Vertex.interpolate ⟨1/4, 1/4⟩ c8v0 c8v1 c8v2).texcoords = ⟨1/4, 1/4⟩ ∧
    (TriangleMesh.intersectTri c8sq false c8v0 c8v1 c8v2
      ⟨⟨1/4, 1/4, -1⟩, ⟨0, 0, 1⟩, 0⟩ { freshIts with uv := ⟨7, 7⟩ }).2.uv ≠
      (Vertex.interpolate ⟨1/4, 1/4⟩ c8v0 c8v1 c8v2).texcoords := by
  norm_num [TriangleMesh.intersectTri, TriangleMesh.populate, c8v0, c8v1, c8v2, c8sq,
    Vertex.interpolate, interpolateBarycentric2, interpolateBarycentric3,
    interpolateBarycentricQ, Vec3.cross, Vec3.dot, Vec3.sub_def, Vec3.add_def, rayAt, smul3,
    vnormalized, vlength, freshIts, Epsilon, FV.lt]

/-! ## Claim C4: the instanced scaled triangle is hit at world distance 1 -/

/-- The one-triangle mesh's collection interface: one primitive with the
triangle's bounding box and centroid. -/
def c4MeshGeom : PrimGeom := ⟨1, fun _ => ⟨⟨0, 0, 0⟩, ⟨1, 1, 0⟩⟩, fun _ => ⟨1/3, 1/3, 0⟩⟩

/-- The BVH the mesh builds over its single triangle. -/
def c4MeshSt : BState := buildAccel c4MeshGeom

/-- A square root exact at the points this scene needs (`1/4` for the scaled
ray direction, `4` for the scaled tangent, `1` for the normalizations). -/
def c4sq : Q → Q := fun q => if q = 1/4 then 1/2 else if q = 1 then 1 else if q = 4 then 2 else 0

/-- The per-primitive intersect of the one-triangle mesh. -/
def c4pint : ℕ → Ray → Its → Bool × Its := fun _ ray its =>
  TriangleMesh.intersectTri c4sq false c8v0 c8v1 c8v2 ray its

/-- `TriangleMesh::intersect(ray, its, rng)`: the acceleration-structure
traversal over the single triangle. -/
def c4MeshIntersect : Ray → Its → Bool × Its := fun ray its =>
  accelIntersect c4MeshSt c4pint Its.t
    (fun i => { i with bvhCounter := i.bvhCounter + 1 })
    (fun i => { i with primCounter := i.primCounter + 1 }) ray its

/-- The `scale(2)` transform with its stored inverse. -/
def c4Transform : TransformM :=
  ⟨⟨⟨2, 0, 0⟩, ⟨0, 2, 0⟩, ⟨0, 0, 2⟩⟩, ⟨0, 0, 0⟩,
   ⟨⟨1/2, 0, 0⟩, ⟨0, 1/2, 0⟩, ⟨0, 0, 1/2⟩⟩, ⟨0, 0, 0⟩⟩

/-- The one-triangle BVH in explicit form: a single leaf root over the
primitive list `[0]`, with the triangle's box. -/
theorem c4MeshSt_eq :
    c4MeshSt = ⟨#[⟨⟨⟨.fin 0, .fin 0, .fin 0⟩, ⟨.fin 1, .fin 1, .fin 0⟩⟩, 0, 1⟩], #[0]⟩ := rfl

/-- `transformFrame` does not touch the distance slot. -/
theorem transformFrame_t (sq : Q → Q) (T : TransformM) (flip : Bool) (s : Its) :
    (Instance.transformFrame sq T flip s).t = s.t := by
  by_cases h : flip <;> simp [Instance.transformFrame, h]

/-- The local ray of the instanced triangle scene, before normalization. -/
theorem c4_localRay :
    TransformM.invRay c4Transform ⟨⟨1/2, 1/2, -1⟩, ⟨0, 0, 1⟩, 0⟩ =
      ⟨⟨1/4, 1/4, -1/2⟩, ⟨0, 0, 1/2⟩, 0⟩ := by
  norm_num [TransformM.invRay, TransformM.invP, TransformM.invV, Mat3.mulV, Vec3.dot,
    Vec3.add_def, c4Transform]

/-- The triangle is hit at local distance `1/2` by the normalized local ray. -/
theorem c4_tri (its : Its) (h : its.t = .pinf) :
    (TriangleMesh.intersectTri c4sq false c8v0 c8v1 c8v2
        ⟨⟨1/4, 1/4, -1/2⟩, ⟨0, 0, 1⟩, 0⟩ its).1 = true ∧
    (TriangleMesh.intersectTri c4sq false c8v0 c8v1 c8v2
        ⟨⟨1/4, 1/4, -1/2⟩, ⟨0, 0, 1⟩, 0⟩ its).2.t = .fin (1/2) := by
  norm_num [TriangleMesh.intersectTri, TriangleMesh.populate, c8v0, c8v1, c8v2, c4sq,
    Vertex.interpolate, interpolateBarycentric2, interpolateBarycentric3,
    interpolateBarycentricQ, Vec3.cross, Vec3.dot, Vec3.sub_def, Vec3.add_def, rayAt, smul3,
    vnormalized, vlength, Epsilon, FV.lt, h]

/-- One traversal step on a leaf node holding a single primitive. -/
theorem intersectNode_one {I : Type} (nodes : Array BNode) (prims : Array ℕ)
    (pint : ℕ → Ray → I → Bool × I) (tOf : I → FV) (incB incP : I → I)
    (fuel : ℕ) (ray : Ray) (idx : ℕ) (its : I) (bx : FBox) (lf : ℕ)
    (h : nodes.getD idx BNode.default = ⟨bx, lf, 1⟩) :
    intersectNode nodes prims pint tOf incB incP (fuel + 1) ray idx its =
      ((pint (getPrim prims (lf + 0)) ray (incP (incB its))).1,
       (pint (getPrim prims (lf + 0)) ray (incP (incB its))).2) := by
  simp [intersectNode, h, List.range_succ]

/-- The slab test of the triangle's box against the local ray enters at
`tNear = 1/2`. -/
theorem c4_slab :
    intersectAABB ⟨⟨.fin 0, .fin 0, .fin 0⟩, ⟨.fin 1, .fin 1, .fin 0⟩⟩
      ⟨⟨1/4, 1/4, -1/2⟩, ⟨0, 0, 1⟩, 0⟩ = .fin (1/2) := by
  norm_num [intersectAABB, slabDiv, fvSubQ, fdivQ, ewMin, ewMax, cppMin, cppMax,
    minComponent3, maxComponent3, FV.lt, Epsilon]

/-- The mesh's BVH traversal reports the triangle hit at `t = 1/2`. -/
theorem c4_mesh (its : Its) (h : its.t = .pinf) :
    (c4MeshIntersect ⟨⟨1/4, 1/4, -1/2⟩, ⟨0, 0, 1⟩, 0⟩ its).1 = true ∧
    (c4MeshIntersect ⟨⟨1/4, 1/4, -1/2⟩, ⟨0, 0, 1⟩, 0⟩ its).2.t = .fin (1/2) := by
  obtain ⟨h1, h2⟩ :=
    c4_tri { its with primCounter := its.primCounter + 1, bvhCounter := its.bvhCounter + 1 }
      (by simp [h])
  have hroot : c4MeshSt.nodes.getD 0 BNode.default =
      ⟨⟨⟨.fin 0, .fin 0, .fin 0⟩, ⟨.fin 1, .fin 1, .fin 0⟩⟩, 0, 1⟩ := rfl
  have hsize : c4MeshSt.prims.size = 1 := rfl
  have hnsize : c4MeshSt.nodes.size = 1 := rfl
  have hprim : getPrim c4MeshSt.prims (0 + 0) = 0 := rfl
  rw [h] at h1 h2
  norm_num at h1 h2
  simp only [c4MeshIntersect, accelIntersect, hsize, hroot, hnsize, c4_slab,
    intersectNode_one c4MeshSt.nodes c4MeshSt.prims c4pint Its.t _ _ 0
      ⟨⟨1/4, 1/4, -1/2⟩, ⟨0, 0, 1⟩, 0⟩ 0 its _ 0 hroot, hprim, c4pint, h]
  norm_num [FV.lt, h1, h2]

/-- C4.  The instance wrapping the triangle `(0,0,0)-(1,0,0)-(0,1,0)` under a
`scale(2)` transform, intersected with the world ray `(0.5, 0.5, -1) → (0,0,1)`
and `its.t = ∞`, reports a hit at world-space distance `t = 1`. -/
theorem instance_scale2_triangle_hits_at_t1 :
    (Instance.intersect c4sq (some c4Transform) false c4MeshIntersect
      ⟨⟨1/2, 1/2, -1⟩, ⟨0, 0, 1⟩, 0⟩ freshIts).1 = true ∧
    (Instance.intersect c4sq (some c4Transform) false c4MeshIntersect
      ⟨⟨1/2, 1/2, -1⟩, ⟨0, 0, 1⟩, 0⟩ freshIts).2.t = .fin 1 := by
  have hnorm : vnormalized c4sq (⟨0, 0, 1/2⟩ : Vec3) = ⟨0, 0, 1⟩ := by
    norm_num [vnormalized, vlength, Vec3.dot, smul3, c4sq]
  have hlen : vlength c4sq (⟨0, 0, 1/2⟩ : Vec3) = 1/2 := by
    norm_num [vlength, Vec3.dot, c4sq]
  obtain ⟨h1, h2⟩ := c4_mesh { freshIts with t := fvMulQ freshIts.t (1/2) }
    (by norm_num [freshIts, fvMulQ])
  simp only [Instance.intersect, c4_localRay, hnorm, hlen]
  norm_num [freshIts, fvMulQ] at h1 h2
  norm_num [freshIts, fvMulQ, h1, h2, transformFrame_t, fvDivQ]

/-! ## Claim C5: the pathtracer evaluates the background at the wrong ray -/

theorem Color.add_parts (a b : Color) : a + b = ⟨a.r + b.r, a.g + b.g, a.b + b.b⟩ := rfl

theorem Color.mul_def (a b : Color) : a * b = ⟨a.r * b.r, a.g * b.g, a.b * b.b⟩ := rfl

/-- The primary ray of the escape scene. -/
def c5Ray : Ray := ⟨⟨0, 0, 0⟩, ⟨0, 0, 1⟩, 0⟩

/-- The single surface of the escape scene: no emission, an ideal BSDF whose
sample points sideways to `(1, 0, 0)` with weight one. -/
def c5Hit : SHit :=
  ⟨⟨0, 0, 2⟩, .fin 2, ⟨0, 0, 0⟩, true, ⟨⟨1, 0, 0⟩, ⟨1, 1, 1⟩⟩, fun _ => ⟨0, 0, 0⟩⟩

/-- The escape scene: the primary ray hits `c5Hit`, everything else escapes;
the background is red along the primary direction `(0,0,1)` and green
everywhere else, so the two rays can be told apart; no sampleable lights. -/
def c5Scene : IScene :=
  ⟨fun r => if r = c5Ray then some c5Hit else none,
   fun d => if d = ⟨0, 0, 1⟩ then ⟨1, 0, 0⟩ else ⟨0, 1, 0⟩,
   false,
   ⟨⟨false, fun _ => ⟨⟨0, 0, 0⟩, ⟨0, 0, 0⟩, .pinf⟩⟩, 1⟩⟩

/-- A square root exact at 1, all the scene needs. -/
def c5sq : Q → Q := fun q => if q = 1 then 1 else 0

/-- C5 (code bug).  With depth 2, the pathtracer's first bounce escapes in
direction `(1,0,0)`, yet `Li` returns the background of the primary direction
`(0,0,1)` (red): `pathtracer.cpp` line 52 evaluates
`m_scene->evaluateBackground(ray.direction)` with the original `ray` instead
of the escaped continuation ray.  The Direct integrator on the same scene
evaluates the background at the secondary ray's direction and returns green,
the behaviour the claim describes. -/
theorem pathtracer_escape_uses_primary_direction :
    PathtracerIntegrator.Li c5sq c5Scene 2 c5Ray = ⟨1, 0, 0⟩ ∧
    c5Scene.background ⟨1, 0, 0⟩ = ⟨0, 1, 0⟩ ∧
    DirectIntegrator.Li c5sq c5Scene c5Ray = ⟨0, 1, 0⟩ ∧
    PathtracerIntegrator.Li c5sq c5Scene 2 c5Ray ≠ DirectIntegrator.Li c5sq c5Scene c5Ray := by
  have hdepth : ((2 : ℤ) - 1).toNat = 1 := rfl
  norm_num [PathtracerIntegrator.Li, hdepth, PathtracerIntegrator.liLoop,
    DirectIntegrator.Li, c5Scene, c5Ray, c5Hit, c5sq, vnormalized, vlength, smul3, Vec3.dot,
    Color.add_parts, Color.mul_def, Ray.mk.injEq, Vec3.mk.injEq]

/-! ## Claim C9: the Halton sequence at pixel (7,11), sample index 0 -/

/-- At sample index 0 every dimension's digit loop is empty, so `next()`
returns the scramble mask itself and advances the dimension. -/
theorem halton_next_const (primes : ℕ → ℕ) (m : Q) (hm1 : m < 1) (d : ℕ) :
    Halton.next primes ⟨0, d, m⟩ = (m, ⟨0, d + 1, m⟩) := by
  simp [Halton.next, Halton.radicalInverse, radicalInverseLoop, not_le.mpr hm1]

/-- Every draw after seeding with sample index 0 yields the mask. -/
theorem halton_nth_const (primes : ℕ → ℕ) (m : Q) (hm1 : m < 1) :
    ∀ (k d : ℕ), Halton.nthNext primes ⟨0, d, m⟩ k = m := by
  intro k
  induction k with
  | zero => intro d; simp [Halton.nthNext, halton_next_const primes m hm1 d]
  | succ k ih =>
    intro d
    simp [Halton.nthNext, halton_next_const primes m hm1 d, ih (d + 1)]

/-- XOR-scrambling the zero radical inverse by a 24-bit fixed-point mask
returns the mask. -/
theorem xorScramble24_zero (j : ℕ) :
    xorScramble24 0 ((j : Q) / 2 ^ 24) = (j : Q) / 2 ^ 24 := by
  unfold xorScramble24
  have h : ((j : Q) / 2 ^ 24) * 2 ^ 24 = (j : Q) := by
    field_simp
  rw [h]
  norm_num [Rat.num_natCast]
  rw [show Nat.xor 0 j = j from Nat.zero_xor j]

/-- C9.  After `seed(pixel = (7,11), sampleIndex = 0)`, every call to `next()`
produces the radical inverse of index 0 in the dimension's prime base
(which is 0) XOR-scrambled by the pixel's PCG32 mask, i.e. the mask itself;
the mask is drawn once per pixel and shared across all dimensions.  The prime
table and the PCG32 mask (a 24-bit fixed-point value in `[0,1)`, `pcg32.h` not
being part of the sources) are modelled from the spec as parameters. -/
theorem halton_pixel7_11_xor_scrambled (primes : ℕ → ℕ) (pcgMask : ℤ × ℤ → Q) (j : ℕ)
    (hmask : pcgMask (7, 11) = (j : Q) / 2 ^ 24) (hj : j < 2 ^ 24) (k : ℕ) :
    Halton.nthNext primes (Halton.seedPixel pcgMask (7, 11) 0) k =
      xorScramble24 (radicalInverseSpec (primes k) 0) (pcgMask (7, 11)) ∧
    radicalInverseSpec (primes k) 0 = 0 := by
  have h0 : radicalInverseSpec (primes k) 0 = 0 := rfl
  have hm1 : (j : Q) / 2 ^ 24 < 1 := by
    rw [div_lt_one (by positivity)]
    exact_mod_cast hj
  refine ⟨?_, h0⟩
  rw [h0, hmask, xorScramble24_zero]
  simp only [Halton.seedPixel, hmask]
  exact halton_nth_const primes _ hm1 k 0

/-- Witness for C9: base-2 primes table, mask `2^23 / 2^24 = 1/2`, first
dimension. -/
theorem halton_pixel7_11_xor_scrambled_witness :
    ((fun _ : ℤ × ℤ => ((2 ^ 23 : ℕ) : Q) / 2 ^ 24) (7, 11) =
      ((2 ^ 23 : ℕ) : Q) / 2 ^ 24) ∧
    (2 ^ 23 < 2 ^ 24) ∧
    (Halton.nthNext (fun _ => 2)
        (Halton.seedPixel (fun _ => ((2 ^ 23 : ℕ) : Q) / 2 ^ 24) (7, 11) 0) 0 =
      xorScramble24 (radicalInverseSpec ((fun _ : ℕ => 2) 0) 0)
        ((fun _ : ℤ × ℤ => ((2 ^ 23 : ℕ) : Q) / 2 ^ 24) (7, 11)) ∧
     radicalInverseSpec ((fun _ : ℕ => 2) 0) 0 = 0) :=
  ⟨rfl, by norm_num,
   halton_pixel7_11_xor_scrambled (fun _ => 2) (fun _ => ((2 ^ 23 : ℕ) : Q) / 2 ^ 24)
     (2 ^ 23) rfl (by norm_num) 0⟩

/-! ## Claim C7: the dielectric sampling branch structure -/

/-- Reflecting at `(0,0,±1)` flips the tangential components. -/
theorem reflect_pm (wo : Vec3) (e : Q) (he : e * e = 1) :
    reflectV wo ⟨0, 0, e⟩ = ⟨-wo.x, -wo.y, wo.z⟩ := by
  simp only [reflectV, smul3, Vec3.dot, Vec3.sub_def, Vec3.mk.injEq]
  refine ⟨by ring, by ring, ?_⟩
  linear_combination 2 * wo.z * he

/-- Normalizing the reflection of a unit vector is the identity. -/
theorem reflect_unit (sq : Q → Q) (wo : Vec3) (e : Q) (he : e * e = 1)
    (hwo : Vec3.dot wo wo = 1) (h1 : sq 1 = 1) :
    vnormalized sq (reflectV wo ⟨0, 0, e⟩) = reflectV wo ⟨0, 0, e⟩ := by
  rw [reflect_pm wo e he]
  have hd : Vec3.dot ⟨-wo.x, -wo.y, wo.z⟩ ⟨-wo.x, -wo.y, wo.z⟩ = 1 := by
    simp only [Vec3.dot] at hwo ⊢
    linear_combination hwo
  unfold vnormalized vlength
  rw [hd, h1]
  simp [smul3]

/-- Normalizing the refracted direction of a unit vector at a normal `(0,0,±1)`
is the identity, provided the square root is exact on the (non-negative)
transmitted cosine square. -/
theorem refract_unit (sq : Q → Q) (wo : Vec3) (η e : Q) (he : e * e = 1)
    (hwo : Vec3.dot wo wo = 1) (h1 : sq 1 = 1)
    (hk : 0 ≤ 1 - 1 / η * (1 / η) * (1 - wo.z * wo.z))
    (hex : sq (1 - 1 / η * (1 / η) * (1 - wo.z * wo.z)) *
        sq (1 - 1 / η * (1 / η) * (1 - wo.z * wo.z)) =
        1 - 1 / η * (1 / η) * (1 - wo.z * wo.z)) :
    vnormalized sq (refractV sq wo ⟨0, 0, e⟩ η) = refractV sq wo ⟨0, 0, e⟩ η := by
  have hdot : Vec3.dot ⟨0, 0, e⟩ wo = e * wo.z := by
    simp only [Vec3.dot]; ring
  have hksame : 1 - 1 / η * (1 / η) * (1 - Vec3.dot ⟨0, 0, e⟩ wo * Vec3.dot ⟨0, 0, e⟩ wo) =
      1 - 1 / η * (1 / η) * (1 - wo.z * wo.z) := by
    rw [hdot]
    have : e * wo.z * (e * wo.z) = wo.z * wo.z := by
      linear_combination wo.z * wo.z * he
    rw [this]
  simp only [refractV]
  rw [hksame, if_neg (not_lt.mpr hk)]
  have hv : smul3 (1 / η * Vec3.dot ⟨0, 0, e⟩ wo - sq (1 - 1 / η * (1 / η) * (1 - wo.z * wo.z)))
      ⟨0, 0, e⟩ - smul3 (1 / η) wo =
      ⟨-(1 / η * wo.x), -(1 / η * wo.y),
        -(sq (1 - 1 / η * (1 / η) * (1 - wo.z * wo.z)) * e)⟩ := by
    rw [hdot]
    simp only [smul3, Vec3.sub_def, Vec3.mk.injEq]
    refine ⟨by ring, by ring, ?_⟩
    linear_combination (1 / η) * wo.z * he
  rw [hv]
  have hd : Vec3.dot
      (⟨-(1 / η * wo.x), -(1 / η * wo.y),
        -(sq (1 - 1 / η * (1 / η) * (1 - wo.z * wo.z)) * e)⟩ : Vec3)
      ⟨-(1 / η * wo.x), -(1 / η * wo.y),
        -(sq (1 - 1 / η * (1 / η) * (1 - wo.z * wo.z)) * e)⟩ = 1 := by
    simp only [Vec3.dot] at hwo ⊢
    linear_combination (1 / η * (1 / η)) * hwo + hex +
      (sq (1 - 1 / η * (1 / η) * (1 - wo.z * wo.z)) *
        sq (1 - 1 / η * (1 / η) * (1 - wo.z * wo.z))) * he
  unfold vnormalized vlength
  rw [hd, h1]
  have hone : ∀ v : Vec3, smul3 (1 / 1) v = v := by
    intro v; simp [smul3]
  exact hone _

/-- At grazing incidence (`cosThetaI = 0`) the Fresnel reflectance is 1. -/
theorem fresnel_grazing (sq : Q → Q) (η : Q) (hη : 0 < η)
    (hex : 0 ≤ 1 - 1 / η * (1 / η) → sq (1 - 1 / η * (1 / η)) * sq (1 - 1 / η * (1 / η)) =
      1 - 1 / η * (1 / η)) :
    fresnelDielectric sq 0 η = 1 := by
  simp only [fresnelDielectric]
  by_cases hk : 1 - 1 / η * (1 / η) * (1 - 0 * 0) ≤ 0
  · rw [if_pos hk]
  · rw [if_neg hk]
    have hkpos : 0 < 1 - 1 / η * (1 / η) := by
      have := not_le.mp hk
      linarith
    have hex2 := hex hkpos.le
    have hc : sq (1 - 1 / η * (1 / η) * (1 - 0 * 0)) = sq (1 - 1 / η * (1 / η)) := by
      norm_num
    rw [hc]
    set c := sq (1 - 1 / η * (1 / η)) with hdefc
    have hcne : c ≠ 0 := by
      intro h
      rw [h, zero_mul] at hex2
      linarith
    have habs : |(0 : Q)| = 0 := abs_zero
    rw [habs]
    have h2 : (η * 0 - c) / (η * 0 + c) = -1 := by
      rw [mul_zero, zero_sub, zero_add, neg_div, div_self hcne]
    have h3 : (0 - η * c) / (0 + η * c) = -1 := by
      rw [zero_sub, zero_add, neg_div, div_self (mul_ne_zero (ne_of_gt hη) hcne)]
    simp only [h2, h3]
    norm_num

/-- C7.  `Dielectric::sample` behaves exactly as the specification words it:
one uniform random number branches on the unpolarized Fresnel reflectance for
the relative IOR (η replaced by 1/η and the local normal negated when
`wo.z < 0`); the reflection branch returns `wi = reflect(wo, n)` weighted by
the reflectance texture, the refraction branch `wi = refract(wo, n, η)`
weighted by transmittance/η².  Hypotheses: `wo` is unit, the random number is
in `[0,1)`, the IOR is positive, and the square-root argument is exact at 1
and at the candidate squared transmitted cosines. -/
theorem dielectric_sample_matches_spec (sq : Q → Q) (iorT : Vec2 → Q)
    (reflT transT : Vec2 → Color) (uv : Vec2) (wo : Vec3) (rnd : Q)
    (hwo : Vec3.dot wo wo = 1) (hrnd0 : 0 ≤ rnd) (hrnd1 : rnd < 1)
    (hior : 0 < iorT uv) (h1 : sq 1 = 1)
    (hsq : ∀ η : Q, (η = iorT uv ∨ η = 1 / iorT uv) →
      0 ≤ 1 - 1 / η * (1 / η) * (1 - wo.z * wo.z) →
      sq (1 - 1 / η * (1 / η) * (1 - wo.z * wo.z)) *
        sq (1 - 1 / η * (1 / η) * (1 - wo.z * wo.z)) =
        1 - 1 / η * (1 / η) * (1 - wo.z * wo.z)) :
    Dielectric.sample sq iorT reflT transT uv wo rnd =
      Dielectric.sampleSpec sq iorT reflT transT uv wo rnd := by
  have habs : |wo.z| * |wo.z| = wo.z * wo.z := abs_mul_abs_self wo.z
  have hfk : ∀ η : Q, 1 - 1 / η * (1 / η) * (1 - |wo.z| * |wo.z|) =
      1 - 1 / η * (1 / η) * (1 - wo.z * wo.z) := by
    intro η; rw [habs]
  have hbranch : ∀ η : Q, (η = iorT uv ∨ η = 1 / iorT uv) → ∀ e : Q, e * e = 1 →
      ¬rnd ≤ fresnelDielectric sq |wo.z| η →
      vnormalized sq (refractV sq wo ⟨0, 0, e⟩ η) = refractV sq wo ⟨0, 0, e⟩ η := by
    intro η hmem e he hF
    have hkpos : 0 ≤ 1 - 1 / η * (1 / η) * (1 - wo.z * wo.z) := by
      by_contra hneg
      apply hF
      have : fresnelDielectric sq |wo.z| η = 1 := by
        unfold fresnelDielectric
        rw [if_pos]
        rw [hfk η]
        linarith
      rw [this]
      linarith
    exact refract_unit sq wo η e he hwo h1 hkpos (hsq η hmem hkpos)
  have hmk : (-(⟨0, 0, 1⟩ : Vec3)) = (⟨0, 0, -1⟩ : Vec3) := by
    simp only [Vec3.neg_def, Vec3.mk.injEq]
    norm_num
  by_cases hneg : wo.z < 0
  · -- both code and spec flip the IOR and the normal
    have hnpos : ¬0 < wo.z := by linarith
    simp only [Dielectric.sample, Dielectric.sampleSpec, hneg, hnpos, if_true, if_false, hmk]
    by_cases hb : rnd ≤ fresnelDielectric sq |wo.z| (1 / iorT uv)
    · simp only [hb, if_true]
      rw [reflect_unit sq wo (-1) (by norm_num) hwo h1]
    · simp only [hb, if_false]
      rw [hbranch (1 / iorT uv) (Or.inr rfl) (-1) (by norm_num) hb]
  · by_cases hz : wo.z = 0
    · -- grazing: the code flips, the spec does not, but both sides compute
      -- Fresnel 1, always reflect, and the two reflections coincide
      have hnpos : ¬0 < wo.z := by rw [hz]; exact lt_irrefl 0
      simp only [Dielectric.sample, Dielectric.sampleSpec, hneg, hnpos, if_true, if_false, hmk]
      have habs0 : |wo.z| = 0 := by rw [hz]; exact abs_zero
      have hiorne : (0 : Q) < 1 / iorT uv := by positivity
      have hF1 : fresnelDielectric sq |wo.z| (1 / iorT uv) = 1 := by
        rw [habs0]
        apply fresnel_grazing sq (1 / iorT uv) hiorne
        intro hge
        have h5 := hsq (1 / iorT uv) (Or.inr rfl)
        rw [hz] at h5
        have hE : (1 : Q) - 1 / (1 / iorT uv) * (1 / (1 / iorT uv)) * (1 - 0 * 0) =
            1 - 1 / (1 / iorT uv) * (1 / (1 / iorT uv)) := by ring
        rw [hE] at h5
        exact h5 hge
      have hF2 : fresnelDielectric sq |wo.z| (iorT uv) = 1 := by
        rw [habs0]
        apply fresnel_grazing sq (iorT uv) hior
        intro hge
        have h5 := hsq (iorT uv) (Or.inl rfl)
        rw [hz] at h5
        have hE : (1 : Q) - 1 / iorT uv * (1 / iorT uv) * (1 - 0 * 0) =
            1 - 1 / iorT uv * (1 / iorT uv) := by ring
        rw [hE] at h5
        exact h5 hge
      rw [hF1, hF2]
      have hble : rnd ≤ 1 := hrnd1.le
      simp only [hble, if_true]
      rw [reflect_unit sq wo (-1) (by norm_num) hwo h1, reflect_pm wo (-1) (by norm_num),
        reflect_pm wo 1 (by norm_num)]
    · -- strictly entering: no flips on either side
      have hpos : 0 < wo.z := lt_of_le_of_ne (not_lt.mp hneg) (Ne.symm hz)
      have hnneg : ¬wo.z < 0 := by linarith
      simp only [Dielectric.sample, Dielectric.sampleSpec, hpos, hnneg, if_true, if_false]
      by_cases hb : rnd ≤ fresnelDielectric sq |wo.z| (iorT uv)
      · simp only [hb, if_true]
        rw [reflect_unit sq wo 1 (by norm_num) hwo h1]
      · simp only [hb, if_false]
        rw [hbranch (iorT uv) (Or.inl rfl) 1 (by norm_num) hb]

/-- Witness for C7: normal incidence `wo = (0,0,1)` on an IOR-2 dielectric
with the reflectance/transmittance textures constant 1 and `rnd = 0`. -/
theorem dielectric_sample_matches_spec_witness :
    (Vec3.dot ⟨0, 0, 1⟩ ⟨0, 0, 1⟩ = 1) ∧
    ((0 : Q) ≤ 0) ∧ ((0 : Q) < 1) ∧ (0 < (fun _ : Vec2 => (2 : Q)) ⟨0, 0⟩) ∧
    (Dielectric.sample (fun q => if q = 1 then 1 else 0) (fun _ => 2)
        (fun _ => ⟨1, 1, 1⟩) (fun _ => ⟨1, 1, 1⟩) ⟨0, 0⟩ ⟨0, 0, 1⟩ 0 =
      Dielectric.sampleSpec (fun q => if q = 1 then 1 else 0) (fun _ => 2)
        (fun _ => ⟨1, 1, 1⟩) (fun _ => ⟨1, 1, 1⟩) ⟨0, 0⟩ ⟨0, 0, 1⟩ 0) :=
  ⟨by norm_num [Vec3.dot], le_refl 0, by norm_num, by norm_num,
   dielectric_sample_matches_spec (fun q => if q = 1 then 1 else 0) (fun _ => 2)
     (fun _ => ⟨1, 1, 1⟩) (fun _ => ⟨1, 1, 1⟩) ⟨0, 0⟩ ⟨0, 0, 1⟩ 0
     (by norm_num [Vec3.dot]) (le_refl 0) (by norm_num) (by norm_num) (by norm_num)
     (by intro η hmem hge; norm_num)⟩

/-! ## Support lemmas for the BVH proofs: float-value min/max and the slab
test -/

theorem cppMin_cases (a b : FV) : cppMin a b = a ∨ cppMin a b = b := by
  unfold cppMin; split <;> simp

theorem cppMax_cases (a b : FV) : cppMax a b = a ∨ cppMax a b = b := by
  unfold cppMax; split <;> simp

theorem cppMin_le_of_left {a b c : FV} (h : FV.le a c) : FV.le (cppMin a b) c := by
  unfold cppMin
  split
  · rename_i hlt
    exact FV.le_of_lt (FV.lt_of_lt_of_le hlt h)
  · exact h

theorem cppMin_le_of_right {a b c : FV} (ha : a ≠ .nan) (hb : b ≠ .nan)
    (h : FV.le b c) : FV.le (cppMin a b) c := by
  unfold cppMin
  split
  · exact h
  · rename_i hlt
    exact FV.trans_le ((FV.not_lt_iff_le hb ha).mp (Bool.eq_false_iff.mpr hlt)) h

theorem le_cppMax_of_left {a b c : FV} (h : FV.le c a) : FV.le c (cppMax a b) := by
  unfold cppMax
  split
  · rename_i hlt
    exact FV.le_of_lt (FV.lt_of_le_of_lt h hlt)
  · exact h

theorem le_cppMax_of_right {a b c : FV} (ha : a ≠ .nan) (hb : b ≠ .nan)
    (h : FV.le c b) : FV.le c (cppMax a b) := by
  unfold cppMax
  split
  · exact h
  · rename_i hlt
    exact FV.trans_le h ((FV.not_lt_iff_le ha hb).mp (Bool.eq_false_iff.mpr hlt))

theorem maxComponent3_cases (v : FV3) :
    maxComponent3 v = v.x ∨ maxComponent3 v = v.y ∨ maxComponent3 v = v.z := by
  simp only [maxComponent3]
  split <;> split <;> simp

theorem minComponent3_cases (v : FV3) :
    minComponent3 v = v.x ∨ minComponent3 v = v.y ∨ minComponent3 v = v.z := by
  simp only [minComponent3]
  split <;> split <;> simp

theorem maxComponent3_le {v : FV3} {c : FV} (hx : FV.le v.x c) (hy : FV.le v.y c)
    (hz : FV.le v.z c) : FV.le (maxComponent3 v) c := by
  rcases maxComponent3_cases v with h | h | h <;> rw [h] <;> assumption

theorem le_minComponent3 {v : FV3} {c : FV} (hx : FV.le c v.x) (hy : FV.le c v.y)
    (hz : FV.le c v.z) : FV.le c (minComponent3 v) := by
  rcases minComponent3_cases v with h | h | h <;> rw [h] <;> assumption

/-- Membership of a rational point in a node box, componentwise by axis. -/
def pointInFBox (bx : FBox) (p : Vec3) : Prop :=
  ∀ ax, ax < 3 → FV.le (bx.min.comp ax) (.fin (p.comp ax)) ∧
    FV.le (.fin (p.comp ax)) (bx.max.comp ax)

/-- The ray has no `0/0` IEEE degeneracy against the box: on every axis the
direction is nonzero or the origin avoids both slab planes. -/
def boxNoNaN (bx : FBox) (ray : Ray) : Prop :=
  ∀ ax, ax < 3 → ray.direction.comp ax ≠ 0 ∨
    (bx.min.comp ax ≠ .fin (ray.origin.comp ax) ∧ bx.max.comp ax ≠ .fin (ray.origin.comp ax))

/-- The box has finite corners. -/
def boxFinite (bx : FBox) : Prop :=
  ∀ ax, ax < 3 → (∃ q, bx.min.comp ax = .fin q) ∧ (∃ q, bx.max.comp ax = .fin q)

/-- Per-axis slab bounds: when the hit point's coordinate is between the slab
planes and the axis is not IEEE-degenerate, the near slab value is at most `t`
and the far slab value at least `t`, and neither is NaN. -/
theorem slabAxis_bounds (a b o d t : Q) (h1 : a ≤ o + t * d) (h2 : o + t * d ≤ b)
    (hnn : d ≠ 0 ∨ (a ≠ o ∧ b ≠ o)) :
    FV.le (cppMin (fdivQ (.fin (a - o)) d) (fdivQ (.fin (b - o)) d)) (.fin t) ∧
    FV.le (.fin t) (cppMax (fdivQ (.fin (a - o)) d) (fdivQ (.fin (b - o)) d)) ∧
    cppMin (fdivQ (.fin (a - o)) d) (fdivQ (.fin (b - o)) d) ≠ .nan ∧
    cppMax (fdivQ (.fin (a - o)) d) (fdivQ (.fin (b - o)) d) ≠ .nan := by
  by_cases hd : d = 0
  · subst hd
    rcases hnn with h | ⟨hao, hbo⟩
    · exact absurd rfl h
    · have ha : a - o < 0 := by
        have : a ≤ o := by linarith
        rcases lt_or_eq_of_le this with h | h
        · linarith
        · exact absurd h hao
      have hb : 0 < b - o := by
        have : o ≤ b := by linarith
        rcases lt_or_eq_of_le this with h | h
        · linarith
        · exact absurd h.symm hbo
      have hA : fdivQ (.fin (a - o)) 0 = .ninf := by
        simp [fdivQ, not_lt.mpr ha.le, ha]
      have hB : fdivQ (.fin (b - o)) 0 = .pinf := by
        simp [fdivQ, hb]
      rw [hA, hB]
      refine ⟨?_, ?_, ?_, ?_⟩ <;> simp [cppMin, cppMax, FV.lt, FV.le]
  · rcases lt_or_gt_of_ne hd with hneg | hpos
    · -- negative direction: the near slab comes from b, the far from a
      have hA : fdivQ (.fin (a - o)) d = .fin ((a - o) / d) := by simp [fdivQ, hd]
      have hB : fdivQ (.fin (b - o)) d = .fin ((b - o) / d) := by simp [fdivQ, hd]
      rw [hA, hB]
      have hble : (b - o) / d ≤ t := by
        rw [div_le_iff_of_neg hneg]
        linarith
      have hage : t ≤ (a - o) / d := by
        rw [le_div_iff_of_neg hneg]
        linarith
      refine ⟨cppMin_le_of_right (by simp) (by simp) (FV.le_fin_iff.mpr hble),
        le_cppMax_of_left (FV.le_fin_iff.mpr hage), ?_, ?_⟩
      · rcases cppMin_cases (.fin ((a - o) / d)) (.fin ((b - o) / d)) with h | h <;> simp [h]
      · rcases cppMax_cases (.fin ((a - o) / d)) (.fin ((b - o) / d)) with h | h <;> simp [h]
    · have hA : fdivQ (.fin (a - o)) d = .fin ((a - o) / d) := by simp [fdivQ, hd]
      have hB : fdivQ (.fin (b - o)) d = .fin ((b - o) / d) := by simp [fdivQ, hd]
      rw [hA, hB]
      have hale : (a - o) / d ≤ t := by
        rw [div_le_iff hpos]
        linarith
      have hbge : t ≤ (b - o) / d := by
        rw [le_div_iff hpos]
        linarith
      refine ⟨cppMin_le_of_left (FV.le_fin_iff.mpr hale),
        le_cppMax_of_right (by simp) (by simp) (FV.le_fin_iff.mpr hbge), ?_, ?_⟩
      · rcases cppMin_cases (.fin ((a - o) / d)) (.fin ((b - o) / d)) with h | h <;> simp [h]
      · rcases cppMax_cases (.fin ((a - o) / d)) (.fin ((b - o) / d)) with h | h <;> simp [h]

/-- Soundness of the slab test: a box containing a hit point at distance
`t ≥ ε` is entered no later than `t` (in particular it is not reported as
missed), provided its corners are finite and the ray is not IEEE-degenerate
against it. -/
theorem slab_le_hit (bx : FBox) (ray : Ray) (t : Q) (ht : Epsilon ≤ t)
    (hin : pointInFBox bx (rayAt ray t)) (hnn : boxNoNaN bx ray) (hfin : boxFinite bx) :
    FV.le (intersectAABB bx ray) (.fin t) := by
  obtain ⟨⟨ax0, hax0⟩, bx0, hbx0⟩ := hfin 0 (by norm_num)
  obtain ⟨⟨ax1, hax1⟩, bx1, hbx1⟩ := hfin 1 (by norm_num)
  obtain ⟨⟨ax2, hax2⟩, bx2, hbx2⟩ := hfin 2 (by norm_num)
  have hp0 := hin 0 (by norm_num)
  have hp1 := hin 1 (by norm_num)
  have hp2 := hin 2 (by norm_num)
  have hn0 := hnn 0 (by norm_num)
  have hn1 := hnn 1 (by norm_num)
  have hn2 := hnn 2 (by norm_num)
  have hray : rayAt ray t = ⟨ray.origin.x + t * ray.direction.x,
      ray.origin.y + t * ray.direction.y, ray.origin.z + t * ray.direction.z⟩ := by
    simp only [rayAt, Vec3.add_def, smul3]
  norm_num [FV3.comp, Vec3.comp, hray] at hax0 hbx0 hax1 hbx1 hax2 hbx2 hp0 hp1 hp2 hn0 hn1 hn2
  -- axis 0
  have h0 := slabAxis_bounds ax0 bx0 (ray.origin.x) (ray.direction.x) t
    (by
      have := hp0.1
      rw [hax0] at this
      exact FV.le_fin_iff.mp this)
    (by
      have := hp0.2
      rw [hbx0] at this
      exact FV.le_fin_iff.mp this)
    (by
      rcases hn0 with h | ⟨h1, h2⟩
      · exact Or.inl h
      · right
        constructor
        · intro heq; apply h1; rw [hax0, heq]
        · intro heq; apply h2; rw [hbx0, heq])
  have h1 := slabAxis_bounds ax1 bx1 (ray.origin.y) (ray.direction.y) t
    (by
      have := hp1.1
      rw [hax1] at this
      exact FV.le_fin_iff.mp this)
    (by
      have := hp1.2
      rw [hbx1] at this
      exact FV.le_fin_iff.mp this)
    (by
      rcases hn1 with h | ⟨ha, hb⟩
      · exact Or.inl h
      · right
        constructor
        · intro heq; apply ha; rw [hax1, heq]
        · intro heq; apply hb; rw [hbx1, heq])
  have h2 := slabAxis_bounds ax2 bx2 (ray.origin.z) (ray.direction.z) t
    (by
      have := hp2.1
      rw [hax2] at this
      exact FV.le_fin_iff.mp this)
    (by
      have := hp2.2
      rw [hbx2] at this
      exact FV.le_fin_iff.mp this)
    (by
      rcases hn2 with h | ⟨ha, hb⟩
      · exact Or.inl h
      · right
        constructor
        · intro heq; apply ha; rw [hax2, heq]
        · intro heq; apply hb; rw [hbx2, heq])
  unfold intersectAABB slabDiv ewMin ewMax
  rw [hax0, hax1, hax2, hbx0, hbx1, hbx2]
  simp only [fvSubQ]
  obtain ⟨h0n, h0f, h0nn, h0fn⟩ := h0
  obtain ⟨h1n, h1f, h1nn, h1fn⟩ := h1
  obtain ⟨h2n, h2f, h2nn, h2fn⟩ := h2
  have hNear : FV.le (maxComponent3
      ⟨cppMin (fdivQ (.fin (ax0 - ray.origin.x)) ray.direction.x)
          (fdivQ (.fin (bx0 - ray.origin.x)) ray.direction.x),
        cppMin (fdivQ (.fin (ax1 - ray.origin.y)) ray.direction.y)
          (fdivQ (.fin (bx1 - ray.origin.y)) ray.direction.y),
        cppMin (fdivQ (.fin (ax2 - ray.origin.z)) ray.direction.z)
          (fdivQ (.fin (bx2 - ray.origin.z)) ray.direction.z)⟩) (.fin t) :=
    maxComponent3_le h0n h1n h2n
  have hFar : FV.le (.fin t) (minComponent3
      ⟨cppMax (fdivQ (.fin (ax0 - ray.origin.x)) ray.direction.x)
          (fdivQ (.fin (bx0 - ray.origin.x)) ray.direction.x),
        cppMax (fdivQ (.fin (ax1 - ray.origin.y)) ray.direction.y)
          (fdivQ (.fin (bx1 - ray.origin.y)) ray.direction.y),
        cppMax (fdivQ (.fin (ax2 - ray.origin.z)) ray.direction.z)
          (fdivQ (.fin (bx2 - ray.origin.z)) ray.direction.z)⟩) :=
    le_minComponent3 h0f h1f h2f
  set nearV := maxComponent3
      ⟨cppMin (fdivQ (.fin (ax0 - ray.origin.x)) ray.direction.x)
          (fdivQ (.fin (bx0 - ray.origin.x)) ray.direction.x),
        cppMin (fdivQ (.fin (ax1 - ray.origin.y)) ray.direction.y)
          (fdivQ (.fin (bx1 - ray.origin.y)) ray.direction.y),
        cppMin (fdivQ (.fin (ax2 - ray.origin.z)) ray.direction.z)
          (fdivQ (.fin (bx2 - ray.origin.z)) ray.direction.z)⟩ with hdefnear
  set farV := minComponent3
      ⟨cppMax (fdivQ (.fin (ax0 - ray.origin.x)) ray.direction.x)
          (fdivQ (.fin (bx0 - ray.origin.x)) ray.direction.x),
        cppMax (fdivQ (.fin (ax1 - ray.origin.y)) ray.direction.y)
          (fdivQ (.fin (bx1 - ray.origin.y)) ray.direction.y),
        cppMax (fdivQ (.fin (ax2 - ray.origin.z)) ray.direction.z)
          (fdivQ (.fin (bx2 - ray.origin.z)) ray.direction.z)⟩ with hdeffar
  have hmiss1 : FV.lt farV nearV = false := by
    by_contra h
    have h' : FV.lt farV nearV = true := by
      cases hb : FV.lt farV nearV
      · exact absurd hb h
      · rfl
    have := FV.lt_of_le_of_lt hFar (FV.lt_of_lt_of_le h' hNear)
    rw [FV.irrefl_lt] at this
    exact Bool.false_ne_true this
  have hmiss2 : FV.lt farV (.fin Epsilon) = false := by
    by_contra h
    have h' : FV.lt farV (.fin Epsilon) = true := by
      cases hb : FV.lt farV (.fin Epsilon)
      · exact absurd hb h
      · rfl
    have hlt := FV.lt_of_le_of_lt hFar h'
    rw [FV.lt_iff_fin] at hlt
    linarith
  rw [hmiss1, hmiss2]
  simp only [Bool.false_eq_true, if_false]
  exact hNear

/-! ## Permutation bookkeeping for the primitive-index array -/

/-- The list of primitive indices stored in the slots `[lo, lo + cnt)`. -/
def rangeList (prims : Array ℕ) (lo cnt : ℕ) : List ℕ :=
  (List.range cnt).map (fun i => prims.getD (lo + i) 0)

/-- `prims'` differs from `prims` by a permutation of the slots
`[lo, lo + cnt)`: same size, untouched outside, same multiset inside
(expressed by counts). -/
def permWithin (prims prims' : Array ℕ) (lo cnt : ℕ) : Prop :=
  prims'.size = prims.size ∧
  (∀ k, (k < lo ∨ lo + cnt ≤ k) → prims'.getD k 0 = prims.getD k 0) ∧
  ∀ x, (rangeList prims' lo cnt).count x = (rangeList prims lo cnt).count x

theorem rangeList_length (prims : Array ℕ) (lo cnt : ℕ) :
    (rangeList prims lo cnt).length = cnt := by
  simp [rangeList]

theorem rangeList_getElem (prims : Array ℕ) (lo cnt i : ℕ) (h : i < cnt)
    (h2 : i < (rangeList prims lo cnt).length) :
    (rangeList prims lo cnt)[i] = prims.getD (lo + i) 0 := by
  simp [rangeList]

theorem mem_rangeList_iff {prims : Array ℕ} {lo cnt x : ℕ} :
    x ∈ rangeList prims lo cnt ↔ ∃ k, lo ≤ k ∧ k < lo + cnt ∧ prims.getD k 0 = x := by
  simp only [rangeList, List.mem_map, List.mem_range]
  constructor
  · rintro ⟨i, hi, hx⟩
    exact ⟨lo + i, Nat.le_add_right _ _, by omega, hx⟩
  · rintro ⟨k, hk1, hk2, hx⟩
    exact ⟨k - lo, by omega, by rw [Nat.add_sub_cancel' hk1]; exact hx⟩

theorem permWithin_refl (prims : Array ℕ) (lo cnt : ℕ) : permWithin prims prims lo cnt :=
  ⟨rfl, fun _ _ => rfl, fun _ => rfl⟩

theorem permWithin_trans {p1 p2 p3 : Array ℕ} {lo cnt : ℕ}
    (h1 : permWithin p1 p2 lo cnt) (h2 : permWithin p2 p3 lo cnt) :
    permWithin p1 p3 lo cnt :=
  ⟨h2.1.trans h1.1, fun k hk => (h2.2.1 k hk).trans (h1.2.1 k hk),
   fun x => (h2.2.2 x).trans (h1.2.2 x)⟩

theorem rangeList_congr {p p' : Array ℕ} {lo cnt : ℕ}
    (h : ∀ k, lo ≤ k → k < lo + cnt → p'.getD k 0 = p.getD k 0) :
    rangeList p' lo cnt = rangeList p lo cnt := by
  unfold rangeList
  apply List.map_congr_left
  intro i hi
  rw [List.mem_range] at hi
  exact h (lo + i) (Nat.le_add_right _ _) (by omega)

theorem rangeList_split (p : Array ℕ) (lo a b : ℕ) :
    rangeList p lo (a + b) = rangeList p lo a ++ rangeList p (lo + a) b := by
  unfold rangeList
  rw [List.range_add, List.map_append, List.map_map]
  congr 1
  apply List.map_congr_left
  intro i _
  simp only [Function.comp]
  congr 1
  omega

theorem permWithin_widen {p p' : Array ℕ} {lo cnt lo' cnt' : ℕ}
    (h : permWithin p p' lo cnt) (h1 : lo' ≤ lo) (h2 : lo + cnt ≤ lo' + cnt')
    (h3 : lo' + cnt' ≤ p.size) :
    permWithin p p' lo' cnt' := by
  obtain ⟨hsz, hout, hcnt⟩ := h
  refine ⟨hsz, ?_, ?_⟩
  · intro k hk
    apply hout
    omega
  · intro x
    have hdecomp : cnt' = (lo - lo') + cnt + (lo' + cnt' - (lo + cnt)) := by omega
    rw [hdecomp]
    rw [rangeList_split p' lo' ((lo - lo') + cnt) _, rangeList_split p lo' ((lo - lo') + cnt) _,
      rangeList_split p' lo' (lo - lo') cnt, rangeList_split p lo' (lo - lo') cnt]
    have hlo : lo' + (lo - lo') = lo := by omega
    rw [hlo]
    have hpre : rangeList p' lo' (lo - lo') = rangeList p lo' (lo - lo') := by
      apply rangeList_congr
      intro k hk1 hk2
      apply hout
      omega
    have hsuf : rangeList p' (lo' + (lo - lo' + cnt)) (lo' + cnt' - (lo + cnt)) =
        rangeList p (lo' + (lo - lo' + cnt)) (lo' + cnt' - (lo + cnt)) := by
      apply rangeList_congr
      intro k hk1 hk2
      apply hout
      omega
    simp only [List.count_append, hpre, hsuf, hcnt x]

theorem permWithin_getD_mem {p p' : Array ℕ} {lo cnt k : ℕ}
    (h : permWithin p p' lo cnt) (hk1 : lo ≤ k) (hk2 : k < lo + cnt) :
    ∃ k2, lo ≤ k2 ∧ k2 < lo + cnt ∧ p.getD k2 0 = p'.getD k 0 := by
  have hmem : p'.getD k 0 ∈ rangeList p' lo cnt :=
    mem_rangeList_iff.mpr ⟨k, hk1, hk2, rfl⟩
  have hcount := h.2.2 (p'.getD k 0)
  have : p'.getD k 0 ∈ rangeList p lo cnt := by
    rw [← List.count_pos_iff_mem] at hmem ⊢
    rw [← hcount]
    exact hmem
  exact mem_rangeList_iff.mp this

theorem count_set_list (l : List ℕ) : ∀ (n : ℕ) (hn : n < l.length) (b x : ℕ),
    ((l.set n b).count x) + (if l.get ⟨n, hn⟩ = x then 1 else 0) =
      l.count x + (if b = x then 1 else 0) := by
  induction l with
  | nil => intro n hn; simp at hn
  | cons a tl ih =>
    intro n hn b x
    cases n with
    | zero =>
      simp only [List.set, List.count_cons, List.get, beq_iff_eq]
      split_ifs <;> omega
    | succ n =>
      simp only [List.set, List.count_cons, List.get, beq_iff_eq]
      have h := ih n (Nat.lt_of_succ_lt_succ hn) b x
      split_ifs at h ⊢ <;> omega

theorem getD_setD_eq {α : Type} (a : Array α) (i : ℕ) (v d : α) (h : i < a.size) :
    (a.setD i v).getD i d = v := by
  unfold Array.setD Array.getD
  simp [h]

theorem getD_setD_ne {α : Type} (a : Array α) (i j : ℕ) (v d : α) (hne : j ≠ i) :
    (a.setD i v).getD j d = a.getD j d := by
  unfold Array.setD
  split
  · rename_i hi
    unfold Array.getD
    simp only [Array.size_set]
    split
    · rename_i hj
      simp only [Array.get_eq_getElem]
      rw [Array.getElem_set_ne]
      simp only [Fin.val_mk]
      omega
    · rfl
  · rfl

theorem rangeList_setD (p : Array ℕ) (k v lo cnt : ℕ) (hk1 : lo ≤ k)
    (hk2 : k < lo + cnt) (hksz : k < p.size) :
    rangeList (p.setD k v) lo cnt = (rangeList p lo cnt).set (k - lo) v := by
  apply List.ext_getElem
  · rw [rangeList_length, List.length_set, rangeList_length]
  · intro i h1 h2
    rw [rangeList_length] at h1
    rw [rangeList_getElem _ _ _ _ h1 (by rw [rangeList_length]; exact h1)]
    by_cases hik : i = k - lo
    · subst hik
      have hlk : lo + (k - lo) = k := by omega
      rw [hlk, getD_setD_eq _ _ _ _ hksz, List.getElem_set_eq h2]
    · rw [getD_setD_ne _ _ _ _ _ (by omega),
        List.getElem_set_ne (by omega) h2,
        rangeList_getElem _ _ _ _ h1 (by rw [rangeList_length]; exact h1)]

theorem count_set_swap (L : List ℕ) (m k A B x : ℕ) (hm : m < L.length)
    (hk : k < L.length) (hA : L.get ⟨m, hm⟩ = A) (hB : L.get ⟨k, hk⟩ = B) :
    ((L.set m B).set k A).count x = L.count x := by
  have hk2 : k < (L.set m B).length := by rw [List.length_set]; exact hk
  have hgK : (L.set m B).get ⟨k, hk2⟩ = B := by
    rw [List.get_eq_getElem, List.getElem_set]
    split
    · rfl
    · exact hB
  have e1 := count_set_list (L.set m B) k hk2 A x
  have e2 := count_set_list L m hm B x
  rw [hgK] at e1
  rw [hA] at e2
  split_ifs at e1 e2 <;> omega

theorem permWithin_swap (p : Array ℕ) (lo cnt f l : ℕ)
    (hf1 : lo ≤ f) (hf2 : f < lo + cnt) (hl1 : lo ≤ l) (hl2 : l < lo + cnt)
    (hsz : lo + cnt ≤ p.size) :
    permWithin p ((p.setD f (p.getD l 0)).setD l (p.getD f 0)) lo cnt := by
  have hfsz : f < p.size := by omega
  have hlsz : l < p.size := by omega
  refine ⟨by simp [Array.size_setD], ?_, ?_⟩
  · intro k hk
    rw [getD_setD_ne _ _ _ _ _ (by omega), getD_setD_ne _ _ _ _ _ (by omega)]
  · intro x
    rw [rangeList_setD _ _ _ _ _ hl1 hl2 (by simp [Array.size_setD, hlsz]),
      rangeList_setD _ _ _ _ _ hf1 hf2 hfsz]
    have hm : f - lo < (rangeList p lo cnt).length := by rw [rangeList_length]; omega
    have hk : l - lo < (rangeList p lo cnt).length := by rw [rangeList_length]; omega
    apply count_set_swap (rangeList p lo cnt) (f - lo) (l - lo) _ _ x hm hk
    · rw [List.get_eq_getElem]
      have := rangeList_getElem p lo cnt (f - lo) (by omega) (by rw [rangeList_length]; omega)
      rw [this]
      congr 1
      omega
    · rw [List.get_eq_getElem]
      have := rangeList_getElem p lo cnt (l - lo) (by omega) (by rw [rangeList_length]; omega)
      rw [this]
      congr 1
      omega

/-- The partition loop permutes only the slots `[lo, lo + cnt)` and returns a
`firstRightIndex` between its starting value and `lastLeftIndex + 1`. -/
theorem partitionLoop_spec (g : PrimGeom) (axis : ℕ) (splitPos : FV) (lo cnt : ℕ) :
    ∀ (fuel : ℕ) (prims : Array ℕ) (f l : ℤ),
    (lo : ℤ) ≤ f → f ≤ l + 1 → l < (lo : ℤ) + cnt → lo + cnt ≤ prims.size →
    permWithin prims (partitionLoop g axis splitPos fuel prims f l).1 lo cnt ∧
    f ≤ (partitionLoop g axis splitPos fuel prims f l).2 ∧
    (partitionLoop g axis splitPos fuel prims f l).2 ≤ l + 1 := by
  intro fuel
  induction fuel with
  | zero =>
    intro prims f l h1 h2 h3 h4
    exact ⟨permWithin_refl prims lo cnt, le_refl f, h2⟩
  | succ fuel ih =>
    intro prims f l h1 h2 h3 h4
    simp only [partitionLoop]
    by_cases hfl : f ≤ l
    · rw [if_pos hfl]
      by_cases hc : FV.lt (.fin ((g.centroid (getPrim prims f.toNat)).comp axis)) splitPos = true
      · rw [if_pos hc]
        obtain ⟨hp, hf, hl⟩ := ih prims (f + 1) l (by omega) (by omega) h3 h4
        exact ⟨hp, by omega, hl⟩
      · rw [if_neg hc]
        have hswap := permWithin_swap prims lo cnt f.toNat l.toNat
          (by omega) (by omega) (by omega) (by omega) h4
        have hsz2 : lo + cnt ≤
            ((prims.setD f.toNat (getPrim prims l.toNat)).setD l.toNat
              (getPrim prims f.toNat)).size := by
          simpa [Array.size_setD] using h4
        obtain ⟨hp, hf, hl⟩ := ih
          ((prims.setD f.toNat (getPrim prims l.toNat)).setD l.toNat
            (getPrim prims f.toNat)) f (l - 1) h1 (by omega) (by omega) hsz2
        refine ⟨permWithin_trans ?_ hp, hf, by omega⟩
        simpa [getPrim] using hswap
    · rw [if_neg hfl]
      exact ⟨permWithin_refl prims lo cnt, le_refl f, h2⟩

/-! ## The bounding boxes produced by `computeAABB` -/

/-- A node box contains a primitive box, componentwise by axis. -/
def boxContains (bx : FBox) (qb : QBox) : Prop :=
  ∀ ax, ax < 3 → FV.le (bx.min.comp ax) (.fin (qb.min.comp ax)) ∧
    FV.le (.fin (qb.max.comp ax)) (bx.max.comp ax)

/-- The shape of every box the builder accumulates: minima are `+∞` or
finite, maxima are `-∞` or finite (never NaN, never the wrong infinity). -/
def boxAcc (b : FBox) : Prop :=
  ∀ ax, ax < 3 → (b.min.comp ax = .pinf ∨ ∃ q, b.min.comp ax = .fin q) ∧
    (b.max.comp ax = .ninf ∨ ∃ q, b.max.comp ax = .fin q)

theorem boxAcc_empty : boxAcc FBox.empty := by
  intro ax h
  interval_cases ax <;> exact ⟨Or.inl rfl, Or.inl rfl⟩

theorem boxFinite_acc {b : FBox} (h : boxFinite b) : boxAcc b := by
  intro ax hax
  obtain ⟨⟨q1, h1⟩, q2, h2⟩ := h ax hax
  exact ⟨Or.inr ⟨q1, h1⟩, Or.inr ⟨q2, h2⟩⟩

theorem extend_min_comp (b o : FBox) (ax : ℕ) (h : ax < 3) :
    (b.extend o).min.comp ax = cppMin (b.min.comp ax) (o.min.comp ax) := by
  interval_cases ax <;> rfl

theorem extend_max_comp (b o : FBox) (ax : ℕ) (h : ax < 3) :
    (b.extend o).max.comp ax = cppMax (b.max.comp ax) (o.max.comp ax) := by
  interval_cases ax <;> rfl

theorem toF_min_comp (qb : QBox) (ax : ℕ) (h : ax < 3) :
    (QBox.toF qb).min.comp ax = .fin (qb.min.comp ax) := by
  interval_cases ax <;> rfl

theorem toF_max_comp (qb : QBox) (ax : ℕ) (h : ax < 3) :
    (QBox.toF qb).max.comp ax = .fin (qb.max.comp ax) := by
  interval_cases ax <;> rfl

theorem extend_toF_finite {b : FBox} (qb : QBox) (hb : boxAcc b) :
    boxFinite (b.extend (QBox.toF qb)) := by
  intro ax hax
  rw [extend_min_comp _ _ _ hax, extend_max_comp _ _ _ hax,
    toF_min_comp _ _ hax, toF_max_comp _ _ hax]
  obtain ⟨hmin, hmax⟩ := hb ax hax
  constructor
  · rcases hmin with h | ⟨q, h⟩
    · rw [h]
      exact ⟨qb.min.comp ax, by simp [cppMin, FV.lt]⟩
    · rw [h]
      rcases cppMin_cases (.fin q) (.fin (qb.min.comp ax)) with h2 | h2 <;>
        exact ⟨_, h2⟩
  · rcases hmax with h | ⟨q, h⟩
    · rw [h]
      exact ⟨qb.max.comp ax, by simp [cppMax, FV.lt]⟩
    · rw [h]
      rcases cppMax_cases (.fin q) (.fin (qb.max.comp ax)) with h2 | h2 <;>
        exact ⟨_, h2⟩

theorem extend_contains {b : FBox} (qb : QBox) (hb : boxAcc b) :
    boxContains (b.extend (QBox.toF qb)) qb := by
  intro ax hax
  rw [extend_min_comp _ _ _ hax, extend_max_comp _ _ _ hax,
    toF_min_comp _ _ hax, toF_max_comp _ _ hax]
  obtain ⟨hmin, hmax⟩ := hb ax hax
  constructor
  · refine cppMin_le_of_right ?_ (by simp) (FV.refl_le _)
    rcases hmin with h | ⟨q, h⟩ <;> simp [h]
  · refine le_cppMax_of_right ?_ (by simp) (FV.refl_le _)
    rcases hmax with h | ⟨q, h⟩ <;> simp [h]

theorem extend_mono {b : FBox} {qb : QBox} (o : FBox) (hc : boxContains b qb) :
    boxContains (b.extend o) qb := by
  intro ax hax
  rw [extend_min_comp _ _ _ hax, extend_max_comp _ _ _ hax]
  obtain ⟨h1, h2⟩ := hc ax hax
  exact ⟨cppMin_le_of_left h1, le_cppMax_of_left h2⟩

theorem computeAABB_zero (g : PrimGeom) (prims : Array ℕ) (lf : ℕ) :
    computeAABB g prims lf 0 = FBox.empty := rfl

theorem computeAABB_succ (g : PrimGeom) (prims : Array ℕ) (lf count : ℕ) :
    computeAABB g prims lf (count + 1) =
      (computeAABB g prims lf count).extend (g.bbox (getPrim prims (lf + count))).toF := by
  unfold computeAABB
  rw [List.range_succ, List.foldl_append]
  rfl

/-- The box computed for a range is finite (when the range is nonempty) and
contains every primitive box of the range. -/
theorem computeAABB_spec (g : PrimGeom) (prims : Array ℕ) (lf : ℕ) :
    ∀ count, boxAcc (computeAABB g prims lf count) ∧
      (1 ≤ count → boxFinite (computeAABB g prims lf count)) ∧
      ∀ k, lf ≤ k → k < lf + count →
        boxContains (computeAABB g prims lf count) (g.bbox (getPrim prims k)) := by
  intro count
  induction count with
  | zero =>
    rw [computeAABB_zero]
    exact ⟨boxAcc_empty, by omega, by omega⟩
  | succ count ih =>
    obtain ⟨hacc, _, hcont⟩ := ih
    rw [computeAABB_succ]
    refine ⟨boxFinite_acc (extend_toF_finite _ hacc), fun _ => extend_toF_finite _ hacc, ?_⟩
    intro k hk1 hk2
    by_cases hk : k = lf + count
    · subst hk
      exact extend_contains _ hacc
    · exact extend_mono _ (hcont k hk1 (by omega))

/-- `computeAABB` only reads the slots of its range. -/
theorem computeAABB_congr (g : PrimGeom) {p p2 : Array ℕ} (lf : ℕ) :
    ∀ count, (∀ k, lf ≤ k → k < lf + count → p2.getD k 0 = p.getD k 0) →
    computeAABB g p2 lf count = computeAABB g p lf count := by
  intro count
  induction count with
  | zero => intro _; rfl
  | succ count ih =>
    intro h
    rw [computeAABB_succ, computeAABB_succ, ih (fun k h1 h2 => h k h1 (by omega))]
    have : getPrim p2 (lf + count) = getPrim p (lf + count) :=
      h (lf + count) (by omega) (by omega)
    rw [this]

/-- Box containment over a range survives a permutation of a subrange. -/
theorem contains_range_perm (g : PrimGeom) (bx : FBox) {p p2 : Array ℕ}
    {lo cnt lo2 cnt2 : ℕ} (hperm : permWithin p p2 lo2 cnt2)
    (h1 : lo ≤ lo2) (h2 : lo2 + cnt2 ≤ lo + cnt)
    (hc : ∀ k, lo ≤ k → k < lo + cnt → boxContains bx (g.bbox (getPrim p k))) :
    ∀ k, lo ≤ k → k < lo + cnt → boxContains bx (g.bbox (getPrim p2 k)) := by
  intro k hk1 hk2
  by_cases hin : lo2 ≤ k ∧ k < lo2 + cnt2
  · obtain ⟨k2, hk21, hk22, heq⟩ := permWithin_getD_mem hperm hin.1 hin.2
    have : getPrim p2 k = getPrim p k2 := heq.symm
    rw [this]
    exact hc k2 (by omega) (by omega)
  · have : getPrim p2 k = getPrim p k := hperm.2.1 k (by omega)
    rw [this]
    exact hc k hk1 hk2

/-! ## The well-formedness invariant of a built BVH subtree -/

/-- `Tree g nodes prims j lo cnt S` says: node `j` roots a well-formed BVH
subtree over the primitive slots `[lo, lo + cnt)`, whose node indices are
exactly the finite set `S`.  Leaves store a nonempty in-bounds slot range;
internal nodes store two children at consecutive indices `c`, `c + 1` beyond
their own index, over adjacent slot ranges, with disjoint descendant sets.
Every node's box is finite and contains the primitive boxes of its range. -/
inductive Tree (g : PrimGeom) (nodes : Array BNode) (prims : Array ℕ) :
    ℕ → ℕ → ℕ → Finset ℕ → Prop where
  | leaf (j lo cnt : ℕ) (bx : FBox)
      (hj : j < nodes.size)
      (hnode : nodes.getD j BNode.default = ⟨bx, lo, cnt⟩)
      (hcnt : cnt ≠ 0)
      (hrange : lo + cnt ≤ prims.size)
      (hfin : boxFinite bx)
      (hcont : ∀ k, lo ≤ k → k < lo + cnt → boxContains bx (g.bbox (getPrim prims k))) :
      Tree g nodes prims j lo cnt {j}
  | internal (j lo cnt1 cnt2 c : ℕ) (S1 S2 : Finset ℕ) (bx : FBox)
      (hj : j < nodes.size)
      (hnode : nodes.getD j BNode.default = ⟨bx, c, 0⟩)
      (hjc : j < c)
      (hleft : Tree g nodes prims c lo cnt1 S1)
      (hright : Tree g nodes prims (c + 1) (lo + cnt1) cnt2 S2)
      (hdisj : ∀ k, k ∈ S1 → k ∉ S2)
      (hj1 : j ∉ S1) (hj2 : j ∉ S2)
      (hfin : boxFinite bx)
      (hcont : ∀ k, lo ≤ k → k < lo + cnt1 + cnt2 →
        boxContains bx (g.bbox (getPrim prims k))) :
      Tree g nodes prims j lo (cnt1 + cnt2) (insert j (S1 ∪ S2))

theorem Tree.self_mem {g : PrimGeom} {nodes : Array BNode} {prims : Array ℕ}
    {j lo cnt : ℕ} {S : Finset ℕ} (T : Tree g nodes prims j lo cnt S) : j ∈ S := by
  cases T with
  | leaf => exact Finset.mem_singleton_self j
  | internal => exact Finset.mem_insert_self _ _

theorem Tree.mem_lt {g : PrimGeom} {nodes : Array BNode} {prims : Array ℕ}
    {j lo cnt : ℕ} {S : Finset ℕ} (T : Tree g nodes prims j lo cnt S) :
    ∀ k ∈ S, k < nodes.size := by
  induction T with
  | leaf j lo cnt bx hj =>
    intro k hk
    rw [Finset.mem_singleton] at hk
    exact hk ▸ hj
  | internal j lo cnt1 cnt2 c S1 S2 bx hj hnode hjc hleft hright hdisj hj1 hj2 hfin hcont ih1 ih2 =>
    intro k hk
    rcases Finset.mem_insert.mp hk with rfl | hk
    · exact hj
    · rcases Finset.mem_union.mp hk with hk | hk
      · exact ih1 k hk
      · exact ih2 k hk

/-- A subtree invariant is stable under changes that leave its nodes and its
slot range untouched (the arrays may grow). -/
theorem Tree.mono {g : PrimGeom} {nodes : Array BNode} {prims : Array ℕ}
    {j lo cnt : ℕ} {S : Finset ℕ} (T : Tree g nodes prims j lo cnt S)
    (nodes2 : Array BNode) (prims2 : Array ℕ)
    (hn : ∀ k ∈ S, nodes2.getD k BNode.default = nodes.getD k BNode.default)
    (hnsz : nodes.size ≤ nodes2.size) (hpsz : prims.size ≤ prims2.size)
    (hp : ∀ k, lo ≤ k → k < lo + cnt → prims2.getD k 0 = prims.getD k 0) :
    Tree g nodes2 prims2 j lo cnt S := by
  induction T with
  | leaf j lo cnt bx hj hnode hcnt hrange hfin hcont =>
    refine Tree.leaf j lo cnt bx (by omega) ?_ hcnt (by omega) hfin ?_
    · rw [hn j (Finset.mem_singleton_self j), hnode]
    · intro k h1 h2
      have : getPrim prims2 k = getPrim prims k := hp k h1 h2
      rw [this]
      exact hcont k h1 h2
  | internal j lo cnt1 cnt2 c S1 S2 bx hj hnode hjc hleft hright hdisj hj1 hj2 hfin hcont ih1 ih2 =>
    refine Tree.internal j lo cnt1 cnt2 c S1 S2 bx (by omega) ?_ hjc ?_ ?_ hdisj hj1 hj2 hfin ?_
    · rw [hn j (Finset.mem_insert_self _ _), hnode]
    · exact ih1 (fun k hk => hn k (Finset.mem_insert_of_mem (Finset.mem_union_left _ hk)))
        (fun k h1 h2 => hp k h1 (by omega))
    · exact ih2 (fun k hk => hn k (Finset.mem_insert_of_mem (Finset.mem_union_right _ hk)))
        (fun k h1 h2 => hp k (by omega) (by omega))
    · intro k h1 h2
      have : getPrim prims2 k = getPrim prims k := hp k h1 (by omega)
      rw [this]
      exact hcont k h1 h2

/-- Every node of a subtree is a valid leaf or a valid internal node. -/
theorem Tree.node_inv {g : PrimGeom} {nodes : Array BNode} {prims : Array ℕ}
    {j lo cnt : ℕ} {S : Finset ℕ} (T : Tree g nodes prims j lo cnt S) :
    ∀ k ∈ S,
      (0 < (nodes.getD k BNode.default).primitiveCount ∧
        (nodes.getD k BNode.default).leftFirst +
          (nodes.getD k BNode.default).primitiveCount ≤ prims.size) ∨
      ((nodes.getD k BNode.default).primitiveCount = 0 ∧
        k < (nodes.getD k BNode.default).leftFirst ∧
        (nodes.getD k BNode.default).leftFirst + 1 < nodes.size) := by
  induction T with
  | leaf j lo cnt bx hj hnode hcnt hrange hfin hcont =>
    intro k hk
    rw [Finset.mem_singleton] at hk
    subst hk
    rw [hnode]
    exact Or.inl ⟨Nat.pos_of_ne_zero hcnt, hrange⟩
  | internal j lo cnt1 cnt2 c S1 S2 bx hj hnode hjc hleft hright hdisj hj1 hj2 hfin hcont ih1 ih2 =>
    intro k hk
    rcases Finset.mem_insert.mp hk with rfl | hk
    · rw [hnode]
      exact Or.inr ⟨rfl, hjc, hright.mem_lt (c + 1) hright.self_mem⟩
    · rcases Finset.mem_union.mp hk with hk | hk
      · exact ih1 k hk
      · exact ih2 k hk

/-- Every leaf of a subtree covers a subrange of the subtree's slot range. -/
theorem Tree.leaf_range {g : PrimGeom} {nodes : Array BNode} {prims : Array ℕ}
    {j lo cnt : ℕ} {S : Finset ℕ} (T : Tree g nodes prims j lo cnt S) :
    ∀ k ∈ S, (nodes.getD k BNode.default).primitiveCount ≠ 0 →
      lo ≤ (nodes.getD k BNode.default).leftFirst ∧
      (nodes.getD k BNode.default).leftFirst +
        (nodes.getD k BNode.default).primitiveCount ≤ lo + cnt := by
  induction T with
  | leaf j lo cnt bx hj hnode hcnt hrange hfin hcont =>
    intro k hk _
    rw [Finset.mem_singleton] at hk
    subst hk
    rw [hnode]
    exact ⟨le_refl lo, le_refl _⟩
  | internal j lo cnt1 cnt2 c S1 S2 bx hj hnode hjc hleft hright hdisj hj1 hj2 hfin hcont ih1 ih2 =>
    intro k hk hleafk
    rcases Finset.mem_insert.mp hk with rfl | hk
    · rw [hnode] at hleafk
      exact absurd rfl hleafk
    · rcases Finset.mem_union.mp hk with hk | hk
      · have := ih1 k hk hleafk
        omega
      · have := ih2 k hk hleafk
        omega

/-- Every slot of the subtree's range is covered by a leaf of the subtree. -/
theorem Tree.leaf_cover {g : PrimGeom} {nodes : Array BNode} {prims : Array ℕ}
    {j lo cnt : ℕ} {S : Finset ℕ} (T : Tree g nodes prims j lo cnt S) :
    ∀ kp, lo ≤ kp → kp < lo + cnt →
      ∃ k ∈ S, (nodes.getD k BNode.default).primitiveCount ≠ 0 ∧
        (nodes.getD k BNode.default).leftFirst ≤ kp ∧
        kp < (nodes.getD k BNode.default).leftFirst +
          (nodes.getD k BNode.default).primitiveCount := by
  induction T with
  | leaf j lo cnt bx hj hnode hcnt hrange hfin hcont =>
    intro kp h1 h2
    refine ⟨j, Finset.mem_singleton_self j, ?_⟩
    rw [hnode]
    exact ⟨hcnt, h1, h2⟩
  | internal j lo cnt1 cnt2 c S1 S2 bx hj hnode hjc hleft hright hdisj hj1 hj2 hfin hcont ih1 ih2 =>
    intro kp h1 h2
    by_cases hside : kp < lo + cnt1
    · obtain ⟨k, hk, hrest⟩ := ih1 kp h1 hside
      exact ⟨k, Finset.mem_insert_of_mem (Finset.mem_union_left _ hk), hrest⟩
    · obtain ⟨k, hk, hrest⟩ := ih2 kp (by omega) (by omega)
      exact ⟨k, Finset.mem_insert_of_mem (Finset.mem_union_right _ hk), hrest⟩

/-- No slot is covered by two distinct leaves of a subtree. -/
theorem Tree.leaf_cover_unique {g : PrimGeom} {nodes : Array BNode} {prims : Array ℕ}
    {j lo cnt : ℕ} {S : Finset ℕ} (T : Tree g nodes prims j lo cnt S) :
    ∀ kp k1 k2, k1 ∈ S → k2 ∈ S →
      (nodes.getD k1 BNode.default).primitiveCount ≠ 0 →
      (nodes.getD k2 BNode.default).primitiveCount ≠ 0 →
      (nodes.getD k1 BNode.default).leftFirst ≤ kp →
      kp < (nodes.getD k1 BNode.default).leftFirst +
        (nodes.getD k1 BNode.default).primitiveCount →
      (nodes.getD k2 BNode.default).leftFirst ≤ kp →
      kp < (nodes.getD k2 BNode.default).leftFirst +
        (nodes.getD k2 BNode.default).primitiveCount →
      k1 = k2 := by
  induction T with
  | leaf j lo cnt bx hj hnode hcnt hrange hfin hcont =>
    intro kp k1 k2 hk1 hk2 _ _ _ _ _ _
    rw [Finset.mem_singleton] at hk1 hk2
    rw [hk1, hk2]
  | internal j lo cnt1 cnt2 c S1 S2 bx hj hnode hjc hleft hright hdisj hj1 hj2 hfin hcont ih1 ih2 =>
    intro kp k1 k2 hk1 hk2 hl1 hl2 ha1 hb1 ha2 hb2
    rcases Finset.mem_insert.mp hk1 with rfl | hk1
    · rw [hnode] at hl1
      exact absurd rfl hl1
    rcases Finset.mem_insert.mp hk2 with rfl | hk2
    · rw [hnode] at hl2
      exact absurd rfl hl2
    rcases Finset.mem_union.mp hk1 with hk1 | hk1 <;>
      rcases Finset.mem_union.mp hk2 with hk2 | hk2
    · exact ih1 kp k1 k2 hk1 hk2 hl1 hl2 ha1 hb1 ha2 hb2
    · exfalso
      have r1 := hleft.leaf_range k1 hk1 hl1
      have r2 := hright.leaf_range k2 hk2 hl2
      omega
    · exfalso
      have r1 := hright.leaf_range k1 hk1 hl1
      have r2 := hleft.leaf_range k2 hk2 hl2
      omega
    · exact ih2 kp k1 k2 hk1 hk2 hl1 hl2 ha1 hb1 ha2 hb2

/-! ## The recursive builder establishes the subtree invariant -/

theorem getD_push_lt {α : Type} (a : Array α) (j : ℕ) (v d : α) (h : j < a.size) :
    (a.push v).getD j d = a.getD j d := by
  unfold Array.getD
  have hsz : j < (a.push v).size := by rw [Array.size_push]; omega
  rw [dif_pos hsz, dif_pos h]
  simp only [Array.get_eq_getElem]
  exact Array.getElem_push_lt a v j h

theorem getD_push_eq {α : Type} (a : Array α) (v d : α) :
    (a.push v).getD a.size d = v := by
  unfold Array.getD
  have hsz : a.size < (a.push v).size := by rw [Array.size_push]; omega
  rw [dif_pos hsz]
  simp only [Array.get_eq_getElem]
  exact Array.getElem_push_eq a v

/-- What one `subdivide` call guarantees, stated about its result state
`st2`: the node array only grows, other nodes and other primitive slots are
untouched, and the called node roots a well-formed subtree made of itself and
the appended nodes. -/
def BuildConcl (g : PrimGeom) (st : BState) (idx lo cnt : ℕ) (st2 : BState) : Prop :=
  st.nodes.size ≤ st2.nodes.size ∧
  (∀ j, j < st.nodes.size → j ≠ idx →
    st2.nodes.getD j BNode.default = st.nodes.getD j BNode.default) ∧
  permWithin st.prims st2.prims lo cnt ∧
  ∃ S : Finset ℕ, Tree g st2.nodes st2.prims idx lo cnt S ∧
    (∀ k ∈ S, k = idx ∨ (st.nodes.size ≤ k ∧ k < st2.nodes.size)) ∧
    (∀ j, st.nodes.size ≤ j → j < st2.nodes.size → j ∈ S)

/-- `subdivide` turns any in-bounds pre-node with a computed box into a
well-formed subtree, given enough fuel. -/
theorem subdivide_spec (g : PrimGeom) :
    ∀ (fuel : ℕ) (st : BState) (idx lo cnt : ℕ) (bx : FBox),
    st.nodes.getD idx BNode.default = ⟨bx, lo, cnt⟩ →
    idx < st.nodes.size → 1 ≤ cnt → cnt ≤ fuel → lo + cnt ≤ st.prims.size →
    boxFinite bx →
    (∀ k, lo ≤ k → k < lo + cnt → boxContains bx (g.bbox (getPrim st.prims k))) →
    BuildConcl g st idx lo cnt (subdivide g fuel st idx) := by
  intro fuel
  induction fuel with
  | zero =>
    intro st idx lo cnt bx hnode hidx hcnt hfuel hrange hfin hcont
    omega
  | succ fuel ih =>
    intro st idx lo cnt bx hnode hidx hcnt hfuel hrange hfin hcont
    have hparent : getNode st idx = ⟨bx, lo, cnt⟩ := hnode
    simp only [subdivide, hparent]
    by_cases h2 : cnt ≤ 2
    · rw [if_pos h2]
      refine ⟨le_refl _, fun j _ _ => rfl, permWithin_refl _ _ _, {idx}, ?_, ?_, ?_⟩
      · exact Tree.leaf idx lo cnt bx hidx hnode (by omega) hrange hfin hcont
      · intro k hk
        rw [Finset.mem_singleton] at hk
        exact Or.inl hk
      · intro j hj1 hj2
        omega
    · rw [if_neg h2]
      set pr := partitionLoop g (maxComponentIndex3 bx.diagonal)
        (bx.center.comp (maxComponentIndex3 bx.diagonal)) (cnt + 1) st.prims
        (lo : ℤ) ((lo : ℤ) + (cnt : ℤ) - 1) with hpr
      have hps := partitionLoop_spec g (maxComponentIndex3 bx.diagonal)
        (bx.center.comp (maxComponentIndex3 bx.diagonal)) lo cnt (cnt + 1) st.prims
        (lo : ℤ) ((lo : ℤ) + (cnt : ℤ) - 1) (le_refl _) (by omega) (by omega) hrange
      rw [← hpr] at hps
      obtain ⟨hperm, hfrA, hfrB⟩ := hps
      have hfr1 : lo ≤ pr.2.toNat := by omega
      have hfr2 : pr.2.toNat ≤ lo + cnt := by omega
      have hprsize : pr.1.size = st.prims.size := hperm.1
      split
      · -- one side of the median split is empty: keep the leaf
        rename_i h3
        refine ⟨le_refl _, fun j _ _ => rfl, hperm, {idx}, ?_, ?_, ?_⟩
        · refine Tree.leaf idx lo cnt bx hidx hnode (by omega) (by
            show lo + cnt ≤ pr.1.size
            omega) hfin ?_
          exact contains_range_perm g bx hperm (le_refl _) (le_refl _) hcont
        · intro k hk
          rw [Finset.mem_singleton] at hk
          exact Or.inl hk
        · intro j hj1 hj2
          have hsz : ({ nodes := st.nodes, prims := pr.1 } : BState).nodes.size =
            st.nodes.size := rfl
          omega
      · -- proper split: two fresh children, then recurse into both
        rename_i h3
        obtain ⟨hL0, hR0⟩ := not_or.mp h3
        have hL1 : 1 ≤ pr.2.toNat - lo := by omega
        have hR1 : 1 ≤ cnt - (pr.2.toNat - lo) := by omega
        set N3 : Array BNode := ((((st.nodes.setD idx
            ⟨bx, st.nodes.size, 0⟩).push BNode.default).push BNode.default).setD
            st.nodes.size ⟨FBox.empty, lo, pr.2.toNat - lo⟩).setD (st.nodes.size + 1)
            ⟨FBox.empty, pr.2.toNat, cnt - (pr.2.toNat - lo)⟩ with hN3
        set BL := computeAABB g pr.1 lo (pr.2.toNat - lo) with hBL
        set st2 := setAABB ⟨N3, pr.1⟩ st.nodes.size BL with hst2
        set st3 := subdivide g fuel st2 st.nodes.size with hst3
        set BR := computeAABB g st3.prims pr.2.toNat (cnt - (pr.2.toNat - lo)) with hBR
        set st4 := setAABB st3 (st.nodes.size + 1) BR with hst4
        set st5 := subdivide g fuel st4 (st.nodes.size + 1) with hst5
        -- the freshly written node array
        have hN3size : N3.size = st.nodes.size + 2 := by
          rw [hN3]
          simp [Array.size_setD, Array.size_push]
        have hN3idx : N3.getD idx BNode.default = ⟨bx, st.nodes.size, 0⟩ := by
          rw [hN3, getD_setD_ne _ _ _ _ _ (by omega), getD_setD_ne _ _ _ _ _ (by omega),
            getD_push_lt _ _ _ _ (by simp only [Array.size_setD, Array.size_push]; omega),
            getD_push_lt _ _ _ _ (by simp only [Array.size_setD, Array.size_push]; omega),
            getD_setD_eq _ _ _ _ hidx]
        have hN3left : N3.getD st.nodes.size BNode.default =
            ⟨FBox.empty, lo, pr.2.toNat - lo⟩ := by
          rw [hN3, getD_setD_ne _ _ _ _ _ (by omega),
            getD_setD_eq _ _ _ _ (by simp only [Array.size_setD, Array.size_push]; omega)]
        have hN3right : N3.getD (st.nodes.size + 1) BNode.default =
            ⟨FBox.empty, pr.2.toNat, cnt - (pr.2.toNat - lo)⟩ := by
          rw [hN3, getD_setD_eq _ _ _ _ (by simp only [Array.size_setD, Array.size_push]; omega)]
        have hN3other : ∀ j, j < st.nodes.size → j ≠ idx →
            N3.getD j BNode.default = st.nodes.getD j BNode.default := by
          intro j hj hne
          rw [hN3, getD_setD_ne _ _ _ _ _ (by omega), getD_setD_ne _ _ _ _ _ (by omega),
            getD_push_lt _ _ _ _ (by simp only [Array.size_setD, Array.size_push]; omega),
            getD_push_lt _ _ _ _ (by simp only [Array.size_setD, Array.size_push]; omega),
            getD_setD_ne _ _ _ _ _ hne]
        -- the state handed to the left recursion
        have hgn2 : getNode ⟨N3, pr.1⟩ st.nodes.size =
            ⟨FBox.empty, lo, pr.2.toNat - lo⟩ := hN3left
        have hst2nodes : st2.nodes =
            N3.setD st.nodes.size ⟨BL, lo, pr.2.toNat - lo⟩ := by
          rw [hst2]
          simp only [setAABB]
          rw [hgn2]
        have hst2prims : st2.prims = pr.1 := rfl
        have hs2 : st2.nodes.size = st.nodes.size + 2 := by
          rw [hst2nodes]
          simp [Array.size_setD, hN3size]
        have hst2left : st2.nodes.getD st.nodes.size BNode.default =
            ⟨BL, lo, pr.2.toNat - lo⟩ := by
          rw [hst2nodes]
          exact getD_setD_eq _ _ _ _ (by omega)
        have hst2idx : st2.nodes.getD idx BNode.default = ⟨bx, st.nodes.size, 0⟩ := by
          rw [hst2nodes, getD_setD_ne _ _ _ _ _ (by omega)]
          exact hN3idx
        have hst2right : st2.nodes.getD (st.nodes.size + 1) BNode.default =
            ⟨FBox.empty, pr.2.toNat, cnt - (pr.2.toNat - lo)⟩ := by
          rw [hst2nodes, getD_setD_ne _ _ _ _ _ (by omega)]
          exact hN3right
        have hst2other : ∀ j, j < st.nodes.size → j ≠ idx →
            st2.nodes.getD j BNode.default = st.nodes.getD j BNode.default := by
          intro j hj hne
          rw [hst2nodes, getD_setD_ne _ _ _ _ _ (by omega)]
          exact hN3other j hj hne
        -- the left child's freshly computed box
        obtain ⟨-, hBLfin0, hBLcont0⟩ := computeAABB_spec g pr.1 lo (pr.2.toNat - lo)
        rw [← hBL] at hBLfin0 hBLcont0
        -- the left recursion
        have ihL := ih st2 st.nodes.size lo (pr.2.toNat - lo) BL hst2left
          (by omega) hL1 (by omega)
          (by rw [hst2prims]; omega) (hBLfin0 hL1)
          (by intro k h1 h2; rw [hst2prims]; exact hBLcont0 k h1 h2)
        rw [← hst3] at ihL
        obtain ⟨hA3, hB3, hC3, S1, hT1, hS1mem, hS1cov⟩ := ihL
        rw [hst2prims] at hC3
        have hp3size : st3.prims.size = st.prims.size := by
          rw [hC3.1, hprsize]
        -- the right child's box, computed after the left recursion
        obtain ⟨-, hBRfin0, hBRcont0⟩ :=
          computeAABB_spec g st3.prims pr.2.toNat (cnt - (pr.2.toNat - lo))
        rw [← hBR] at hBRfin0 hBRcont0
        -- the state handed to the right recursion
        have hgn4 : getNode st3 (st.nodes.size + 1) =
            ⟨FBox.empty, pr.2.toNat, cnt - (pr.2.toNat - lo)⟩ := by
          show st3.nodes.getD _ _ = _
          rw [hB3 _ (by omega) (by omega)]
          exact hst2right
        have hst4nodes : st4.nodes = st3.nodes.setD (st.nodes.size + 1)
            ⟨BR, pr.2.toNat, cnt - (pr.2.toNat - lo)⟩ := by
          rw [hst4]
          simp only [setAABB]
          rw [hgn4]
        have hst4prims : st4.prims = st3.prims := rfl
        have hs34 : st4.nodes.size = st3.nodes.size := by
          rw [hst4nodes]
          simp [Array.size_setD]
        have hst4right : st4.nodes.getD (st.nodes.size + 1) BNode.default =
            ⟨BR, pr.2.toNat, cnt - (pr.2.toNat - lo)⟩ := by
          rw [hst4nodes]
          exact getD_setD_eq _ _ _ _ (by omega)
        -- the right recursion
        have ihR := ih st4 (st.nodes.size + 1) pr.2.toNat (cnt - (pr.2.toNat - lo)) BR
          hst4right (by omega) hR1 (by omega)
          (by rw [hst4prims]; omega) (hBRfin0 hR1)
          (by intro k h1 h2; rw [hst4prims]; exact hBRcont0 k h1 h2)
        rw [← hst5] at ihR
        obtain ⟨hA5, hB5, hC5, S2, hT2, hS2mem, hS2cov⟩ := ihR
        rw [hst4prims] at hC5
        have hp5size : st5.prims.size = st.prims.size := by
          rw [hC5.1, hp3size]
        -- frame facts through the whole pipeline
        have hframe : ∀ j, j < st.nodes.size → j ≠ idx →
            st5.nodes.getD j BNode.default = st.nodes.getD j BNode.default := by
          intro j hj hne
          rw [hB5 j (by omega) (by omega), hst4nodes, getD_setD_ne _ _ _ _ _ (by omega),
            hB3 j (by omega) (by omega)]
          exact hst2other j hj hne
        have hidx5 : st5.nodes.getD idx BNode.default = ⟨bx, st.nodes.size, 0⟩ := by
          rw [hB5 idx (by omega) (by omega), hst4nodes, getD_setD_ne _ _ _ _ _ (by omega),
            hB3 idx (by omega) (by omega)]
          exact hst2idx
        -- the full permutation of the parent's slot range
        have hpermFull : permWithin st.prims st5.prims lo cnt := by
          have hPa : permWithin pr.1 st3.prims lo cnt :=
            permWithin_widen hC3 (le_refl _) (by omega) (by omega)
          have hPb : permWithin st3.prims st5.prims lo cnt :=
            permWithin_widen hC5 (by omega) (by omega) (by omega)
          exact permWithin_trans hperm (permWithin_trans hPa hPb)
        refine ⟨by omega, hframe, hpermFull, insert idx (S1 ∪ S2), ?_, ?_, ?_⟩
        · -- the subtree invariant at the parent
          have hLR : cnt = (pr.2.toNat - lo) + (cnt - (pr.2.toNat - lo)) := by omega
          rw [hLR]
          refine Tree.internal idx lo (pr.2.toNat - lo) (cnt - (pr.2.toNat - lo))
            st.nodes.size S1 S2 bx (by omega) hidx5 hidx ?_ ?_ ?_ ?_ ?_ hfin ?_
          · -- the left subtree, transported to the final state
            refine Tree.mono hT1 st5.nodes st5.prims ?_ (by omega) ?_ ?_
            · intro k hk
              rcases hS1mem k hk with rfl | ⟨hk1, hk2⟩
              · rw [hB5 _ (by omega) (by omega), hst4nodes,
                  getD_setD_ne _ _ _ _ _ (by omega)]
              · rw [hB5 _ (by omega) (by omega), hst4nodes,
                  getD_setD_ne _ _ _ _ _ (by omega)]
            · rw [hp5size, ← hp3size]
            · intro k h1 h2
              exact hC5.2.1 k (by omega)
          · -- the right subtree
            have hfr : lo + (pr.2.toNat - lo) = pr.2.toNat := by omega
            rw [hfr]
            exact hT2
          · -- the two descendant sets are disjoint
            intro k hk1 hk2
            rcases hS1mem k hk1 with h1 | ⟨ha, hb⟩ <;>
              rcases hS2mem k hk2 with h2 | ⟨hc, hd⟩ <;> omega
          · intro hk
            rcases hS1mem idx hk with h | ⟨ha, hb⟩ <;> omega
          · intro hk
            rcases hS2mem idx hk with h | ⟨ha, hb⟩ <;> omega
          · -- the parent's box still contains its whole range
            intro k h1 h2
            exact contains_range_perm g bx hpermFull (le_refl _) (le_refl _) hcont
              k h1 (by omega)
        · -- all subtree nodes are the parent or freshly appended
          intro k hk
          rcases Finset.mem_insert.mp hk with rfl | hk
          · exact Or.inl rfl
          · rcases Finset.mem_union.mp hk with hk | hk
            · rcases hS1mem k hk with rfl | ⟨ha, hb⟩ <;> right <;> omega
            · rcases hS2mem k hk with rfl | ⟨ha, hb⟩ <;> right <;> omega
        · -- every appended node is in the subtree
          intro j hj1 hj2
          by_cases hj3 : j < st.nodes.size + 2
          · have : j = st.nodes.size ∨ j = st.nodes.size + 1 := by omega
            rcases this with rfl | rfl
            · exact Finset.mem_insert_of_mem (Finset.mem_union_left _ hT1.self_mem)
            · exact Finset.mem_insert_of_mem (Finset.mem_union_right _ hT2.self_mem)
          · by_cases hj4 : j < st3.nodes.size
            · exact Finset.mem_insert_of_mem (Finset.mem_union_left _
                (hS1cov j (by omega) (by omega)))
            · exact Finset.mem_insert_of_mem (Finset.mem_union_right _
                (hS2cov j (by omega) (by omega)))

theorem rangeList_eq_toList (p : Array ℕ) (n : ℕ) (h : p.size = n) :
    rangeList p 0 n = p.toList := by
  apply List.ext_getElem
  · rw [rangeList_length]
    show n = p.toList.length
    rw [show p.toList.length = p.size from rfl, h]
  · intro i h1 h2
    rw [rangeList_length] at h1
    rw [rangeList_getElem _ _ _ _ h1 (by rw [rangeList_length]; exact h1)]
    have hz : (0 : ℕ) + i = i := by omega
    rw [hz]
    have hi : i < p.size := by omega
    have hgd : p.getD i 0 = p[i] := by
      unfold Array.getD
      rw [dif_pos hi]
      rfl
    rw [hgd]
    rfl

theorem rangeList_range (n : ℕ) :
    rangeList ((List.range n).toArray) 0 n = List.range n := by
  apply List.ext_getElem
  · rw [rangeList_length, List.length_range]
  · intro i h1 h2
    rw [rangeList_length] at h1
    rw [rangeList_getElem _ _ _ _ h1 (by rw [rangeList_length]; exact h1)]
    have hz : (0 : ℕ) + i = i := by omega
    rw [hz]
    have hsz : i < ((List.range n).toArray).size := by simpa using h1
    have hgd : ((List.range n).toArray).getD i 0 = ((List.range n).toArray)[i] := by
      unfold Array.getD
      rw [dif_pos hsz]
      rfl
    rw [hgd]
    have hi2 : i < (List.range n).length := by simpa using h1
    have hel : ((List.range n).toArray)[i] = (List.range n)[i] := rfl
    rw [hel, List.getElem_range]

/-- `buildAccelerationStructure` on a nonempty collection: the primitive
array is a permutation of the identity and the root node (index 0) roots a
well-formed subtree whose node set is the whole node array. -/
theorem buildAccel_spec (g : PrimGeom) (hn : 1 ≤ g.n) :
    (buildAccel g).prims.size = g.n ∧
    permWithin ((List.range g.n).toArray) (buildAccel g).prims 0 g.n ∧
    ∃ S : Finset ℕ,
      Tree g (buildAccel g).nodes (buildAccel g).prims 0 0 g.n S ∧
      ∀ j, j < (buildAccel g).nodes.size → j ∈ S := by
  have hp0size : ((List.range g.n).toArray).size = g.n := by simp
  set prims0 := (List.range g.n).toArray with hprims0
  set B0 := computeAABB g prims0 0 g.n with hB0
  set st1 : BState := setAABB ⟨#[⟨FBox.empty, 0, g.n⟩], prims0⟩ 0 B0 with hst1
  have hbuild : buildAccel g = subdivide g (g.n + 1) st1 0 := rfl
  have hgn1 : getNode ⟨#[⟨FBox.empty, 0, g.n⟩], prims0⟩ 0 = ⟨FBox.empty, 0, g.n⟩ := rfl
  have hst1nodes : st1.nodes = #[(⟨FBox.empty, 0, g.n⟩ : BNode)].setD 0 ⟨B0, 0, g.n⟩ := by
    rw [hst1]
    simp only [setAABB]
    rw [hgn1]
  have honesize : (#[(⟨FBox.empty, 0, g.n⟩ : BNode)] : Array BNode).size = 1 := rfl
  have hst1node0 : st1.nodes.getD 0 BNode.default = ⟨B0, 0, g.n⟩ := by
    rw [hst1nodes]
    exact getD_setD_eq _ _ _ _ (by omega)
  have hst1size : st1.nodes.size = 1 := by
    rw [hst1nodes]
    simp [Array.size_setD]
  have hst1prims : st1.prims = prims0 := rfl
  obtain ⟨-, hB0fin, hB0cont⟩ := computeAABB_spec g prims0 0 g.n
  rw [← hB0] at hB0fin hB0cont
  have hsd := subdivide_spec g (g.n + 1) st1 0 0 g.n B0 hst1node0 (by omega) hn (by omega)
    (by rw [hst1prims]; omega) (hB0fin hn)
    (by intro k h1 h2; rw [hst1prims]; exact hB0cont k h1 h2)
  rw [← hbuild] at hsd
  obtain ⟨hA, hB, hC, S, hT, hSmem, hScov⟩ := hsd
  rw [hst1prims] at hC
  refine ⟨by rw [hC.1, hp0size], hC, S, hT, ?_⟩
  intro j hj
  by_cases hj0 : j = 0
  · subst hj0
    exact hT.self_mem
  · exact hScov j (by omega) hj

/-- The concrete one-primitive collection used to witness the amended C3. -/
def c3g : PrimGeom := ⟨1, fun _ => ⟨⟨0, 0, 0⟩, ⟨1, 1, 1⟩⟩, fun _ => ⟨0, 0, 0⟩⟩

/-- The zero-primitive collection on which the claimed invariant fails. -/
def g0cex : PrimGeom := ⟨0, fun _ => ⟨⟨0, 0, 0⟩, ⟨0, 0, 0⟩⟩, fun _ => ⟨0, 0, 0⟩⟩

/-- Counterexample to C3 as stated: on zero primitives the builder leaves a
single root node with `primitiveCount = 0`, which the claim classifies as an
internal node, yet its children positions `leftFirst` and `leftFirst + 1`
are not two positions of the one-node array (and `j < leftFirst` fails). -/
theorem bvh_build_zero_prims_violates :
    (buildAccel g0cex).nodes.size = 1 ∧
    (getNode (buildAccel g0cex) 0).primitiveCount = 0 ∧
    ¬ (0 < (getNode (buildAccel g0cex) 0).primitiveCount) ∧
    ¬ ((getNode (buildAccel g0cex) 0).leftFirst + 1 < (buildAccel g0cex).nodes.size) := by
  refine ⟨rfl, rfl, by decide, by decide⟩

/-- **C3** (amended to collections with at least one primitive, `1 ≤ g.n`;
the claim fails at `N = 0`, see `bvh_build_zero_prims_violates`).  After
`buildAccelerationStructure` on `N ≥ 1` primitives: every node is either a
leaf (`primitiveCount > 0`) whose slot range lies within the primitive-index
array, or an internal node (`primitiveCount == 0`) with its two children at
positions `leftFirst` and `leftFirst + 1` of the node array (in particular
`j < leftFirst` and `leftFirst + 1 < size`); the leaves' ranges partition the
primitive-index array (every slot is covered by exactly one leaf); and the
primitive-index array is a permutation of `0 .. N-1`. -/
theorem bvh_build_invariants (g : PrimGeom) (hn : 1 ≤ g.n) :
    (buildAccel g).prims.size = g.n ∧
    (buildAccel g).prims.toList.Perm (List.range g.n) ∧
    (∀ j, j < (buildAccel g).nodes.size →
      (0 < (getNode (buildAccel g) j).primitiveCount ∧
        (getNode (buildAccel g) j).leftFirst +
          (getNode (buildAccel g) j).primitiveCount ≤ (buildAccel g).prims.size) ∨
      ((getNode (buildAccel g) j).primitiveCount = 0 ∧
        j < (getNode (buildAccel g) j).leftFirst ∧
        (getNode (buildAccel g) j).leftFirst + 1 < (buildAccel g).nodes.size)) ∧
    (∀ kp, kp < (buildAccel g).prims.size →
      ∃! j, j < (buildAccel g).nodes.size ∧
        (getNode (buildAccel g) j).primitiveCount ≠ 0 ∧
        (getNode (buildAccel g) j).leftFirst ≤ kp ∧
        kp < (getNode (buildAccel g) j).leftFirst +
          (getNode (buildAccel g) j).primitiveCount) := by
  obtain ⟨hsize, hperm, S, hT, hcov⟩ := buildAccel_spec g hn
  refine ⟨hsize, ?_, ?_, ?_⟩
  · rw [List.perm_iff_count]
    intro x
    have h1 := hperm.2.2 x
    rw [rangeList_eq_toList _ _ hsize, rangeList_range] at h1
    exact h1
  · intro j hj
    exact hT.node_inv j (hcov j hj)
  · intro kp hkp
    obtain ⟨k, hkS, hl, ha, hb⟩ := hT.leaf_cover kp (by omega) (by omega)
    refine ⟨k, ⟨hT.mem_lt k hkS, hl, ha, hb⟩, ?_⟩
    intro j hj
    exact hT.leaf_cover_unique kp j k (hcov j hj.1) hkS hj.2.1 hl hj.2.2.1 hj.2.2.2 ha hb

/-- Witness for the amended C3 at the one-primitive collection `c3g`. -/
theorem bvh_build_invariants_witness :
    1 ≤ c3g.n ∧
    ((buildAccel c3g).prims.size = c3g.n ∧
    (buildAccel c3g).prims.toList.Perm (List.range c3g.n) ∧
    (∀ j, j < (buildAccel c3g).nodes.size →
      (0 < (getNode (buildAccel c3g) j).primitiveCount ∧
        (getNode (buildAccel c3g) j).leftFirst +
          (getNode (buildAccel c3g) j).primitiveCount ≤ (buildAccel c3g).prims.size) ∨
      ((getNode (buildAccel c3g) j).primitiveCount = 0 ∧
        j < (getNode (buildAccel c3g) j).leftFirst ∧
        (getNode (buildAccel c3g) j).leftFirst + 1 < (buildAccel c3g).nodes.size)) ∧
    (∀ kp, kp < (buildAccel c3g).prims.size →
      ∃! j, j < (buildAccel c3g).nodes.size ∧
        (getNode (buildAccel c3g) j).primitiveCount ≠ 0 ∧
        (getNode (buildAccel c3g) j).leftFirst ≤ kp ∧
        kp < (getNode (buildAccel c3g) j).leftFirst +
          (getNode (buildAccel c3g) j).primitiveCount)) :=
  ⟨le_refl 1, bvh_build_invariants c3g (le_refl 1)⟩

/-! ## Support lemmas for the traversal proof -/

instance : Std.Antisymm (fun x1 x2 : ℚ => x1 ≤ x2) where
  antisymm h1 h2 := le_antisymm h1 h2

theorem min?_mem_le (l : List Q) (m : Q) (h : l.min? = some m) :
    m ∈ l ∧ ∀ x ∈ l, m ≤ x :=
  (List.min?_eq_some_iff (fun a => le_refl a) (fun a b => min_choice a b)
    (fun _ _ _ => le_min_iff)).mp h

theorem min?_none (l : List Q) : l.min? = none ↔ l = [] :=
  List.mininmum?_eq_none_iff

theorem eligible_mem {D : Type} (pm : PrimModel D) (i : ℕ) (ray : Ray) (cap : FV)
    (t : Q) : t ∈ eligible pm i ray cap ↔
      t ∈ pm.hits i ray ∧ Epsilon ≤ t ∧ FV.le (.fin t) cap := by
  simp [eligible, List.mem_filter, and_assoc]

/-- The canonical per-primitive intersect satisfies the primitive contract. -/
theorem canonicalPint_conforms {D : Type} (pm : PrimModel D) :
    Conforms pm (canonicalPint pm) := by
  intro i _ ray its
  unfold canonicalPint
  cases h : (eligible pm i ray its.t).min? <;> simp [h]

/-- Totality of the float order away from NaN. -/
theorem FV.lt_or_le (a b : FV) (ha : a ≠ .nan) (hb : b ≠ .nan) :
    FV.lt a b = true ∨ FV.le b a := by
  cases h : FV.lt a b
  · exact Or.inr ((FV.not_lt_iff_le ha hb).mp h)
  · exact Or.inl rfl

/-- A point inside a primitive box is inside any node box containing that
primitive box. -/
theorem point_in_fbox {bx : FBox} {qb : QBox} {p : Vec3}
    (hc : boxContains bx qb) (hp : inQBox qb p) : pointInFBox bx p := by
  intro ax hax
  obtain ⟨h1, h2⟩ := hc ax hax
  obtain ⟨hx1, hx2, hy1, hy2, hz1, hz2⟩ := hp
  constructor
  · refine FV.trans_le h1 (FV.le_fin_iff.mpr ?_)
    interval_cases ax <;> simpa [Vec3.comp]
  · refine FV.trans_le (FV.le_fin_iff.mpr ?_) h2
    interval_cases ax <;> simpa [Vec3.comp]

/-- The root box of a subtree is finite and contains the primitive boxes of
the subtree's slot range. -/
theorem Tree.box_spec {g : PrimGeom} {nodes : Array BNode} {prims : Array ℕ}
    {j lo cnt : ℕ} {S : Finset ℕ} (T : Tree g nodes prims j lo cnt S) :
    boxFinite (nodes.getD j BNode.default).aabb ∧
    ∀ k, lo ≤ k → k < lo + cnt →
      boxContains (nodes.getD j BNode.default).aabb (g.bbox (getPrim prims k)) := by
  cases T with
  | leaf j lo cnt bx hj hnode hcnt hrange hfin hcont =>
    rw [hnode]
    exact ⟨hfin, hcont⟩
  | internal j lo cnt1 cnt2 c S1 S2 bx hj hnode hjc hleft hright hdisj hj1 hj2 hfin hcont =>
    rw [hnode]
    exact ⟨hfin, fun k h1 h2 => hcont k h1 (by omega)⟩

/-- The slab test of a finite box never evaluates to NaN when the ray is not
IEEE-degenerate against the box. -/
theorem slab_not_nan (bx : FBox) (ray : Ray) (hnn : boxNoNaN bx ray)
    (hfin : boxFinite bx) : intersectAABB bx ray ≠ .nan := by
  obtain ⟨⟨a0, ha0⟩, b0, hb0⟩ := hfin 0 (by norm_num)
  obtain ⟨⟨a1, ha1⟩, b1, hb1⟩ := hfin 1 (by norm_num)
  obtain ⟨⟨a2, ha2⟩, b2, hb2⟩ := hfin 2 (by norm_num)
  have hn0 := hnn 0 (by norm_num)
  have hn1 := hnn 1 (by norm_num)
  have hn2 := hnn 2 (by norm_num)
  norm_num [FV3.comp, Vec3.comp] at ha0 hb0 ha1 hb1 ha2 hb2 hn0 hn1 hn2
  have key : ∀ (aq o d : Q), (d ≠ 0 ∨ aq ≠ o) → fdivQ (.fin (aq - o)) d ≠ .nan := by
    intro aq o d h
    by_cases hd : d = 0
    · subst hd
      rcases h with h | h
      · exact absurd rfl h
      · have hne : aq - o ≠ 0 := sub_ne_zero.mpr h
        rcases lt_trichotomy (aq - o) 0 with hlt | heq | hgt
        · simp [fdivQ, hlt, not_lt.mpr (le_of_lt hlt)]
        · exact absurd heq hne
        · simp [fdivQ, hgt]
    · simp [fdivQ, hd]
  have k0a : fdivQ (.fin (a0 - ray.origin.x)) ray.direction.x ≠ .nan := by
    apply key
    rcases hn0 with h | ⟨h1, h2⟩
    · exact Or.inl h
    · exact Or.inr fun he => h1 (by rw [ha0, he])
  have k0b : fdivQ (.fin (b0 - ray.origin.x)) ray.direction.x ≠ .nan := by
    apply key
    rcases hn0 with h | ⟨h1, h2⟩
    · exact Or.inl h
    · exact Or.inr fun he => h2 (by rw [hb0, he])
  have k1a : fdivQ (.fin (a1 - ray.origin.y)) ray.direction.y ≠ .nan := by
    apply key
    rcases hn1 with h | ⟨h1, h2⟩
    · exact Or.inl h
    · exact Or.inr fun he => h1 (by rw [ha1, he])
  have k1b : fdivQ (.fin (b1 - ray.origin.y)) ray.direction.y ≠ .nan := by
    apply key
    rcases hn1 with h | ⟨h1, h2⟩
    · exact Or.inl h
    · exact Or.inr fun he => h2 (by rw [hb1, he])
  have k2a : fdivQ (.fin (a2 - ray.origin.z)) ray.direction.z ≠ .nan := by
    apply key
    rcases hn2 with h | ⟨h1, h2⟩
    · exact Or.inl h
    · exact Or.inr fun he => h1 (by rw [ha2, he])
  have k2b : fdivQ (.fin (b2 - ray.origin.z)) ray.direction.z ≠ .nan := by
    apply key
    rcases hn2 with h | ⟨h1, h2⟩
    · exact Or.inl h
    · exact Or.inr fun he => h2 (by rw [hb2, he])
  unfold intersectAABB slabDiv ewMin ewMax
  rw [ha0, ha1, ha2, hb0, hb1, hb2]
  simp only [fvSubQ]
  have hminx : cppMin (fdivQ (.fin (a0 - ray.origin.x)) ray.direction.x)
      (fdivQ (.fin (b0 - ray.origin.x)) ray.direction.x) ≠ .nan := by
    rcases cppMin_cases (fdivQ (.fin (a0 - ray.origin.x)) ray.direction.x)
      (fdivQ (.fin (b0 - ray.origin.x)) ray.direction.x) with h | h <;> rw [h] <;> assumption
  have hminy : cppMin (fdivQ (.fin (a1 - ray.origin.y)) ray.direction.y)
      (fdivQ (.fin (b1 - ray.origin.y)) ray.direction.y) ≠ .nan := by
    rcases cppMin_cases (fdivQ (.fin (a1 - ray.origin.y)) ray.direction.y)
      (fdivQ (.fin (b1 - ray.origin.y)) ray.direction.y) with h | h <;> rw [h] <;> assumption
  have hminz : cppMin (fdivQ (.fin (a2 - ray.origin.z)) ray.direction.z)
      (fdivQ (.fin (b2 - ray.origin.z)) ray.direction.z) ≠ .nan := by
    rcases cppMin_cases (fdivQ (.fin (a2 - ray.origin.z)) ray.direction.z)
      (fdivQ (.fin (b2 - ray.origin.z)) ray.direction.z) with h | h <;> rw [h] <;> assumption
  have hnear : maxComponent3 ⟨cppMin (fdivQ (.fin (a0 - ray.origin.x)) ray.direction.x)
      (fdivQ (.fin (b0 - ray.origin.x)) ray.direction.x),
      cppMin (fdivQ (.fin (a1 - ray.origin.y)) ray.direction.y)
      (fdivQ (.fin (b1 - ray.origin.y)) ray.direction.y),
      cppMin (fdivQ (.fin (a2 - ray.origin.z)) ray.direction.z)
      (fdivQ (.fin (b2 - ray.origin.z)) ray.direction.z)⟩ ≠ .nan := by
    rcases maxComponent3_cases ⟨cppMin (fdivQ (.fin (a0 - ray.origin.x)) ray.direction.x)
      (fdivQ (.fin (b0 - ray.origin.x)) ray.direction.x),
      cppMin (fdivQ (.fin (a1 - ray.origin.y)) ray.direction.y)
      (fdivQ (.fin (b1 - ray.origin.y)) ray.direction.y),
      cppMin (fdivQ (.fin (a2 - ray.origin.z)) ray.direction.z)
      (fdivQ (.fin (b2 - ray.origin.z)) ray.direction.z)⟩ with h | h | h <;>
        rw [h] <;> assumption
  split
  · simp
  · split
    · simp
    · exact hnear

/-- What traversing a subtree guarantees, stated about the result `r` of
`intersectNode` on a subtree over the slots `[lo, lo + cnt)`: the distance
never grows and never becomes NaN; a `false` return leaves distance and data
unchanged; a `true` return reports an eligible hit of a primitive of the
range; the result is at most every eligible hit of the range; and a hit
strictly below the incoming distance is never missed. -/
def NodeConcl {D : Type} (pm : PrimModel D) (prims : Array ℕ) (ray : Ray)
    (lo cnt : ℕ) (its : AIts D) (r : Bool × AIts D) : Prop :=
  FV.le r.2.t its.t ∧ r.2.t ≠ .nan ∧
  (r.1 = false → r.2.t = its.t ∧ r.2.data = its.data) ∧
  (r.1 = true → ∃ k, lo ≤ k ∧ k < lo + cnt ∧ ∃ t, t ∈ pm.hits (getPrim prims k) ray ∧
    Epsilon ≤ t ∧ FV.le (.fin t) its.t ∧ r.2.t = .fin t ∧
    r.2.data = some (pm.dataOf (getPrim prims k) t)) ∧
  (∀ k, lo ≤ k → k < lo + cnt → ∀ t, t ∈ pm.hits (getPrim prims k) ray →
    Epsilon ≤ t → FV.le (.fin t) its.t → FV.le r.2.t (.fin t)) ∧
  ((∃ k, lo ≤ k ∧ k < lo + cnt ∧ ∃ t, t ∈ pm.hits (getPrim prims k) ray ∧
    Epsilon ≤ t ∧ FV.lt (.fin t) its.t = true) → r.1 = true)

/-- The leaf loop of `intersectNode`: folding the per-primitive intersect
over the slots of a leaf satisfies the traversal guarantees (with the leaf's
stronger property that even hits exactly at the incoming distance are found:
the sixth component is strengthened from `<` to `≤` here). -/
theorem leafFold_spec {D : Type} (pm : PrimModel D)
    (pint : ℕ → Ray → AIts D → Bool × AIts D) (hconf : Conforms pm pint)
    (incP : AIts D → AIts D) (hP : ∀ x, (incP x).t = x.t ∧ (incP x).data = x.data)
    (prims : Array ℕ) (ray : Ray) (lo : ℕ) :
    ∀ (cnt : ℕ) (b : Bool) (its : AIts D), its.t ≠ .nan →
    (∀ k, lo ≤ k → k < lo + cnt → getPrim prims k < pm.n) →
    (FV.le ((List.range cnt).foldl (fun acc i =>
        ((acc.1 || (pint (getPrim prims (lo + i)) ray (incP acc.2)).1),
          (pint (getPrim prims (lo + i)) ray (incP acc.2)).2)) (b, its)).2.t its.t) ∧
    ((List.range cnt).foldl (fun acc i =>
        ((acc.1 || (pint (getPrim prims (lo + i)) ray (incP acc.2)).1),
          (pint (getPrim prims (lo + i)) ray (incP acc.2)).2)) (b, its)).2.t ≠ .nan ∧
    (((List.range cnt).foldl (fun acc i =>
        ((acc.1 || (pint (getPrim prims (lo + i)) ray (incP acc.2)).1),
          (pint (getPrim prims (lo + i)) ray (incP acc.2)).2)) (b, its)).1 = false →
      b = false ∧
      ((List.range cnt).foldl (fun acc i =>
        ((acc.1 || (pint (getPrim prims (lo + i)) ray (incP acc.2)).1),
          (pint (getPrim prims (lo + i)) ray (incP acc.2)).2)) (b, its)).2.t = its.t ∧
      ((List.range cnt).foldl (fun acc i =>
        ((acc.1 || (pint (getPrim prims (lo + i)) ray (incP acc.2)).1),
          (pint (getPrim prims (lo + i)) ray (incP acc.2)).2)) (b, its)).2.data = its.data) ∧
    (((List.range cnt).foldl (fun acc i =>
        ((acc.1 || (pint (getPrim prims (lo + i)) ray (incP acc.2)).1),
          (pint (getPrim prims (lo + i)) ray (incP acc.2)).2)) (b, its)).1 = true →
      (b = true ∧
        ((List.range cnt).foldl (fun acc i =>
          ((acc.1 || (pint (getPrim prims (lo + i)) ray (incP acc.2)).1),
            (pint (getPrim prims (lo + i)) ray (incP acc.2)).2)) (b, its)).2.t = its.t ∧
        ((List.range cnt).foldl (fun acc i =>
          ((acc.1 || (pint (getPrim prims (lo + i)) ray (incP acc.2)).1),
            (pint (getPrim prims (lo + i)) ray (incP acc.2)).2)) (b, its)).2.data = its.data) ∨
      (∃ k, lo ≤ k ∧ k < lo + cnt ∧ ∃ t, t ∈ pm.hits (getPrim prims k) ray ∧
        Epsilon ≤ t ∧ FV.le (.fin t) its.t ∧
        ((List.range cnt).foldl (fun acc i =>
          ((acc.1 || (pint (getPrim prims (lo + i)) ray (incP acc.2)).1),
            (pint (getPrim prims (lo + i)) ray (incP acc.2)).2)) (b, its)).2.t = .fin t ∧
        ((List.range cnt).foldl (fun acc i =>
          ((acc.1 || (pint (getPrim prims (lo + i)) ray (incP acc.2)).1),
            (pint (getPrim prims (lo + i)) ray (incP acc.2)).2)) (b, its)).2.data =
          some (pm.dataOf (getPrim prims k) t))) ∧
    (∀ k, lo ≤ k → k < lo + cnt → ∀ t, t ∈ pm.hits (getPrim prims k) ray →
      Epsilon ≤ t → FV.le (.fin t) its.t →
      FV.le ((List.range cnt).foldl (fun acc i =>
        ((acc.1 || (pint (getPrim prims (lo + i)) ray (incP acc.2)).1),
          (pint (getPrim prims (lo + i)) ray (incP acc.2)).2)) (b, its)).2.t (.fin t)) ∧
    ((∃ k, lo ≤ k ∧ k < lo + cnt ∧ ∃ t, t ∈ pm.hits (getPrim prims k) ray ∧
      Epsilon ≤ t ∧ FV.le (.fin t) its.t) →
      ((List.range cnt).foldl (fun acc i =>
        ((acc.1 || (pint (getPrim prims (lo + i)) ray (incP acc.2)).1),
          (pint (getPrim prims (lo + i)) ray (incP acc.2)).2)) (b, its)).1 = true) := by
  intro cnt
  induction cnt with
  | zero =>
    intro b its hnan hval
    refine ⟨FV.refl_le _, hnan, fun _ => ⟨by assumption, rfl, rfl⟩,
      fun hb => Or.inl ⟨by assumption, rfl, rfl⟩, by omega, ?_⟩
    rintro ⟨k, hk1, hk2, -⟩
    omega
  | succ cnt ihc =>
    intro b its hnan hval
    rw [List.range_succ, List.foldl_append]
    obtain ⟨ihC, ihE, ihB, ihA, ihD, ihF⟩ := ihc b its hnan
      (fun k h1 h2 => hval k h1 (by omega))
    set r1 := (List.range cnt).foldl (fun acc i =>
        ((acc.1 || (pint (getPrim prims (lo + i)) ray (incP acc.2)).1),
          (pint (getPrim prims (lo + i)) ray (incP acc.2)).2)) (b, its) with hr1
    simp only [List.foldl_cons, List.foldl_nil]
    have hiv : getPrim prims (lo + cnt) < pm.n := hval (lo + cnt) (by omega) (by omega)
    have hc := hconf (getPrim prims (lo + cnt)) hiv ray (incP r1.2)
    rw [(hP r1.2).1] at hc
    cases hmin : (eligible pm (getPrim prims (lo + cnt)) ray r1.2.t).min? with
    | none =>
      rw [hmin] at hc
      obtain ⟨hcb, hct, hcd⟩ := hc
      rw [(hP r1.2).2] at hcd
      have hEempty : eligible pm (getPrim prims (lo + cnt)) ray r1.2.t = [] :=
        (min?_none _).mp hmin
      refine ⟨?_, ?_, ?_, ?_, ?_, ?_⟩
      · rw [hct]; exact ihC
      · rw [hct]; exact ihE
      · intro hfalse
        rw [hcb, Bool.or_false] at hfalse
        obtain ⟨h1, h2, h3⟩ := ihB hfalse
        exact ⟨h1, by rw [hct, h2], by rw [hcd, h3]⟩
      · intro htrue
        rw [hcb, Bool.or_false] at htrue
        rcases ihA htrue with ⟨h1, h2, h3⟩ | ⟨k, hk1, hk2, t, ht1, ht2, ht3, ht4, ht5⟩
        · exact Or.inl ⟨h1, by rw [hct, h2], by rw [hcd, h3]⟩
        · exact Or.inr ⟨k, hk1, by omega, t, ht1, ht2, ht3, by rw [hct, ht4],
            by rw [hcd, ht5]⟩
      · intro k hk1 hk2 t ht1 ht2 ht3
        by_cases hk : k < lo + cnt
        · rw [hct]; exact ihD k hk1 hk t ht1 ht2 ht3
        · have hkc : k = lo + cnt := by omega
          subst hkc
          rcases FV.lt_or_le r1.2.t (.fin t) ihE (by simp) with hlt | hle
          · rw [hct]; exact FV.le_of_lt hlt
          · exfalso
            have : t ∈ eligible pm (getPrim prims (lo + cnt)) ray r1.2.t :=
              (eligible_mem pm _ ray _ t).mpr ⟨ht1, ht2, hle⟩
            rw [hEempty] at this
            exact absurd this (List.not_mem_nil t)
      · rintro ⟨k, hk1, hk2, t, ht1, ht2, ht3⟩
        by_cases hk : k < lo + cnt
        · have := ihF ⟨k, hk1, hk, t, ht1, ht2, ht3⟩
          rw [hcb, this, Bool.true_or]
        · have hkc : k = lo + cnt := by omega
          subst hkc
          cases hb1 : r1.1 with
          | true =>
            simp
          | false =>
            exfalso
            obtain ⟨-, h2, -⟩ := ihB hb1
            have : t ∈ eligible pm (getPrim prims (lo + cnt)) ray r1.2.t :=
              (eligible_mem pm _ ray _ t).mpr ⟨ht1, ht2, by rw [h2]; exact ht3⟩
            rw [hEempty] at this
            exact absurd this (List.not_mem_nil t)
    | some m =>
      rw [hmin] at hc
      obtain ⟨hcb, hct, hcd⟩ := hc
      obtain ⟨hmmem, hmmin⟩ := min?_mem_le _ m hmin
      obtain ⟨hmh, hme, hml⟩ := (eligible_mem pm _ ray _ m).mp hmmem
      refine ⟨?_, ?_, ?_, ?_, ?_, ?_⟩
      · rw [hct]
        exact FV.trans_le hml ihC
      · rw [hct]; simp
      · intro hfalse
        rw [hcb] at hfalse
        simp at hfalse
      · intro _
        exact Or.inr ⟨lo + cnt, by omega, by omega, m, hmh, hme, FV.trans_le hml ihC,
          hct, hcd⟩
      · intro k hk1 hk2 t ht1 ht2 ht3
        by_cases hk : k < lo + cnt
        · have hd := ihD k hk1 hk t ht1 ht2 ht3
          rw [hct]
          exact FV.trans_le hml hd
        · have hkc : k = lo + cnt := by omega
          subst hkc
          rcases FV.lt_or_le r1.2.t (.fin t) ihE (by simp) with hlt | hle
          · rw [hct]
            exact FV.trans_le hml (FV.le_of_lt hlt)
          · have : t ∈ eligible pm (getPrim prims (lo + cnt)) ray r1.2.t :=
              (eligible_mem pm _ ray _ t).mpr ⟨ht1, ht2, hle⟩
            have := hmmin t this
            rw [hct]
            exact FV.le_fin_iff.mpr this
      · intro _
        rw [hcb]
        simp

/-- Sequentially visiting two guarded children (each pruned by comparing its
slab entry against the current distance with strict `<`) preserves the
traversal guarantees over the union of their ranges. -/
theorem guardedSeq_concl {D : Type} (pm : PrimModel D) (prims : Array ℕ) (ray : Ray)
    (lo cnt loA cntA loB cntB : ℕ) (tA tB : FV) (fA fB : AIts D → Bool × AIts D)
    (hAnn : tA ≠ .nan) (hBnn : tB ≠ .nan)
    (hunion : ∀ k, (lo ≤ k ∧ k < lo + cnt) ↔
      ((loA ≤ k ∧ k < loA + cntA) ∨ (loB ≤ k ∧ k < loB + cntB)))
    (recA : ∀ its2 : AIts D, its2.t ≠ .nan → NodeConcl pm prims ray loA cntA its2 (fA its2))
    (recB : ∀ its2 : AIts D, its2.t ≠ .nan → NodeConcl pm prims ray loB cntB its2 (fB its2))
    (hslabA : ∀ k, loA ≤ k → k < loA + cntA → ∀ t, t ∈ pm.hits (getPrim prims k) ray →
      Epsilon ≤ t → FV.le tA (.fin t))
    (hslabB : ∀ k, loB ≤ k → k < loB + cntB → ∀ t, t ∈ pm.hits (getPrim prims k) ray →
      Epsilon ≤ t → FV.le tB (.fin t))
    (its : AIts D) (hnan : its.t ≠ .nan) :
    NodeConcl pm prims ray lo cnt its
      ((if FV.lt tA its.t then fA its else (false, its)).1 ||
         (if FV.lt tB (if FV.lt tA its.t then fA its else (false, its)).2.t
            then fB (if FV.lt tA its.t then fA its else (false, its)).2
            else (false, (if FV.lt tA its.t then fA its else (false, its)).2)).1,
       (if FV.lt tB (if FV.lt tA its.t then fA its else (false, its)).2.t
          then fB (if FV.lt tA its.t then fA its else (false, its)).2
          else (false, (if FV.lt tA its.t then fA its else (false, its)).2)).2) := by
  set r1 := if FV.lt tA its.t then fA its else (false, its) with hr1
  have N1 : NodeConcl pm prims ray loA cntA its r1 := by
    rw [hr1]
    by_cases g1 : FV.lt tA its.t = true
    · rw [if_pos g1]
      exact recA its hnan
    · rw [if_neg g1]
      have hga : FV.le its.t tA :=
        (FV.not_lt_iff_le hAnn hnan).mp (Bool.eq_false_iff.mpr g1)
      refine ⟨FV.refl_le _, hnan, fun _ => ⟨rfl, rfl⟩, by simp, ?_, ?_⟩
      · intro k hk1 hk2 t ht1 ht2 _
        exact FV.trans_le hga (hslabA k hk1 hk2 t ht1 ht2)
      · rintro ⟨k, hk1, hk2, t, ht1, ht2, ht3⟩
        exfalso
        apply g1
        exact FV.lt_of_le_of_lt (hslabA k hk1 hk2 t ht1 ht2) ht3
  obtain ⟨c1, e1, b1, a1, d1, f1⟩ := N1
  set r2 := if FV.lt tB r1.2.t then fB r1.2 else (false, r1.2) with hr2
  have N2 : NodeConcl pm prims ray loB cntB r1.2 r2 := by
    rw [hr2]
    by_cases g2 : FV.lt tB r1.2.t = true
    · rw [if_pos g2]
      exact recB r1.2 e1
    · rw [if_neg g2]
      have hgb : FV.le r1.2.t tB :=
        (FV.not_lt_iff_le hBnn e1).mp (Bool.eq_false_iff.mpr g2)
      refine ⟨FV.refl_le _, e1, fun _ => ⟨rfl, rfl⟩, by simp, ?_, ?_⟩
      · intro k hk1 hk2 t ht1 ht2 _
        exact FV.trans_le hgb (hslabB k hk1 hk2 t ht1 ht2)
      · rintro ⟨k, hk1, hk2, t, ht1, ht2, ht3⟩
        exfalso
        apply g2
        exact FV.lt_of_le_of_lt (hslabB k hk1 hk2 t ht1 ht2) ht3
  obtain ⟨c2, e2, b2, a2, d2, f2⟩ := N2
  refine ⟨FV.trans_le c2 c1, e2, ?_, ?_, ?_, ?_⟩
  · intro hfalse
    rw [Bool.or_eq_false_iff] at hfalse
    obtain ⟨hb1', hb2'⟩ := hfalse
    obtain ⟨hbt1, hbd1⟩ := b1 hb1'
    obtain ⟨hbt2, hbd2⟩ := b2 hb2'
    exact ⟨by rw [hbt2, hbt1], by rw [hbd2, hbd1]⟩
  · intro htrue
    cases hx2 : r2.1 with
    | true =>
      obtain ⟨k, hk1, hk2, t, ht1, ht2, ht3, ht4, ht5⟩ := a2 hx2
      exact ⟨k, ((hunion k).mpr (Or.inr ⟨hk1, hk2⟩)).1,
        ((hunion k).mpr (Or.inr ⟨hk1, hk2⟩)).2, t, ht1, ht2,
        FV.trans_le ht3 c1, ht4, ht5⟩
    | false =>
      rw [hx2, Bool.or_false] at htrue
      obtain ⟨hbt2, hbd2⟩ := b2 hx2
      obtain ⟨k, hk1, hk2, t, ht1, ht2, ht3, ht4, ht5⟩ := a1 htrue
      exact ⟨k, ((hunion k).mpr (Or.inl ⟨hk1, hk2⟩)).1,
        ((hunion k).mpr (Or.inl ⟨hk1, hk2⟩)).2, t, ht1, ht2, ht3,
        by rw [hbt2, ht4], by rw [hbd2, ht5]⟩
  · intro k hk1 hk2 t ht1 ht2 ht3
    rcases (hunion k).mp ⟨hk1, hk2⟩ with ⟨ha1, ha2⟩ | ⟨ha1, ha2⟩
    · exact FV.trans_le c2 (d1 k ha1 ha2 t ht1 ht2 ht3)
    · rcases FV.lt_or_le r1.2.t (.fin t) e1 (by simp) with hlt | hle
      · exact FV.trans_le c2 (FV.le_of_lt hlt)
      · exact d2 k ha1 ha2 t ht1 ht2 hle
  · rintro ⟨k, hk1, hk2, t, ht1, ht2, ht3⟩
    rcases (hunion k).mp ⟨hk1, hk2⟩ with ⟨ha1, ha2⟩ | ⟨ha1, ha2⟩
    · rw [f1 ⟨k, ha1, ha2, t, ht1, ht2, ht3⟩, Bool.true_or]
    · cases hx1 : r1.1 with
      | true => rw [Bool.true_or]
      | false =>
        obtain ⟨hbt1, hbd1⟩ := b1 hx1
        rw [f2 ⟨k, ha1, ha2, t, ht1, ht2, by rw [hbt1]; exact ht3⟩, Bool.or_true]

/-- The traversal guarantees only depend on the starting record through its
distance and data. -/
theorem NodeConcl_congr {D : Type} (pm : PrimModel D) (prims : Array ℕ) (ray : Ray)
    (lo cnt : ℕ) (its its2 : AIts D) (r : Bool × AIts D)
    (ht : its2.t = its.t) (hd : its2.data = its.data)
    (h : NodeConcl pm prims ray lo cnt its2 r) : NodeConcl pm prims ray lo cnt its r := by
  unfold NodeConcl at h ⊢
  rw [ht, hd] at h
  exact h

/-- `intersectNode` on a well-formed subtree satisfies the traversal
guarantees, given enough fuel, no IEEE-degenerate boxes on the subtree's
nodes, and a conforming per-primitive intersect whose hits stay inside the
reported bounding boxes. -/
theorem intersectNode_spec {D : Type} (pm : PrimModel D)
    (pint : ℕ → Ray → AIts D → Bool × AIts D) (hconf : Conforms pm pint)
    (hbounds : HitsInBounds pm) (incB incP : AIts D → AIts D)
    (hB : ∀ x, (incB x).t = x.t ∧ (incB x).data = x.data)
    (hP : ∀ x, (incP x).t = x.t ∧ (incP x).data = x.data)
    (nodes : Array BNode) (prims : Array ℕ) (ray : Ray)
    (hvalid : ∀ k, k < prims.size → getPrim prims k < pm.n) :
    ∀ (fuel j lo cnt : ℕ) (S : Finset ℕ) (its : AIts D),
    Tree pm.toGeom nodes prims j lo cnt S → S.card ≤ fuel →
    lo + cnt ≤ prims.size →
    (∀ k ∈ S, boxNoNaN (nodes.getD k BNode.default).aabb ray) →
    its.t ≠ .nan →
    NodeConcl pm prims ray lo cnt its
      (intersectNode nodes prims pint AIts.t incB incP fuel ray j its) := by
  intro fuel
  induction fuel with
  | zero =>
    intro j lo cnt S its T hcard hrange hnn hnan
    exfalso
    have : 0 < S.card := Finset.card_pos.mpr ⟨j, T.self_mem⟩
    omega
  | succ fuel ih =>
    intro j lo cnt S its T hcard hrange hnn hnan
    cases T with
    | leaf j lo cnt bx hj hnode hcnt hrange2 hfin hcont =>
      simp only [intersectNode, hnode]
      rw [if_pos hcnt]
      obtain ⟨C1, E1, B1, A1, D1, F1⟩ := leafFold_spec pm pint hconf incP hP prims ray lo
        cnt false (incB its) (by rw [(hB its).1]; exact hnan)
        (fun k h1 h2 => hvalid k (by omega))
      refine NodeConcl_congr pm prims ray lo cnt its (incB its) _ (hB its).1 (hB its).2
        ⟨C1, E1, ?_, ?_, D1, ?_⟩
      · intro hfalse
        obtain ⟨-, h2, h3⟩ := B1 hfalse
        exact ⟨h2, h3⟩
      · intro htrue
        rcases A1 htrue with ⟨hb, -, -⟩ | hw
        · exact absurd hb (by simp)
        · exact hw
      · rintro ⟨k, hk1, hk2, t, ht1, ht2, ht3⟩
        exact F1 ⟨k, hk1, hk2, t, ht1, ht2, FV.le_of_lt ht3⟩
    | internal j lo cnt1 cnt2 c S1 S2 bx hj hnode hjc hleft hright hdisj hj1 hj2 hfin hcont =>
      simp only [intersectNode, hnode]
      rw [if_neg (by omega : ¬ (0 : ℕ) ≠ 0)]
      have hmemL : c ∈ insert j (S1 ∪ S2) :=
        Finset.mem_insert_of_mem (Finset.mem_union_left _ hleft.self_mem)
      have hmemR : c + 1 ∈ insert j (S1 ∪ S2) :=
        Finset.mem_insert_of_mem (Finset.mem_union_right _ hright.self_mem)
      have hfinL := hleft.box_spec.1
      have hfinR := hright.box_spec.1
      have hLnn : intersectAABB (nodes.getD c BNode.default).aabb ray ≠ .nan :=
        slab_not_nan _ _ (hnn c hmemL) hfinL
      have hRnn : intersectAABB (nodes.getD (c + 1) BNode.default).aabb ray ≠ .nan :=
        slab_not_nan _ _ (hnn (c + 1) hmemR) hfinR
      have hjS12 : j ∉ S1 ∪ S2 := by
        rw [Finset.mem_union]
        rintro (h | h)
        · exact hj1 h
        · exact hj2 h
      have hdisjF : Disjoint S1 S2 := Finset.disjoint_left.mpr hdisj
      have hcards : S1.card ≤ fuel ∧ S2.card ≤ fuel := by
        have h1 : (insert j (S1 ∪ S2)).card = (S1 ∪ S2).card + 1 :=
          Finset.card_insert_of_not_mem hjS12
        have h2 : (S1 ∪ S2).card = S1.card + S2.card :=
          Finset.card_union_of_disjoint hdisjF
        omega
      have hslabL : ∀ k, lo ≤ k → k < lo + cnt1 →
          ∀ t, t ∈ pm.hits (getPrim prims k) ray → Epsilon ≤ t →
          FV.le (intersectAABB (nodes.getD c BNode.default).aabb ray) (.fin t) := by
        intro k hk1 hk2 t ht1 ht2
        exact slab_le_hit _ ray t ht2
          (point_in_fbox (hleft.box_spec.2 k hk1 hk2)
            (hbounds (getPrim prims k) (hvalid k (by omega)) ray t ht1))
          (hnn c hmemL) hfinL
      have hslabR : ∀ k, lo + cnt1 ≤ k → k < lo + cnt1 + cnt2 →
          ∀ t, t ∈ pm.hits (getPrim prims k) ray → Epsilon ≤ t →
          FV.le (intersectAABB (nodes.getD (c + 1) BNode.default).aabb ray) (.fin t) := by
        intro k hk1 hk2 t ht1 ht2
        exact slab_le_hit _ ray t ht2
          (point_in_fbox (hright.box_spec.2 k hk1 (by omega))
            (hbounds (getPrim prims k) (hvalid k (by omega)) ray t ht1))
          (hnn (c + 1) hmemR) hfinR
      have recL : ∀ its2 : AIts D, its2.t ≠ .nan →
          NodeConcl pm prims ray lo cnt1 its2
            (intersectNode nodes prims pint AIts.t incB incP fuel ray c its2) :=
        fun its2 hnan2 => ih c lo cnt1 S1 its2 hleft hcards.1 (by omega)
          (fun k hk => hnn k (Finset.mem_insert_of_mem (Finset.mem_union_left _ hk))) hnan2
      have recR : ∀ its2 : AIts D, its2.t ≠ .nan →
          NodeConcl pm prims ray (lo + cnt1) cnt2 its2
            (intersectNode nodes prims pint AIts.t incB incP fuel ray (c + 1) its2) :=
        fun its2 hnan2 => ih (c + 1) (lo + cnt1) cnt2 S2 its2 hright hcards.2 (by omega)
          (fun k hk => hnn k (Finset.mem_insert_of_mem (Finset.mem_union_right _ hk))) hnan2
      have hnan2 : (incB its).t ≠ .nan := by rw [(hB its).1]; exact hnan
      by_cases hord : FV.lt (intersectAABB (nodes.getD c BNode.default).aabb ray)
          (intersectAABB (nodes.getD (c + 1) BNode.default).aabb ray) = true
      · rw [if_pos hord]
        exact NodeConcl_congr pm prims ray lo (cnt1 + cnt2) its (incB its) _
          (hB its).1 (hB its).2
          (guardedSeq_concl pm prims ray lo (cnt1 + cnt2) lo cnt1 (lo + cnt1) cnt2
            _ _ _ _ hLnn hRnn (by intro k; omega) recL recR hslabL hslabR
            (incB its) hnan2)
      · rw [if_neg hord]
        exact NodeConcl_congr pm prims ray lo (cnt1 + cnt2) its (incB its) _
          (hB its).1 (hB its).2
          (guardedSeq_concl pm prims ray lo (cnt1 + cnt2) (lo + cnt1) cnt2 lo cnt1
            _ _ _ _ hRnn hLnn (by intro k; omega) recR recL hslabR hslabL
            (incB its) hnan2)

/-- Every slot of the built primitive-index array holds a valid primitive id,
and every primitive id occupies some slot. -/
theorem buildAccel_prims_range {D : Type} (pm : PrimModel D) (hn : 1 ≤ pm.n) :
    (∀ k, k < (buildAccel pm.toGeom).prims.size →
      getPrim (buildAccel pm.toGeom).prims k < pm.n) ∧
    (∀ i, i < pm.n → ∃ k, k < (buildAccel pm.toGeom).prims.size ∧
      getPrim (buildAccel pm.toGeom).prims k = i) := by
  have hgn : pm.toGeom.n = pm.n := rfl
  obtain ⟨hsize, hperm, -⟩ := buildAccel_spec pm.toGeom hn
  have hn0 : ∀ k2, k2 < pm.toGeom.n →
      ((List.range pm.toGeom.n).toArray).getD k2 0 = k2 := by
    intro k2 hk2
    have hsz : k2 < ((List.range pm.toGeom.n).toArray).size := by simpa using hk2
    have h1 : ((List.range pm.toGeom.n).toArray).getD k2 0 =
        ((List.range pm.toGeom.n).toArray)[k2] := by
      unfold Array.getD
      rw [dif_pos hsz]
      rfl
    rw [h1]
    have hk2l : k2 < (List.range pm.toGeom.n).length := by simpa using hk2
    have h2 : ((List.range pm.toGeom.n).toArray)[k2] =
        (List.range pm.toGeom.n)[k2] := rfl
    rw [h2, List.getElem_range]
  constructor
  · intro k hk
    have hk2 : 0 ≤ k ∧ k < 0 + pm.toGeom.n := by omega
    obtain ⟨k2, h1, h2, h3⟩ := permWithin_getD_mem hperm hk2.1 hk2.2
    have := hn0 k2 (by omega)
    unfold getPrim
    rw [← h3, this]
    omega
  · intro i hi
    have hmem : i ∈ rangeList (buildAccel pm.toGeom).prims 0 pm.toGeom.n := by
      rw [← List.count_pos_iff]
      rw [hperm.2.2 i, rangeList_range pm.toGeom.n]
      rw [List.count_pos_iff]
      exact List.mem_range.mpr hi
    obtain ⟨k, hk1, hk2, hk3⟩ := mem_rangeList_iff.mp hmem
    exact ⟨k, by omega, hk3⟩

/-- **C1** (amended).  Over the BVH built from a conforming indexed
collection with at least one primitive, for any ray whose slab tests never
produce an IEEE `0/0` against a node box and any incoming record with a
non-NaN distance: (1) a `true` return reports an eligible hit — a primitive
hit at a distance in `[ε, its.t]` — and stores its distance and surface data;
(2) the resulting distance is a lower bound of every eligible hit distance
(so a reported hit is the closest); (3) a hit at a distance strictly below
the incoming `its.t` is never missed; (4) a `false` return leaves distance
and data unchanged.  (The original claim's unqualified "returns true iff some
primitive intersects in `[ε, its.t]`" fails at the inclusive boundary, where
the strict `<` pruning of `intersectNode`/`intersect` may skip a subtree
whose hit lies exactly at the incoming distance: see
`accel_boundary_hit_missed`.) -/
theorem accel_intersect_spec {D : Type} (pm : PrimModel D)
    (pint : ℕ → Ray → AIts D → Bool × AIts D)
    (hconf : Conforms pm pint) (hbounds : HitsInBounds pm)
    (hn : 1 ≤ pm.n) (ray : Ray) (its0 : AIts D)
    (hnonan : ∀ j, j < (buildAccel pm.toGeom).nodes.size →
      boxNoNaN (getNode (buildAccel pm.toGeom) j).aabb ray)
    (htnan : its0.t ≠ .nan) :
    ((aIntersect (buildAccel pm.toGeom) pint ray its0).1 = true →
      ∃ i, i < pm.n ∧ ∃ t, t ∈ pm.hits i ray ∧ Epsilon ≤ t ∧
        FV.le (.fin t) its0.t ∧
        (aIntersect (buildAccel pm.toGeom) pint ray its0).2.t = .fin t ∧
        (aIntersect (buildAccel pm.toGeom) pint ray its0).2.data =
          some (pm.dataOf i t)) ∧
    (∀ i, i < pm.n → ∀ t, t ∈ pm.hits i ray → Epsilon ≤ t →
      FV.le (.fin t) its0.t →
      FV.le (aIntersect (buildAccel pm.toGeom) pint ray its0).2.t (.fin t)) ∧
    ((∃ i, i < pm.n ∧ ∃ t, t ∈ pm.hits i ray ∧ Epsilon ≤ t ∧
      FV.lt (.fin t) its0.t = true) →
      (aIntersect (buildAccel pm.toGeom) pint ray its0).1 = true) ∧
    ((aIntersect (buildAccel pm.toGeom) pint ray its0).1 = false →
      (aIntersect (buildAccel pm.toGeom) pint ray its0).2.t = its0.t ∧
      (aIntersect (buildAccel pm.toGeom) pint ray its0).2.data = its0.data) := by
  have hgn : pm.toGeom.n = pm.n := rfl
  obtain ⟨hsize, hperm, S, hT, hcov⟩ := buildAccel_spec pm.toGeom hn
  obtain ⟨hvalid, hslot⟩ := buildAccel_prims_range pm hn
  have hrootnn : boxNoNaN
      ((buildAccel pm.toGeom).nodes.getD 0 BNode.default).aabb ray :=
    hnonan 0 (hT.mem_lt 0 hT.self_mem)
  have hrootfin := hT.box_spec.1
  have hrootslab : ∀ i, i < pm.n → ∀ t, t ∈ pm.hits i ray → Epsilon ≤ t →
      FV.le (intersectAABB
        ((buildAccel pm.toGeom).nodes.getD 0 BNode.default).aabb ray) (.fin t) := by
    intro i hi t ht1 ht2
    obtain ⟨k, hk1, hk2⟩ := hslot i hi
    refine slab_le_hit _ ray t ht2 ?_ hrootnn hrootfin
    refine point_in_fbox (hT.box_spec.2 k (by omega) (by omega)) ?_
    rw [hk2]
    exact hbounds i hi ray t ht1
  have hrootTnn : intersectAABB
      ((buildAccel pm.toGeom).nodes.getD 0 BNode.default).aabb ray ≠ .nan :=
    slab_not_nan _ _ hrootnn hrootfin
  have hcard : S.card ≤ (buildAccel pm.toGeom).nodes.size := by
    have hsub : S ⊆ Finset.range (buildAccel pm.toGeom).nodes.size :=
      fun k hk => Finset.mem_range.mpr (hT.mem_lt k hk)
    have := Finset.card_le_card hsub
    rwa [Finset.card_range] at this
  unfold aIntersect accelIntersect
  rw [if_neg (by omega : ¬ (buildAccel pm.toGeom).prims.size = 0)]
  by_cases hg : FV.lt (intersectAABB
      ((buildAccel pm.toGeom).nodes.getD 0 BNode.default).aabb ray)
      (AIts.t its0) = true
  · rw [if_pos hg]
    obtain ⟨C1, E1, B1, A1, D1, F1⟩ := intersectNode_spec pm pint hconf hbounds
      (fun i => { i with bvhCounter := i.bvhCounter + 1 })
      (fun i => { i with primCounter := i.primCounter + 1 })
      (fun x => ⟨rfl, rfl⟩) (fun x => ⟨rfl, rfl⟩)
      (buildAccel pm.toGeom).nodes (buildAccel pm.toGeom).prims ray hvalid
      (buildAccel pm.toGeom).nodes.size 0 0 pm.toGeom.n S its0 hT hcard (by omega)
      (fun k hk => hnonan k (hT.mem_lt k hk)) htnan
    refine ⟨?_, ?_, ?_, ?_⟩
    · intro htrue
      obtain ⟨k, hk1, hk2, t, ht1, ht2, ht3, ht4, ht5⟩ := A1 htrue
      exact ⟨getPrim (buildAccel pm.toGeom).prims k, hvalid k (by omega),
        t, ht1, ht2, ht3, ht4, ht5⟩
    · intro i hi t ht1 ht2 ht3
      obtain ⟨k, hk1, hk2⟩ := hslot i hi
      refine D1 k (by omega) (by omega) t ?_ ht2 ht3
      rw [hk2]
      exact ht1
    · rintro ⟨i, hi, t, ht1, ht2, ht3⟩
      obtain ⟨k, hk1, hk2⟩ := hslot i hi
      refine F1 ⟨k, by omega, by omega, t, ?_, ht2, ht3⟩
      rw [hk2]
      exact ht1
    · exact B1
  · rw [if_neg hg]
    have hgle : FV.le its0.t (intersectAABB
        ((buildAccel pm.toGeom).nodes.getD 0 BNode.default).aabb ray) :=
      (FV.not_lt_iff_le hrootTnn htnan).mp (Bool.eq_false_iff.mpr hg)
    refine ⟨?_, ?_, ?_, fun _ => ⟨rfl, rfl⟩⟩
    · intro htrue
      exact absurd htrue (by simp)
    · intro i hi t ht1 ht2 ht3
      exact FV.trans_le hgle (hrootslab i hi t ht1 ht2)
    · rintro ⟨i, hi, t, ht1, ht2, ht3⟩
      exact absurd (FV.lt_of_le_of_lt (hrootslab i hi t ht1 ht2) ht3) hg

/-! ## Claim C1: the concrete boundary instance -/

/-- The boundary ray of the C1 counterexample: from `(0,0,-1)` along `+z`. -/
def c1ray : Ray := ⟨⟨0, 0, -1⟩, ⟨0, 0, 1⟩, 0⟩

/-- One flat primitive in the plane `z = 0`, hit by `c1ray` exactly at
distance 1 (and by no other ray, so its hits stay inside its box). -/
def c1pm : PrimModel ℕ :=
  ⟨1, fun _ => ⟨⟨-1, -1, 0⟩, ⟨1, 1, 0⟩⟩, fun _ => ⟨0, 0, 0⟩,
   fun _ r => if r = c1ray then [1] else [], fun i _ => i⟩

/-- The BVH over the single flat primitive, in explicit form. -/
theorem c1St_eq :
    buildAccel c1pm.toGeom =
      ⟨#[⟨⟨⟨.fin (-1), .fin (-1), .fin 0⟩, ⟨.fin 1, .fin 1, .fin 0⟩⟩, 0, 1⟩], #[0]⟩ := rfl

/-- The slab test of the flat box against the boundary ray enters exactly at
`tNear = 1`. -/
theorem c1_slab :
    intersectAABB ⟨⟨.fin (-1), .fin (-1), .fin 0⟩, ⟨.fin 1, .fin 1, .fin 0⟩⟩ c1ray =
      .fin 1 := by
  norm_num [intersectAABB, slabDiv, fvSubQ, fdivQ, ewMin, ewMax, cppMin, cppMax,
    minComponent3, maxComponent3, FV.lt, Epsilon, c1ray]

/-- The flat primitive's hits stay inside its reported box. -/
theorem c1pm_bounds : HitsInBounds c1pm := by
  intro i hi ray t ht
  simp only [c1pm] at ht ⊢
  by_cases hr : ray = c1ray
  · rw [if_pos hr] at ht
    rw [List.mem_singleton] at ht
    subst ht
    subst hr
    norm_num [inQBox, rayAt, c1ray, smul3, Vec3.add_def]
  · rw [if_neg hr] at ht
    exact absurd ht (List.not_mem_nil t)

/-- No slab plane of the built structure passes through the ray origin on a
degenerate axis: the boundary ray is IEEE-clean against the one node box. -/
theorem c1_nonan : ∀ j, j < (buildAccel c1pm.toGeom).nodes.size →
    boxNoNaN (getNode (buildAccel c1pm.toGeom) j).aabb c1ray := by
  intro j hj
  have hj0 : j = 0 := by
    rw [c1St_eq] at hj
    simp at hj
    omega
  subst hj0
  have hroot : getNode (buildAccel c1pm.toGeom) 0 =
      ⟨⟨⟨.fin (-1), .fin (-1), .fin 0⟩, ⟨.fin 1, .fin 1, .fin 0⟩⟩, 0, 1⟩ := rfl
  rw [hroot]
  intro ax hax
  interval_cases ax <;> norm_num [FV3.comp, Vec3.comp, c1ray]

/-- Counterexample to C1 as stated: the flat primitive intersects the
boundary ray at distance 1, inside `[ε, its.t]` for the incoming
`its.t = 1`, and its per-primitive intersect conforms to the contract — yet
`intersect` returns false, because the root slab entry `tNear = 1` is pruned
by the strict comparison `tNear < its.t`. -/
theorem accel_boundary_hit_missed :
    Conforms c1pm (canonicalPint c1pm) ∧
    HitsInBounds c1pm ∧
    (∃ i, i < c1pm.n ∧ ∃ t, t ∈ c1pm.hits i c1ray ∧ Epsilon ≤ t ∧
      FV.le (.fin t) (.fin 1)) ∧
    (aIntersect (buildAccel c1pm.toGeom) (canonicalPint c1pm) c1ray
      ⟨.fin 1, none, 0, 0⟩).1 = false := by
  refine ⟨canonicalPint_conforms c1pm, c1pm_bounds, ?_, ?_⟩
  · refine ⟨0, by norm_num [c1pm], 1, ?_, by norm_num [Epsilon], FV.refl_le _⟩
    simp [c1pm]
  · have hroot : (buildAccel c1pm.toGeom).nodes.getD 0 BNode.default =
        ⟨⟨⟨.fin (-1), .fin (-1), .fin 0⟩, ⟨.fin 1, .fin 1, .fin 0⟩⟩, 0, 1⟩ := rfl
    have hsize : (buildAccel c1pm.toGeom).prims.size = 1 := rfl
    simp only [aIntersect, accelIntersect, hsize, hroot, c1_slab]
    norm_num [FV.lt]

/-- Witness for the amended C1: the same flat scene queried with
`its.t = +∞` (all hypotheses hold, and the four amended guarantees follow by
applying the theorem). -/
theorem accel_intersect_spec_witness :
    (1 ≤ c1pm.n) ∧
    ((FV.pinf : FV) ≠ .nan) ∧
    (((aIntersect (buildAccel c1pm.toGeom) (canonicalPint c1pm) c1ray
        ⟨.pinf, none, 0, 0⟩).1 = true →
      ∃ i, i < c1pm.n ∧ ∃ t, t ∈ c1pm.hits i c1ray ∧ Epsilon ≤ t ∧
        FV.le (.fin t) (AIts.t (⟨.pinf, none, 0, 0⟩ : AIts ℕ)) ∧
        (aIntersect (buildAccel c1pm.toGeom) (canonicalPint c1pm) c1ray
          ⟨.pinf, none, 0, 0⟩).2.t = .fin t ∧
        (aIntersect (buildAccel c1pm.toGeom) (canonicalPint c1pm) c1ray
          ⟨.pinf, none, 0, 0⟩).2.data = some (c1pm.dataOf i t)) ∧
    (∀ i, i < c1pm.n → ∀ t, t ∈ c1pm.hits i c1ray → Epsilon ≤ t →
      FV.le (.fin t) (AIts.t (⟨.pinf, none, 0, 0⟩ : AIts ℕ)) →
      FV.le (aIntersect (buildAccel c1pm.toGeom) (canonicalPint c1pm) c1ray
        ⟨.pinf, none, 0, 0⟩).2.t (.fin t)) ∧
    ((∃ i, i < c1pm.n ∧ ∃ t, t ∈ c1pm.hits i c1ray ∧ Epsilon ≤ t ∧
      FV.lt (.fin t) (AIts.t (⟨.pinf, none, 0, 0⟩ : AIts ℕ)) = true) →
      (aIntersect (buildAccel c1pm.toGeom) (canonicalPint c1pm) c1ray
        ⟨.pinf, none, 0, 0⟩).1 = true) ∧
    ((aIntersect (buildAccel c1pm.toGeom) (canonicalPint c1pm) c1ray
        ⟨.pinf, none, 0, 0⟩).1 = false →
      (aIntersect (buildAccel c1pm.toGeom) (canonicalPint c1pm) c1ray
        ⟨.pinf, none, 0, 0⟩).2.t = AIts.t (⟨.pinf, none, 0, 0⟩ : AIts ℕ) ∧
      (aIntersect (buildAccel c1pm.toGeom) (canonicalPint c1pm) c1ray
        ⟨.pinf, none, 0, 0⟩).2.data = (⟨.pinf, none, 0, 0⟩ : AIts ℕ).data)) :=
  ⟨le_refl 1, fun h => FV.noConfusion h,
   accel_intersect_spec c1pm (canonicalPint c1pm) (canonicalPint_conforms c1pm)
     c1pm_bounds (le_refl 1) c1ray ⟨.pinf, none, 0, 0⟩ c1_nonan
     (fun h => FV.noConfusion h)⟩

end PhotonPulse
